import Mathlib

/-!
Shallow embedding of the UFOMap `OctreeBase` octree (octree_base.h) together
with the `Vector3` arithmetic it uses (vector3.h).  Floating point scalars are
modelled as rationals; the transcendental helpers (`std::log`, `std::exp`,
`std::sqrt`) that floats provide are passed in as explicit function parameters
where an operation needs them, so that every definition stays executable.
The `Key`/`Code` locational types are not part of the provided sources; they
are modelled from the specification (section 3).
-/

set_option maxHeartbeats 1000000
set_option maxRecDepth 100000

namespace UFOMap

/-- Largest finite value of a single precision float
(`std::numeric_limits<float>::max()`), as a rational. -/
def floatMax : ℚ := 2 ^ 128 - 2 ^ 104

/-- Lowest finite value of a single precision float
(`std::numeric_limits<float>::lowest()`), as a rational. -/
def floatLowest : ℚ := -(2 ^ 128 - 2 ^ 104)

/-- `std::clamp(v, lo, hi)`: `v < lo` gives `lo`, `hi < v` gives `hi`,
otherwise `v` itself. -/
def clampQ (v lo hi : ℚ) : ℚ := if v < lo then lo else if hi < v then hi else v

/-- The sensor-model `probability` function `1 - (1 / (1 + exp(logit)))`,
with the float `exp` passed in as the parameter `pexp`. -/
def probabilityQ (pexp : ℚ → ℚ) (logit : ℚ) : ℚ := 1 - (1 / (1 + pexp logit))

/-- The sensor-model `logit` function `log(p / (1 - p))`, with the float
`log` passed in as the parameter `plog`. -/
def logitQ (plog : ℚ → ℚ) (probability : ℚ) : ℚ := plog (probability / (1 - probability))

/-- Exact square root on rationals that are squares of rationals; stands in
for the float `sqrt` at the concrete inputs used by witnesses, where it is
exact. -/
def ratSqrt (q : ℚ) : ℚ := (Nat.sqrt q.num.toNat : ℚ) / (Nat.sqrt q.den : ℚ)

/-- `ufomap_math::Vector3` (also used as `Point3`): three scalar components. -/
structure Point3 where
  x : ℚ
  y : ℚ
  z : ℚ
deriving DecidableEq

namespace Point3

/-- Component access `v[i]` for `i = 0, 1, 2`. -/
def get (v : Point3) (i : ℕ) : ℚ := if i = 0 then v.x else if i = 1 then v.y else v.z

/-- Functional update of component `i`. -/
def setIdx (v : Point3) (i : ℕ) (q : ℚ) : Point3 :=
  if i = 0 then { v with x := q } else if i = 1 then { v with y := q } else { v with z := q }

def add (a b : Point3) : Point3 := ⟨a.x + b.x, a.y + b.y, a.z + b.z⟩

def sub (a b : Point3) : Point3 := ⟨a.x - b.x, a.y - b.y, a.z - b.z⟩

def smul (a : Point3) (q : ℚ) : Point3 := ⟨a.x * q, a.y * q, a.z * q⟩

def sdiv (a : Point3) (q : ℚ) : Point3 := ⟨a.x / q, a.y / q, a.z / q⟩

/-- `Vector3::squaredNorm`. -/
def squaredNorm (a : Point3) : ℚ := a.x * a.x + a.y * a.y + a.z * a.z

/-- `Vector3::norm`, with the float `sqrt` passed in as `rsqrt`. -/
def norm (rsqrt : ℚ → ℚ) (a : Point3) : ℚ := rsqrt a.squaredNorm

/-- `Vector3::distance`. -/
def distance (rsqrt : ℚ → ℚ) (a b : Point3) : ℚ :=
  rsqrt ((a.x - b.x) * (a.x - b.x) + (a.y - b.y) * (a.y - b.y) + (a.z - b.z) * (a.z - b.z))

/-- `Vector3::normalize` (divide by the norm). -/
def normalize (rsqrt : ℚ → ℚ) (a : Point3) : Point3 := a.sdiv (a.norm rsqrt)

/-- `Vector3::min`: the minimum of the three components. -/
def minv (a : Point3) : ℚ := min (min a.x a.y) a.z

/-- `Vector3::minElementIndex`. -/
def minElementIndex (a : Point3) : ℕ :=
  if a.x ≤ a.y then (if a.x ≤ a.z then 0 else 2) else (if a.y ≤ a.z then 1 else 2)

end Point3

/-- Modelled from the spec: a `Key` is a triple of per-axis integer keys with
an associated depth (spec section 3).  Components are modelled as integers;
the C++ stores them in unsigned variables, which only differs outside the
representable domain. -/
structure Key where
  x : ℤ
  y : ℤ
  z : ℤ
  depth : ℕ
deriving DecidableEq

namespace Key

/-- Component access `k[i]`. -/
def get (k : Key) (i : ℕ) : ℤ := if i = 0 then k.x else if i = 1 then k.y else k.z

/-- Functional update of component `i`. -/
def setIdx (k : Key) (i : ℕ) (v : ℤ) : Key :=
  if i = 0 then { k with x := v } else if i = 1 then { k with y := v } else { k with z := v }

end Key

/-- Modelled from the spec: a `Code` packs the Morton interleave of the three
key components plus the depth (spec section 3); it is represented here as the
(equivalent) triple of components with the depth stored alongside.  Components
are naturals, matching the unsigned packed word. -/
structure Code where
  x : ℕ
  y : ℕ
  z : ℕ
  depth : ℕ
deriving DecidableEq

namespace Code

/-- Modelled from the spec: `Code(key)` reinterprets the key components as
unsigned and keeps the depth. -/
def ofKey (k : Key) : Code := ⟨k.x.toNat, k.y.toNat, k.z.toNat, k.depth⟩

/-- Modelled from the spec: `childIdx(d)` reads the three interleaved bits at
level `d` (x contributes bit 0, y bit 1, z bit 2, matching
`getChildCenter`). -/
def getChildIdx (c : Code) (d : ℕ) : ℕ :=
  (if c.x.testBit d then 1 else 0) + (if c.y.testBit d then 2 else 0) +
    (if c.z.testBit d then 4 else 0)

/-- Modelled from the spec: `toDepth(d)` masks off the bits below level `d`
of each component and records depth `d`. -/
def toDepth (c : Code) (d : ℕ) : Code :=
  ⟨(c.x >>> d) <<< d, (c.y >>> d) <<< d, (c.z >>> d) <<< d, d⟩

/-- Modelled from the spec: `getChild(i)` appends the three bits of `i` at
level `depth - 1`, producing the child code one level deeper. -/
def getChild (c : Code) (i : ℕ) : Code :=
  ⟨c.x + (if i.testBit 0 then 1 <<< (c.depth - 1) else 0),
   c.y + (if i.testBit 1 then 1 <<< (c.depth - 1) else 0),
   c.z + (if i.testBit 2 then 1 <<< (c.depth - 1) else 0),
   c.depth - 1⟩

/-- Modelled from the spec: the key of a code, components reinterpreted. -/
def toKey (c : Code) : Key := ⟨c.x, c.y, c.z, c.depth⟩

end Code

/-- The in-memory octree node.  This single type plays the roles of both
`LEAF_NODE` (= `OccupancyNode`, just the `logit`) and `InnerNode<LEAF_NODE>`
(which embeds the leaf and adds the summary fields), mirroring the C++ code
that freely casts between the two based on the depth; at depth 0 the three
flags and the child field are unused.  `children = none` models a null child
pointer, `children = some cs` models an owned block of eight children (leaf
blocks hold depth-0 nodes). -/
inductive INode : Type where
  | mk (logit : ℚ) (contains_free contains_unknown all_children_same : Bool)
      (children : Option (List INode)) : INode

namespace INode

def logit : INode → ℚ
  | .mk l _ _ _ _ => l

def contains_free : INode → Bool
  | .mk _ f _ _ _ => f

def contains_unknown : INode → Bool
  | .mk _ _ u _ _ => u

def all_children_same : INode → Bool
  | .mk _ _ _ s _ => s

def children : INode → Option (List INode)
  | .mk _ _ _ _ c => c

/-- A default-constructed node: logit 0 (unknown), no children.  Modelled
from the spec: the `OccupancyNode` defaults are not part of the provided
sources; an empty tree is all unknown with a collapsed root. -/
def default : INode := .mk 0 false false true none

def withLogit (n : INode) (l : ℚ) : INode :=
  .mk l n.contains_free n.contains_unknown n.all_children_same n.children

def withFlags (n : INode) (f u : Bool) : INode :=
  .mk n.logit f u n.all_children_same n.children

def withSame (n : INode) (s : Bool) : INode :=
  .mk n.logit n.contains_free n.contains_unknown s n.children

def withChildren (n : INode) (c : Option (List INode)) : INode :=
  .mk n.logit n.contains_free n.contains_unknown n.all_children_same c

/-- The child block, with a null pointer giving the empty block. -/
def childList (n : INode) : List INode := n.children.getD []

/-- Child access `children[i]`. -/
def childAt (n : INode) (i : ℕ) : INode := n.childList.getD i default

/-- Functional update of child `i`. -/
def setChild (n : INode) (i : ℕ) (c : INode) : INode :=
  n.withChildren (some (n.childList.set i c))

end INode

/-- The scalar state of `OctreeBase` (octree_base.h, member list at the end of
the class).  `max_value_`, `resolution_factor_` and the node-size tables are
deterministic functions of `resolution`/`depth_levels` and are modelled as the
derived functions below. -/
structure Octree where
  resolution : ℚ
  depth_levels : ℕ
  occupancy_thres_log : ℚ
  free_thres_log : ℚ
  prob_hit_log : ℚ
  prob_miss_log : ℚ
  clamping_thres_min_log : ℚ
  clamping_thres_max_log : ℚ
  bbx_limit_enabled : Bool
  bbx_min : Point3
  bbx_max : Point3
  change_detection_enabled : Bool
  changed_codes : List Code
  root : INode
  automatic_pruning_enabled : Bool
  num_inner_nodes : ℤ
  num_inner_leaf_nodes : ℤ
  num_leaf_nodes : ℤ
  indices : List (Code × ℚ)
  tree_type : String

namespace Octree

/-- `max_value_ = pow(2, depth_levels - 1)`. -/
def maxValue (t : Octree) : ℤ := 2 ^ (t.depth_levels - 1)

/-- `resolution_factor_ = 1.0 / resolution`. -/
def resolutionFactor (t : Octree) : ℚ := 1 / t.resolution

/-- `getNodeSize(depth)`: entry `depth` of the doubling table seeded with the
resolution. -/
def getNodeSize (t : Octree) (depth : ℕ) : ℚ := t.resolution * 2 ^ depth

/-- `getNodeHalfSize(depth)`: half the resolution at depth 0, otherwise the
node size one level down. -/
def getNodeHalfSize (t : Octree) (depth : ℕ) : ℚ :=
  if depth = 0 then t.resolution / 2 else t.resolution * 2 ^ (depth - 1)

/-- `getMin()`: the minimum point the octree can store. -/
def getMin (t : Octree) : Point3 :=
  ⟨-(t.getNodeHalfSize t.depth_levels), -(t.getNodeHalfSize t.depth_levels),
    -(t.getNodeHalfSize t.depth_levels)⟩

/-- `getMax()`: the maximum point the octree can store. -/
def getMax (t : Octree) : Point3 :=
  ⟨t.getNodeHalfSize t.depth_levels, t.getNodeHalfSize t.depth_levels,
    t.getNodeHalfSize t.depth_levels⟩

/-- `binarySupport()`: the base class does not support the binary format. -/
def binarySupport (_t : Octree) : Bool := false

/-- `size()`. -/
def size (t : Octree) : ℤ := t.num_inner_nodes + t.num_inner_leaf_nodes + t.num_leaf_nodes

/-- Scalar `coordToKey(coord, depth)`: `(int)floor(resolution_factor_ * coord)`
re-centered by `max_value_`; at positive depth the low bits are replaced by
the cell-center bit (`>>`/`<<` on a signed int is floor division /
multiplication). -/
def coordToKeyF (t : Octree) (coord : ℚ) (depth : ℕ) : ℤ :=
  let key_value : ℤ := Int.floor (t.resolutionFactor * coord)
  if depth = 0 then key_value + t.maxValue
  else (key_value.fdiv (2 ^ depth)) * 2 ^ depth + 2 ^ (depth - 1) + t.maxValue

/-- `coordToKey(coord, depth)` on a point. -/
def coordToKey (t : Octree) (p : Point3) (depth : ℕ) : Key :=
  ⟨t.coordToKeyF p.x depth, t.coordToKeyF p.y depth, t.coordToKeyF p.z depth, depth⟩

/-- Scalar `keyToCoord(key, depth)`. -/
def keyToCoordF (t : Octree) (key : ℤ) (depth : ℕ) : ℚ :=
  if t.depth_levels = depth then 0
  else ((Int.floor (((key : ℚ) - (t.maxValue : ℚ)) / (2 ^ depth : ℚ)) : ℚ) + 1 / 2) *
    t.getNodeSize depth

/-- `keyToCoord(key)` at the key's own depth. -/
def keyToCoord (t : Octree) (k : Key) : Point3 :=
  ⟨t.keyToCoordF k.x k.depth, t.keyToCoordF k.y k.depth, t.keyToCoordF k.z k.depth⟩

/-- `keyToCoord(key, depth)` at an explicit depth. -/
def keyToCoordAt (t : Octree) (k : Key) (depth : ℕ) : Point3 :=
  ⟨t.keyToCoordF k.x depth, t.keyToCoordF k.y depth, t.keyToCoordF k.z depth⟩

/-- `inBBX(x, y, z)`: inside the enabled bounding box, or inside the
representable cube when the limit is disabled. -/
def inBBXF (t : Octree) (x y z : ℚ) : Bool :=
  let mn := if t.bbx_limit_enabled then t.bbx_min else t.getMin
  let mx := if t.bbx_limit_enabled then t.bbx_max else t.getMax
  decide (mn.x ≤ x ∧ mx.x ≥ x ∧ mn.y ≤ y ∧ mx.y ≥ y ∧ mn.z ≤ z ∧ mx.z ≥ z)

/-- `inBBX(coord)`. -/
def inBBXP (t : Octree) (p : Point3) : Bool := t.inBBXF p.x p.y p.z

/-- `getIntersection(d_1, d_2, p_1, p_2, hit)`: intersection of the segment
with a face plane, `none` when `0 <= d_1 * d_2`. -/
def getIntersection (d_1 d_2 : ℚ) (p_1 p_2 : Point3) : Option Point3 :=
  if 0 ≤ d_1 * d_2 then none
  else some (p_1.add ((p_2.sub p_1).smul (-d_1 / (d_2 - d_1))))

/-- Protected `inBBX(point, axis, bbx_min, bbx_max)`: strict containment on
the two off-axis components. -/
def inBBXAxis (point : Point3) (axis : ℕ) (bbx_min bbx_max : Point3) : Bool :=
  if axis = 0 then
    decide (point.z > bbx_min.z ∧ point.z < bbx_max.z ∧ point.y > bbx_min.y ∧ point.y < bbx_max.y)
  else if axis = 1 then
    decide (point.z > bbx_min.z ∧ point.z < bbx_max.z ∧ point.x > bbx_min.x ∧ point.x < bbx_max.x)
  else if axis = 2 then
    decide (point.x > bbx_min.x ∧ point.x < bbx_max.x ∧ point.y > bbx_min.y ∧ point.y < bbx_max.y)
  else false

/-- One slab-clipping pass of `moveLineIntoBBX`: try the three faces at
offset `facePt`, collecting at most two accepted hits. -/
def collectFaceHits (facePt : Point3) (bbx_min bbx_max origin endp : Point3)
    (hits : List Point3) : List Point3 :=
  (List.range 3).foldl
    (fun acc i =>
      if acc.length < 2 then
        match getIntersection (origin.get i - facePt.get i) (endp.get i - facePt.get i)
            origin endp with
        | some h => if inBBXAxis h i bbx_min bbx_max then acc ++ [h] else acc
        | none => acc
      else acc)
    hits

/-- `moveLineIntoBBX(bbx_min, bbx_max, origin, end)`: `none` models returning
`false` (line outside the box); otherwise the possibly moved endpoints. -/
def moveLineIntoBBX4 (t : Octree) (bbx_min bbx_max origin endp : Point3) :
    Option (Point3 × Point3) :=
  if (origin.x < bbx_min.x ∧ endp.x < bbx_min.x) ∨
      (origin.x > bbx_max.x ∧ endp.x > bbx_max.x) ∨
      (origin.y < bbx_min.y ∧ endp.y < bbx_min.y) ∨
      (origin.y > bbx_max.y ∧ endp.y > bbx_max.y) ∨
      (origin.z < bbx_min.z ∧ endp.z < bbx_min.z) ∨
      (origin.z > bbx_max.z ∧ endp.z > bbx_max.z) then
    none
  else
    let hits := collectFaceHits bbx_max bbx_min bbx_max origin endp
      (collectFaceHits bbx_min bbx_min bbx_max origin endp [])
    match hits with
    | [h] => if t.inBBXP origin then some (origin, h) else some (h, endp)
    | [h0, h1] =>
        if (origin.sub h0).squaredNorm + (endp.sub h1).squaredNorm ≤
            (origin.sub h1).squaredNorm + (endp.sub h0).squaredNorm then
          some (h0, h1)
        else
          some (h1, h0)
    | _ => some (origin, endp)

/-- `moveLineIntoBBX(origin, end)` against the enabled box or the whole
representable cube. -/
def moveLineIntoBBX (t : Octree) (origin endp : Point3) : Option (Point3 × Point3) :=
  let bbx_min := if t.bbx_limit_enabled then t.bbx_min else t.getMin
  let bbx_max := if t.bbx_limit_enabled then t.bbx_max else t.getMax
  t.moveLineIntoBBX4 bbx_min bbx_max origin endp

/-- `isOccupiedLog(logit)`. -/
def isOccupiedLog (t : Octree) (logit : ℚ) : Bool := decide (t.occupancy_thres_log < logit)

/-- `isFreeLog(logit)`. -/
def isFreeLog (t : Octree) (logit : ℚ) : Bool := decide (t.free_thres_log > logit)

/-- `isUnknownLog(logit)`. -/
def isUnknownLog (t : Octree) (logit : ℚ) : Bool :=
  decide (t.free_thres_log ≤ logit ∧ t.occupancy_thres_log ≥ logit)

/-- Protected `isOccupied(LEAF_NODE)`. -/
def isOccupiedN (t : Octree) (n : INode) : Bool := t.isOccupiedLog n.logit

/-- Protected `isFree(LEAF_NODE)`. -/
def isFreeN (t : Octree) (n : INode) : Bool := t.isFreeLog n.logit

/-- Protected `isUnknown(LEAF_NODE)`. -/
def isUnknownN (t : Octree) (n : INode) : Bool := t.isUnknownLog n.logit

/-- Protected `isLeaf(InnerNode)`: `all_children_same`. -/
def isLeafI (n : INode) : Bool := n.all_children_same

/-- Protected `hasChildren(InnerNode)`: `!all_children_same`. -/
def hasChildrenI (n : INode) : Bool := !n.all_children_same

end Octree

/-- The value of a `Node<LEAF_NODE>` handle: a snapshot of the referenced
node's fields together with the code the handle carries. -/
structure NodeRet where
  nlogit : ℚ
  ncontains_free : Bool
  ncontains_unknown : Bool
  nall_children_same : Bool
  ncode : Code
deriving DecidableEq

/-- Snapshot a node into a handle. -/
def NodeRet.ofINode (n : INode) (c : Code) : NodeRet :=
  ⟨n.logit, n.contains_free, n.contains_unknown, n.all_children_same, c⟩

/-- Public `isLeaf(Node)`: depth 0 nodes are leaves, otherwise
`all_children_same` decides. -/
def NodeRet.isLeafNode (r : NodeRet) : Bool :=
  if r.ncode.depth = 0 then true else r.nall_children_same

namespace Octree

/-- The descent loop of `getNode(code, return_nullptr)`, structurally on the
current depth.  On a childless (collapsed) node it stops and reports the node
with `code.toDepth(depth + 1)`; `none` models returning the null node. -/
def getNodeLoop (code : Code) (return_nullptr : Bool) : ℕ → INode → Option NodeRet
  | 0, n => some (NodeRet.ofINode n code)
  | depth + 1, n =>
    if depth + 1 > code.depth then
      if ¬ hasChildrenI n then
        if return_nullptr then none
        else some (NodeRet.ofINode n (code.toDepth (depth + 1 + 1)))
      else
        getNodeLoop code return_nullptr depth (n.childAt (code.getChildIdx depth))
    else some (NodeRet.ofINode n code)

/-- `getNode(code, return_nullptr)` from the root. -/
def getNode (t : Octree) (code : Code) (return_nullptr : Bool) : Option NodeRet :=
  getNodeLoop code return_nullptr t.depth_levels t.root

/-- `getNode(code)` with the default `return_nullptr = false`, which always
produces a node. -/
def getNodeD (t : Octree) (code : Code) : NodeRet :=
  (t.getNode code false).getD (NodeRet.ofINode INode.default code)

/-- `getChild(node, child_idx)`: `Except.error` models throwing
`std::exception`. -/
def getChild (t : Octree) (node : NodeRet) (child_idx : ℕ) : Except Unit NodeRet :=
  if ¬ node.isLeafNode then .error ()
  else if 7 < child_idx then .error ()
  else .ok (t.getNodeD (node.ncode.getChild child_idx))

/-- `isOccupied(Code)`. -/
def isOccupiedC (t : Octree) (c : Code) : Bool := t.isOccupiedLog (t.getNodeD c).nlogit

/-- `isFree(Code)`. -/
def isFreeC (t : Octree) (c : Code) : Bool := t.isFreeLog (t.getNodeD c).nlogit

/-- `isUnknown(Code)`. -/
def isUnknownC (t : Octree) (c : Code) : Bool := t.isUnknownLog (t.getNodeD c).nlogit

/-- `isOccupied(Key)`. -/
def isOccupiedK (t : Octree) (k : Key) : Bool := t.isOccupiedC (Code.ofKey k)

/-- `isUnknown(Key)`. -/
def isUnknownK (t : Octree) (k : Key) : Bool := t.isUnknownC (Code.ofKey k)

/-- `CodeSet::insert`: add the code when absent. -/
def insertChanged (t : Octree) (c : Code) : Octree :=
  if c ∈ t.changed_codes then t else { t with changed_codes := c :: t.changed_codes }

/-- `createChildren(inner_node, depth)`: allocate the 8-child block (leaf
block at depth 1) and adjust the node counters; returns `false` leaving
everything untouched when a block already exists. -/
def createChildren (t : Octree) (n : INode) (depth : ℕ) : Bool × INode × Octree :=
  match n.children with
  | some _ => (false, n, t)
  | none =>
    if depth = 1 then
      let n := (n.withChildren (some (List.replicate 8 INode.default))).withSame false
      (true, n, { t with num_leaf_nodes := t.num_leaf_nodes + 8,
                         num_inner_leaf_nodes := t.num_inner_leaf_nodes - 1,
                         num_inner_nodes := t.num_inner_nodes + 1 })
    else
      let child := INode.default
      let child := child.withFlags (t.isFreeN child) (t.isUnknownN child)
      let n := (n.withChildren (some (List.replicate 8 child))).withSame false
      (true, n, { t with num_inner_leaf_nodes := t.num_inner_leaf_nodes + 7,
                         num_inner_nodes := t.num_inner_nodes + 1 })

/-- `expand(inner_node, depth)`: create the children when they are absent and
seed every child from the parent; a no-op on a node that is not collapsed. -/
def expand (t : Octree) (n : INode) (depth : ℕ) : Bool × INode × Octree :=
  if ¬ n.all_children_same then (false, n, t)
  else
    let (_, n, t) := t.createChildren n depth
    if depth = 1 then
      let n := n.withChildren (some (n.childList.map fun c => c.withLogit n.logit))
      (true, n, t)
    else
      let n := n.withChildren (some (n.childList.map fun c =>
        (((c.withLogit n.logit).withFlags n.contains_free n.contains_unknown).withSame true)))
      (true, n, t)

/-- `deleteChildren(inner_node, depth, manual_pruning)`: mark the node
collapsed; actually free the block (recursively below) only when pruning is
permitted.  Never called at depth 0 (the depth-0 case here mirrors the
depth-1 one). -/
def deleteChildren (t : Octree) (manual_pruning : Bool) : INode → ℕ → INode × Octree
  | n, 0 =>
    let n := n.withSame true
    if n.children.isNone ∨ (¬ manual_pruning ∧ ¬ t.automatic_pruning_enabled) then (n, t)
    else
      (n.withChildren none,
        { t with num_leaf_nodes := t.num_leaf_nodes - 8,
                 num_inner_leaf_nodes := t.num_inner_leaf_nodes + 1,
                 num_inner_nodes := t.num_inner_nodes - 1 })
  | n, 1 =>
    let n := n.withSame true
    if n.children.isNone ∨ (¬ manual_pruning ∧ ¬ t.automatic_pruning_enabled) then (n, t)
    else
      (n.withChildren none,
        { t with num_leaf_nodes := t.num_leaf_nodes - 8,
                 num_inner_leaf_nodes := t.num_inner_leaf_nodes + 1,
                 num_inner_nodes := t.num_inner_nodes - 1 })
  | n, depth + 2 =>
    let n := n.withSame true
    if n.children.isNone ∨ (¬ manual_pruning ∧ ¬ t.automatic_pruning_enabled) then (n, t)
    else
      let t := n.childList.foldl
        (fun t c => (t.deleteChildren manual_pruning c (depth + 1)).2) t
      (n.withChildren none,
        { t with num_inner_leaf_nodes := t.num_inner_leaf_nodes - 7,
                 num_inner_nodes := t.num_inner_nodes - 1 })

/-- `prune(inner_node, depth, manual_pruning)`: delete the children and
recompute the node's own contains flags from its logit. -/
def prune (t : Octree) (n : INode) (depth : ℕ) (manual_pruning : Bool) : INode × Octree :=
  let (n, t) := t.deleteChildren manual_pruning n depth
  (n.withFlags (t.isFreeN n) (t.isUnknownN n), t)

end Octree

/-- `isNodeCollapsible` on a leaf block: all logits equal the first one. -/
def isNodeCollapsibleLeaf (cs : List INode) : Bool :=
  match cs with
  | [] => true
  | c0 :: rest => rest.all fun c => decide (c0.logit = c.logit)

/-- `isNodeCollapsible` on an inner block: the first child is a leaf and
every other child is a leaf with the same logit. -/
def isNodeCollapsibleInner (cs : List INode) : Bool :=
  match cs with
  | [] => true
  | c0 :: rest =>
    Octree.isLeafI c0 && rest.all fun c => decide (c0.logit = c.logit) && Octree.isLeafI c

/-- `getMaxChildLogit` on an inner block: fold starting from the float
`lowest()`. -/
def getMaxChildLogitInner (cs : List INode) : ℚ :=
  cs.foldl (fun m c => if m < c.logit then c.logit else m) floatLowest

/-- `getMaxChildLogit` on a leaf block: fold starting from the first child's
logit. -/
def getMaxChildLogitLeaf (cs : List INode) : ℚ :=
  cs.foldl (fun m c => if m < c.logit then c.logit else m) (cs.headD INode.default).logit

namespace Octree

/-- `updateNode(node, children, depth)` on a leaf block: collapse when
possible, otherwise recompute the summary logit and the contains flags from
the children's logits. -/
def updateNodeLeaf (t : Octree) (n : INode) (depth : ℕ) : Bool × INode × Octree :=
  let cs := n.childList
  if isNodeCollapsibleLeaf cs then
    let n := n.withLogit (cs.headD INode.default).logit
    let (n, t) := t.prune n depth false
    (true, n, t)
  else
    let new_logit := getMaxChildLogitLeaf cs
    let new_contains_free := cs.any fun c => t.isFreeN c
    let new_contains_unknown := cs.any fun c => !t.isFreeN c && t.isUnknownN c
    if n.logit ≠ new_logit ∨ n.contains_free ≠ new_contains_free ∨
        n.contains_unknown ≠ new_contains_unknown then
      (true, (n.withLogit new_logit).withFlags new_contains_free new_contains_unknown, t)
    else (false, n, t)

/-- `updateNode(node, children, depth)` on an inner block: collapse when
possible, otherwise recompute the summary from the children's summaries. -/
def updateNodeInner (t : Octree) (n : INode) (depth : ℕ) : Bool × INode × Octree :=
  let cs := n.childList
  if isNodeCollapsibleInner cs then
    let n := n.withLogit (cs.headD INode.default).logit
    let (n, t) := t.prune n depth false
    (true, n, t)
  else
    let new_logit := getMaxChildLogitInner cs
    let new_contains_free := cs.any fun c => c.contains_free
    let new_contains_unknown := cs.any fun c => c.contains_unknown
    if n.logit ≠ new_logit ∨ n.contains_free ≠ new_contains_free ∨
        n.contains_unknown ≠ new_contains_unknown then
      (true, (n.withLogit new_logit).withFlags new_contains_free new_contains_unknown, t)
    else (false, n, t)

/-- `updateNode(node, depth)`: dispatch on the depth to the leaf-block or
inner-block summary recomputation. -/
def updateNode (t : Octree) (n : INode) (depth : ℕ) : Bool × INode × Octree :=
  if depth = 1 then t.updateNodeLeaf n depth else t.updateNodeInner n depth

/-- `updateNodeValueRecurs(code, logit_value, node, current_depth, set_value)`:
descend to the code's depth (expanding collapsed nodes), mutate the target
(assign when `set_value`, add otherwise, clamped either way), then recompute
the ancestors' summaries on the way back up.  An additive update of an
occupied inner target with children is propagated into every child.  Returns
the `(Node, changed)` pair together with the rewritten subtree and the
updated counters / change set. -/
def updateNodeValueRecurs (code : Code) (logit_value : ℚ) (set_value : Bool) :
    ℕ → Octree → INode → (NodeRet × Bool) × INode × Octree
  | 0, t, n =>
    let n := n.withLogit (clampQ (if set_value then logit_value else n.logit + logit_value)
      t.clamping_thres_min_log t.clamping_thres_max_log)
    let t := if t.change_detection_enabled then t.insertChanged code else t
    ((NodeRet.ofINode n code, true), n, t)
  | cd + 1, t, n =>
    if cd + 1 > code.depth then
      let (_, n, t) := t.expand n (cd + 1)
      let child_idx := code.getChildIdx cd
      let child := n.childAt child_idx
      let ((res, changed), child, t) :=
        updateNodeValueRecurs code logit_value set_value cd t child
      let n := n.setChild child_idx child
      if changed then
        let (changed2, n, t) := t.updateNode n (cd + 1)
        let t :=
          if changed2 ∧ t.change_detection_enabled then t.insertChanged (code.toDepth (cd + 1))
          else t
        ((res, changed2), n, t)
      else ((res, changed), n, t)
    else
      if set_value then
        let n := n.withLogit (clampQ logit_value t.clamping_thres_min_log
          t.clamping_thres_max_log)
        let (n, t) := t.prune n (cd + 1) false
        let t := if t.change_detection_enabled then t.insertChanged code else t
        ((NodeRet.ofINode n code, true), n, t)
      else
        let n := n.withLogit (clampQ (n.logit + logit_value) t.clamping_thres_min_log
          t.clamping_thres_max_log)
        let (n, t) :=
          if ¬ t.isOccupiedN n then t.prune n (cd + 1) false
          else if hasChildrenI n then
            let (n, t) := (List.range 8).foldl
              (fun (acc : INode × Octree) child_idx =>
                let child := acc.1.childAt child_idx
                let (_, child, t) :=
                  updateNodeValueRecurs (code.getChild child_idx) logit_value set_value cd
                    acc.2 child
                (acc.1.setChild child_idx child, t))
              (n, t)
            let (_, n, t) := t.updateNode n (cd + 1)
            (n, t)
          else (n, t)
        let t := if t.change_detection_enabled then t.insertChanged code else t
        ((NodeRet.ofINode n code, true), n, t)
termination_by structural cd _t _n => cd

/-- `updateNodeValue(code, logit_update)`: short-circuit when the current
logit is already saturated in the direction of the update, otherwise run the
recursive update from the root. -/
def updateNodeValue (t : Octree) (code : Code) (logit_update : ℚ) : NodeRet × Octree :=
  let node := t.getNodeD code
  if (0 ≤ logit_update ∧ node.nlogit ≥ t.clamping_thres_max_log) ∨
      (0 ≥ logit_update ∧ node.nlogit ≤ t.clamping_thres_min_log) then (node, t)
  else
    let r := updateNodeValueRecurs code logit_update false t.depth_levels t t.root
    (r.1.1, { r.2.2 with root := r.2.1 })

/-- `setNodeValue(code, logit_value)`: clamp, then assign through the
recursive update unless the stored logit already equals the clamped value. -/
def setNodeValue (t : Octree) (code : Code) (logit_value : ℚ) : NodeRet × Octree :=
  let lv := clampQ logit_value t.clamping_thres_min_log t.clamping_thres_max_log
  let node := t.getNodeD code
  if lv ≠ node.nlogit then
    let r := updateNodeValueRecurs code lv true t.depth_levels t t.root
    (r.1.1, { r.2.2 with root := r.2.1 })
  else (node, t)

/-- `integrateHit(code)`. -/
def integrateHit (t : Octree) (code : Code) : NodeRet × Octree :=
  t.updateNodeValue code t.prob_hit_log

/-- `integrateMiss(code)`. -/
def integrateMiss (t : Octree) (code : Code) : NodeRet × Octree :=
  t.updateNodeValue code t.prob_miss_log

end Octree

/-- The per-axis `step` values of the voxel traversal. -/
structure Step3 where
  sx : ℤ
  sy : ℤ
  sz : ℤ
deriving DecidableEq

/-- Component access `step[i]`. -/
def Step3.get (s : Step3) (i : ℕ) : ℤ := if i = 0 then s.sx else if i = 1 then s.sy else s.sz

namespace Octree

/-- One axis of `computeRayInit`: the sign of the direction, `tDelta` and
`tMax`; a zero direction gives the float `max()` sentinels. -/
def computeRayInitAxis (t : Octree) (depth : ℕ) (dir_i origin_i border_i : ℚ) :
    ℤ × ℚ × ℚ :=
  if 0 < dir_i then
    (1, t.getNodeSize depth / |dir_i|,
      (border_i + t.getNodeHalfSize depth - origin_i) / dir_i)
  else if 0 > dir_i then
    (-1, t.getNodeSize depth / |dir_i|,
      (border_i - t.getNodeHalfSize depth - origin_i) / dir_i)
  else (0, floatMax, floatMax)

/-- `computeRayInit(origin, end, direction_normalized, current, ending, step,
t_delta, t_max, depth)`.  When the two keys already coincide the outputs
beyond `current`/`ending` are left at their (unused) defaults, mirroring the
early return. -/
def computeRayInit (t : Octree) (origin endp direction_normalized : Point3) (depth : ℕ) :
    Key × Key × Step3 × Point3 × Point3 :=
  let current := t.coordToKey origin depth
  let ending := t.coordToKey endp depth
  if current = ending then (current, ending, ⟨0, 0, 0⟩, ⟨0, 0, 0⟩, ⟨0, 0, 0⟩)
  else
    let voxel_border := t.keyToCoord current
    let ax := t.computeRayInitAxis depth direction_normalized.x origin.x voxel_border.x
    let ay := t.computeRayInitAxis depth direction_normalized.y origin.y voxel_border.y
    let az := t.computeRayInitAxis depth direction_normalized.z origin.z voxel_border.z
    (current, ending, ⟨ax.1, ay.1, az.1⟩, ⟨ax.2.1, ay.2.1, az.2.1⟩, ⟨ax.2.2, ay.2.2, az.2.2⟩)

/-- `computeRayTakeStep(current, step, t_delta, t_max, depth)`: advance the
axis with the minimum `tMax` by `step << depth` and bump its `tMax`. -/
def computeRayTakeStep (_t : Octree) (current : Key) (step : Step3) (t_delta t_max : Point3)
    (depth : ℕ) : Key × Point3 :=
  let advance_dim := t_max.minElementIndex
  (current.setIdx advance_dim (current.get advance_dim + step.get advance_dim * 2 ^ depth),
    t_max.setIdx advance_dim (t_max.get advance_dim + t_delta.get advance_dim))

/-- The emit-and-step loop of `computeRay`, indexed by fuel; the C++ loop
terminates on the same guard, the fuel only bounds the iteration count of the
model. -/
def computeRayLoop (t : Octree) (depth : ℕ) (ending : Key) (bound : ℚ) (step : Step3)
    (t_delta : Point3) : ℕ → Key → Point3 → List Key
  | 0, _, _ => []
  | fuel + 1, current, t_max =>
    if current ≠ ending ∧ t_max.minv ≤ bound then
      let next := t.computeRayTakeStep current step t_delta t_max depth
      current :: t.computeRayLoop depth ending bound step t_delta fuel next.1 next.2
    else []

/-- `computeRay(origin, end, ray, max_range, depth)` (the `KeyRay` overload):
clip to `max_range` and the bounding box, initialize, then emit keys while
`current != ending && t_max.min() <= max_range`. -/
def computeRay (t : Octree) (rsqrt : ℚ → ℚ) (fuel : ℕ) (origin endp : Point3)
    (max_range : ℚ) (depth : ℕ) : List Key :=
  let direction := (endp.sub origin).normalize rsqrt
  let endp :=
    if 0 ≤ max_range ∧ max_range < origin.distance rsqrt endp then
      origin.add (direction.smul max_range)
    else endp
  match t.moveLineIntoBBX origin endp with
  | none => []
  | some (origin, endp) =>
    let (current, ending, step, t_delta, t_max) := t.computeRayInit origin endp direction depth
    t.computeRayLoop depth ending max_range step t_delta fuel current t_max

/-- The stepping loop of `castRay`, indexed by fuel: step while the current
key is neither the ending nor beyond range, not occupied, and (unless unknown
cells are ignored) not unknown; returns the key at which stepping stops. -/
def castRayLoop (t : Octree) (depth : ℕ) (ending : Key) (max_range : ℚ)
    (ignore_unknown : Bool) (step : Step3) (t_delta : Point3) :
    ℕ → Key → Point3 → Key
  | 0, current, _ => current
  | fuel + 1, current, t_max =>
    if current ≠ ending ∧ t_max.minv ≤ max_range ∧ ¬ t.isOccupiedK current ∧
        (ignore_unknown ∨ ¬ t.isUnknownK current) then
      let next := t.computeRayTakeStep current step t_delta t_max depth
      t.castRayLoop depth ending max_range ignore_unknown step t_delta fuel next.1 next.2
    else current

/-- `castRay(origin, direction, end, ignore_unknown, max_range, depth)`: a
negative `max_range` is replaced by the `getMin()`-to-`getMax()` distance;
returns the success flag and the reported end point (`none` models the
untouched out-parameter when the clipped line misses the box). -/
def castRay (t : Octree) (rsqrt : ℚ → ℚ) (fuel : ℕ) (origin direction : Point3)
    (ignore_unknown : Bool) (max_range : ℚ) (depth : ℕ) : Bool × Option Point3 :=
  let max_range := if 0 > max_range then (t.getMin).distance rsqrt t.getMax else max_range
  let direction := direction.normalize rsqrt
  let the_end := origin.add (direction.smul max_range)
  match t.moveLineIntoBBX origin the_end with
  | none => (false, none)
  | some (origin, the_end) =>
    let (current, ending, step, t_delta, t_max) :=
      t.computeRayInit origin the_end direction depth
    let stop := t.castRayLoop depth ending max_range ignore_unknown step t_delta fuel
      current t_max
    (t.isOccupiedK stop, some (t.keyToCoord stop))

/-- The key at which the stepping loop of `castRay` stops (`none` when the
clipped line misses the box); derived from the same computation. -/
def castRayStop (t : Octree) (rsqrt : ℚ → ℚ) (fuel : ℕ) (origin direction : Point3)
    (ignore_unknown : Bool) (max_range : ℚ) (depth : ℕ) : Option Key :=
  let max_range := if 0 > max_range then (t.getMin).distance rsqrt t.getMax else max_range
  let direction := direction.normalize rsqrt
  let the_end := origin.add (direction.smul max_range)
  match t.moveLineIntoBBX origin the_end with
  | none => none
  | some (origin, the_end) =>
    let (current, ending, step, t_delta, t_max) :=
      t.computeRayInit origin the_end direction depth
    some (t.castRayLoop depth ending max_range ignore_unknown step t_delta fuel
      current t_max)

end Octree

/-- `CodeMap<float>::operator[] = v`: replace the binding if present,
otherwise append it. -/
def mapAssign : List (Code × ℚ) → Code → ℚ → List (Code × ℚ)
  | [], k, v => [(k, v)]
  | (k0, v0) :: rest, k, v =>
    if k0 = k then (k0, v) :: rest else (k0, v0) :: mapAssign rest k v

/-- `CodeMap<float>::try_emplace`: insert only when the key is absent. -/
def mapTryEmplace (m : List (Code × ℚ)) (k : Code) (v : ℚ) : List (Code × ℚ) :=
  if (m.find? fun p => p.1 = k).isSome then m else m ++ [(k, v)]

/-- Lookup in the accumulator map. -/
def mapFind (m : List (Code × ℚ)) (k : Code) : Option ℚ :=
  (m.find? fun p => p.1 = k).map fun p => p.2

namespace Octree

/-- The miss walk of `computeUpdate`: `try_emplace(current, prob_miss_log)`
and step while `current != ending && t_max.min() <= distance`. -/
def computeUpdateRayLoop (t : Octree) (ending : Key) (distance : ℚ) (step : Step3)
    (t_delta : Point3) : ℕ → Key → Point3 → List (Code × ℚ) → List (Code × ℚ)
  | 0, _, _, m => m
  | fuel + 1, current, t_max, m =>
    if current ≠ ending ∧ t_max.minv ≤ distance then
      let m := mapTryEmplace m (Code.ofKey current) t.prob_miss_log
      let next := t.computeRayTakeStep current step t_delta t_max 0
      t.computeUpdateRayLoop ending distance step t_delta fuel next.1 next.2 m
    else m

/-- The body of the `computeUpdate` loop for one cloud point: clip to
`max_range` and the box, assign `prob_hit_log` at the surviving endpoint's
code, then run the miss walk. -/
def computeUpdateStep (t : Octree) (rsqrt : ℚ → ℚ) (fuel : ℕ) (sensor_origin : Point3)
    (max_range : ℚ) (m : List (Code × ℚ)) (point : Point3) : List (Code × ℚ) :=
  let origin := sensor_origin
  let endv := point.sub origin
  let distance := endv.norm rsqrt
  let dir := endv.sdiv distance
  let endv :=
    if 0 ≤ max_range ∧ distance > max_range then origin.add (dir.smul max_range) else point
  match t.moveLineIntoBBX origin endv with
  | none => m
  | some (origin, endv) =>
    let m :=
      if point = endv then mapAssign m (Code.ofKey (t.coordToKey endv 0)) t.prob_hit_log
      else m
    let (current, ending, step, t_delta, t_max) := t.computeRayInit origin endv dir 0
    t.computeUpdateRayLoop ending distance step t_delta fuel current t_max m

/-- `computeUpdate(sensor_origin, cloud, max_range)`: run the per-point step
over the whole cloud, accumulating into `indices_`. -/
def computeUpdate (t : Octree) (rsqrt : ℚ → ℚ) (fuel : ℕ) (sensor_origin : Point3)
    (cloud : List Point3) (max_range : ℚ) : Octree :=
  { t with indices :=
      cloud.foldl (t.computeUpdateStep rsqrt fuel sensor_origin max_range) t.indices }

/-- `insertPointCloud(sensor_origin, cloud, max_range)`: accumulate, drain
the accumulator through `updateNodeValue`, then clear it. -/
def insertPointCloud (t : Octree) (rsqrt : ℚ → ℚ) (fuel : ℕ) (sensor_origin : Point3)
    (cloud : List Point3) (max_range : ℚ) : Octree :=
  let t := t.computeUpdate rsqrt fuel sensor_origin cloud max_range
  let idx := t.indices
  let t := idx.foldl (fun t p => (t.updateNodeValue p.1 p.2).2) t
  { t with indices := [] }

/-- The endpoint code `computeUpdateStep` assigns `prob_hit_log` to, when the
cloud point survives clipping; derived from the same computation. -/
def computeUpdateHit (t : Octree) (rsqrt : ℚ → ℚ) (sensor_origin : Point3)
    (max_range : ℚ) (point : Point3) : Option Code :=
  let origin := sensor_origin
  let endv := point.sub origin
  let distance := endv.norm rsqrt
  let dir := endv.sdiv distance
  let endv :=
    if 0 ≤ max_range ∧ distance > max_range then origin.add (dir.smul max_range) else point
  match t.moveLineIntoBBX origin endv with
  | none => none
  | some (_, endv) =>
    if point = endv then some (Code.ofKey (t.coordToKey endv 0)) else none

/-- The codes visited by the miss walk of `computeRayLoop`-style stepping in
`computeUpdateStep`; derived from the same computation. -/
def computeUpdateWalkLoop (t : Octree) (ending : Key) (distance : ℚ) (step : Step3)
    (t_delta : Point3) : ℕ → Key → Point3 → List Code
  | 0, _, _ => []
  | fuel + 1, current, t_max =>
    if current ≠ ending ∧ t_max.minv ≤ distance then
      let next := t.computeRayTakeStep current step t_delta t_max 0
      Code.ofKey current ::
        t.computeUpdateWalkLoop ending distance step t_delta fuel next.1 next.2
    else []

/-- The codes the miss walk of `computeUpdateStep` visits for one point. -/
def computeUpdateWalk (t : Octree) (rsqrt : ℚ → ℚ) (fuel : ℕ) (sensor_origin : Point3)
    (max_range : ℚ) (point : Point3) : List Code :=
  let origin := sensor_origin
  let endv := point.sub origin
  let distance := endv.norm rsqrt
  let dir := endv.sdiv distance
  let endv :=
    if 0 ≤ max_range ∧ distance > max_range then origin.add (dir.smul max_range) else point
  match t.moveLineIntoBBX origin endv with
  | none => []
  | some (origin, endv) =>
    let (current, ending, step, t_delta, t_max) := t.computeRayInit origin endv dir 0
    t.computeUpdateWalkLoop ending distance step t_delta fuel current t_max

end Octree

/-- A token of the (non-binary) body stream: one child-bitmask byte, or one
leaf payload. -/
inductive Tok where
  | mask (bits : List Bool) : Tok
  | payl (v : ℚ) : Tok
deriving DecidableEq

/-- Modelled from the spec: `OccupancyNode::writeData` emits the raw logit
(the threshold arguments are unused by the non-binary payload). -/
def writeDataLeaf (logit : ℚ) : List Tok := [.payl logit]

/-- Modelled from the spec: `OccupancyNode::readData` reads the raw logit
back; `none` models a stream that does not hold a payload here. -/
def readDataLeaf (s : List Tok) : Option (ℚ × List Tok) :=
  match s with
  | .payl v :: rest => some (v, rest)
  | _ => none

/-- A bounding volume: `none` is the empty volume (accept everything), and a
function decides `intersects(AABB(center, half_size))`. -/
def BVol : Type := Option (Point3 → ℚ → Bool)

/-- `bounding_volume.empty() || bounding_volume.intersects(AABB(center,
half_size))`. -/
def bvAccept (bv : BVol) (center : Point3) (half_size : ℚ) : Bool :=
  match bv with
  | none => true
  | some f => f center half_size

/-- `getChildCenter(parent_center, child_half_size, child_idx)`. -/
def getChildCenter (parent_center : Point3) (child_half_size : ℚ) (child_idx : ℕ) : Point3 :=
  ⟨parent_center.x + (if child_idx.testBit 0 then child_half_size else -child_half_size),
   parent_center.y + (if child_idx.testBit 1 then child_half_size else -child_half_size),
   parent_center.z + (if child_idx.testBit 2 then child_half_size else -child_half_size)⟩

/-- Concatenate the chunks a per-child emitter produces over an index
list. -/
def chunksConcat (chunk : ℕ → List Tok) : List ℕ → List Tok
  | [] => []
  | i :: is => chunk i ++ chunksConcat chunk is

/-- Run a per-child stateful reader step over an index list, threading the
node being filled in, the tree state, and the stream. -/
def readChildrenLoop (step : ℕ → Octree → INode → List Tok →
    Option (Octree × INode × List Tok)) :
    List ℕ → Octree → INode → List Tok → Option (Octree × INode × List Tok)
  | [], t, n, s => some (t, n, s)
  | i :: is, t, n, s =>
    match step i t n s with
    | none => none
    | some (t, n, s) => readChildrenLoop step is t n s

namespace Octree

/-- `writeNodesRecurs(s, bounding_volume, node, center, current_depth,
min_depth)`: one mask byte for the eight children (a bit is set when the
child intersects and has children of its own), then, in order, for each
intersecting child either the eight grandchild leaf payloads (at child depth
1), a recursive body, or the child's own leaf payload.  Only called with
`current_depth >= 2`; the degenerate depths emit nothing. -/
def writeNodesRecurs (t : Octree) (bv : BVol) (min_depth : ℕ) :
    ℕ → INode → Point3 → List Tok
  | 0, _, _ => []
  | 1, _, _ => []
  | cd + 2, n, center =>
    let child_depth := cd + 1
    let child_half_size := t.getNodeHalfSize child_depth
    let centers := fun i => getChildCenter center child_half_size i
    let intersects := fun i =>
      decide (child_depth > min_depth) && bvAccept bv (centers i) child_half_size
    let bits := fun i => intersects i && hasChildrenI (n.childAt i)
    Tok.mask ((List.range 8).map bits) ::
      chunksConcat
        (fun i =>
          if intersects i then
            let child := n.childAt i
            if bits i then
              if child_depth = 1 then
                let child_child_half_size := t.getNodeHalfSize 0
                chunksConcat
                  (fun j =>
                    if bvAccept bv (getChildCenter (centers i) child_child_half_size j)
                        child_child_half_size then
                      writeDataLeaf (child.childAt j).logit
                    else [])
                  (List.range 8)
              else t.writeNodesRecurs bv min_depth child_depth child (centers i)
            else writeDataLeaf child.logit
          else [])
        (List.range 8)
termination_by structural cd _n _c => cd

/-- `writeNodes(s, bounding_volume, node, current_depth, min_depth)` at the
root: nothing when the tree misses the volume; otherwise an all-ones or
all-zeros mask byte followed by the recursive body or the root's payload. -/
def writeNodes (t : Octree) (bv : BVol) (min_depth : ℕ) : List Tok :=
  let center : Point3 := ⟨0, 0, 0⟩
  let half_size := t.getNodeHalfSize t.depth_levels
  if ¬ bvAccept bv center half_size then []
  else
    let bits := hasChildrenI t.root ∧ t.depth_levels > min_depth
    if bits then
      Tok.mask (List.replicate 8 true) ::
        t.writeNodesRecurs bv min_depth t.depth_levels t.root center
    else Tok.mask (List.replicate 8 false) :: writeDataLeaf t.root.logit

/-- `readNodesRecurs(s, bounding_volume, node, center, current_depth, ...)`:
read the mask byte, expand the node, and fill each intersecting child from
the stream (recursing on a set bit, reading a leaf payload and pruning on a
clear bit; at child depth 1 a set bit reads the eight grandchild leaves and
re-summarizes).  Only called with `current_depth >= 2`. -/
def readNodesRecurs (bv : BVol) (occupancy_thres_log free_thres_log : ℚ) :
    ℕ → Octree → INode → Point3 → List Tok → Option (Octree × INode × List Tok)
  | 0, _, _, _, _ => none
  | 1, _, _, _, _ => none
  | cd + 2, t, n, center, s =>
    let child_depth := cd + 1
    let child_half_size := t.getNodeHalfSize child_depth
    let centers := fun i => getChildCenter center child_half_size i
    let intersects := fun i => bvAccept bv (centers i) child_half_size
    match s with
    | Tok.mask bits :: s =>
      let (_, n, t) := t.expand n (cd + 2)
      readChildrenLoop
        (fun i t n s =>
          if intersects i then
            let child := n.childAt i
            if bits.getD i false then
              if child_depth = 1 then
                let child_child_half_size := t.getNodeHalfSize 0
                let (_, child, t) := t.expand child child_depth
                match
                  readChildrenLoop
                    (fun j t child s =>
                      if bvAccept bv (getChildCenter (centers i) child_child_half_size j)
                          child_child_half_size then
                        match readDataLeaf s with
                        | none => none
                        | some (v, s) =>
                          some (t, child.setChild j ((child.childAt j).withLogit v), s)
                      else some (t, child, s))
                    (List.range 8) t child s with
                | none => none
                | some (t, child, s) =>
                  let (_, child, t) := t.updateNode child child_depth
                  some (t, n.setChild i child, s)
              else
                match readNodesRecurs bv occupancy_thres_log free_thres_log (cd + 1) t child
                    (centers i) s with
                | none => none
                | some (t, child, s) =>
                  let (_, child, t) := t.updateNode child child_depth
                  some (t, n.setChild i child, s)
            else
              match readDataLeaf s with
              | none => none
              | some (v, s) =>
                let child := child.withLogit v
                let (child, t) := t.prune child child_depth false
                some (t, n.setChild i child, s)
          else some (t, n, s))
        (List.range 8) t n s
    | _ => none
termination_by structural cd _t _n _c _s => cd

/-- `readNodes(s, bounding_volume, node, current_depth, ...)` at the root:
succeed without reading when the tree misses the volume; otherwise read the
root mask and either the root payload (pruning the root) or the recursive
body followed by a root summary update. -/
def readNodes (t : Octree) (bv : BVol) (occupancy_thres_log free_thres_log : ℚ)
    (s : List Tok) : Option (Octree × List Tok) :=
  let center : Point3 := ⟨0, 0, 0⟩
  let half_size := t.getNodeHalfSize t.depth_levels
  if ¬ bvAccept bv center half_size then some (t, s)
  else
    match s with
    | Tok.mask bits :: s =>
      if bits.any id then
        match readNodesRecurs bv occupancy_thres_log free_thres_log t.depth_levels t t.root
            center s with
        | none => none
        | some (t, root, s) =>
          let (_, root, t) := t.updateNode root t.depth_levels
          some ({ t with root := root }, s)
      else
        match readDataLeaf s with
        | none => none
        | some (v, s) =>
          let root := t.root.withLogit v
          let (root, t) := t.prune root t.depth_levels false
          some ({ t with root := root }, s)
    | _ => none

/-- `writeData(s, bounding_volume, compress, binary, depth)` for the
non-binary format: the body tokens and the uncompressed size (the token
count standing in for `tellp` arithmetic); the binary hooks write nothing
and report success, as in the base class. -/
def writeDataCore (t : Octree) (bv : BVol) (binary : Bool) (min_depth : ℕ) :
    ℤ × List Tok :=
  if binary then (0, [])
  else
    let body := t.writeNodes bv min_depth
    ((body.length : ℤ), body)

/-- `writeData` with the compression branch; `cmp` models the LZ4
`compressData` collaborator (`none` is a failed compression), and `none`
overall models the `-1` failure return. -/
def writeData (t : Octree) (bv : BVol) (compress binary : Bool) (min_depth : ℕ)
    (cmp : List Tok → Option (List Tok)) : Option (ℤ × List Tok) :=
  if binary ∧ ¬ t.binarySupport then none
  else if compress then
    let (sz, body) := t.writeDataCore bv binary min_depth
    match cmp body with
    | none => none
    | some cb => some (sz, cb)
  else some (t.writeDataCore bv binary min_depth)

end Octree

/-- One token of the text header: the recognized `key value` lines, comment
lines, the terminating `data` line, and unrecognized lines. -/
inductive HTok where
  | comment : HTok
  | version (v : String) : HTok
  | idTok (s : String) : HTok
  | binaryTok (b : Bool) : HTok
  | resolutionTok (r : ℚ) : HTok
  | depthLevelsTok (d : ℕ) : HTok
  | occupancyThresTok (q : ℚ) : HTok
  | freeThresTok (q : ℚ) : HTok
  | compressedTok (b : Bool) : HTok
  | usizeTok (n : ℤ) : HTok
  | dataTok : HTok
  | other : HTok
deriving DecidableEq

/-- A serialized file: the magic first line, the header tokens, and the body
tokens. -/
structure WFile where
  magic : Bool
  hdr : List HTok
  body : List Tok
deriving DecidableEq

/-- The fields `readHeader` accumulates. -/
structure HeaderInfo where
  file_version : String
  id : String
  binary : Bool
  resolution : ℚ
  depth_levels : ℕ
  occupancy_thres : ℚ
  free_thres : ℚ
  compressed : Bool
  uncompressed_data_size : ℤ
deriving DecidableEq

/-- The scan loop of `readHeader`: token by token until the `data` token;
`none` models reaching the end of the stream with `header_read` still
false. -/
def readHeaderLoop : List HTok → HeaderInfo → Option HeaderInfo
  | [], _ => none
  | HTok.dataTok :: _, h => some h
  | HTok.comment :: rest, h => readHeaderLoop rest h
  | HTok.version v :: rest, h => readHeaderLoop rest { h with file_version := v }
  | HTok.idTok s :: rest, h => readHeaderLoop rest { h with id := s }
  | HTok.binaryTok b :: rest, h => readHeaderLoop rest { h with binary := b }
  | HTok.resolutionTok r :: rest, h => readHeaderLoop rest { h with resolution := r }
  | HTok.depthLevelsTok d :: rest, h => readHeaderLoop rest { h with depth_levels := d }
  | HTok.occupancyThresTok q :: rest, h => readHeaderLoop rest { h with occupancy_thres := q }
  | HTok.freeThresTok q :: rest, h => readHeaderLoop rest { h with free_thres := q }
  | HTok.compressedTok b :: rest, h => readHeaderLoop rest { h with compressed := b }
  | HTok.usizeTok n :: rest, h => readHeaderLoop rest { h with uncompressed_data_size := n }
  | HTok.other :: rest, h => readHeaderLoop rest h

namespace Octree

/-- `readHeader(s, ...)`: scan to the `data` token, then validate every
field; `none` models returning `false`. -/
def readHeader (t : Octree) (hdr : List HTok) : Option HeaderInfo :=
  match readHeaderLoop hdr
      ⟨"", "", false, 0, 0, -1, -1, false, -1⟩ with
  | none => none
  | some h =>
    if h.file_version = "" then none
    else if h.id = "" then none
    else if h.binary ∧ ¬ t.binarySupport then none
    else if h.resolution ≤ 0 then none
    else if h.depth_levels = 0 then none
    else if h.occupancy_thres < 0 then none
    else if h.free_thres < 0 then none
    else if h.uncompressed_data_size < 0 then none
    else if t.tree_type ≠ h.id then none
    else some h

/-- `clearRecurs(inner_node, current_depth)`: free every child block below,
adjusting the counters (manual pruning). -/
def clearRecurs (t : Octree) : ℕ → INode → INode × Octree
  | 0, n => t.deleteChildren true n 0
  | cd + 1, n =>
    if n.children.isNone then (n, t)
    else
      let (n, t) :=
        if 1 < cd + 1 then
          let r := n.childList.foldr
            (fun c (acc : List INode × Octree) =>
              let (c, t) := acc.2.clearRecurs cd c
              (c :: acc.1, t))
            ([], t)
          (n.withChildren (some r.1), r.2)
        else (n, t)
      t.deleteChildren true n (cd + 1)
termination_by structural cd _n => cd

/-- `clear(resolution, depth_levels)`: free the whole tree, reset the root
and adopt the new geometry; `none` models the `std::invalid_argument` thrown
for more than 21 depth levels. -/
def clear (t : Octree) (resolution : ℚ) (depth_levels : ℕ) : Option Octree :=
  if 21 < depth_levels then none
  else
    let (_, t) := t.clearRecurs t.depth_levels t.root
    some { t with root := INode.default, depth_levels := depth_levels,
                  resolution := resolution }

/-- `readData(s, bounding_volume, resolution, depth_levels, occupancy_thres,
free_thres, uncompressed_data_size, compressed, binary)`.  `dec` models the
LZ4 `decompressData` collaborator (`none` is a failed decompression), `plog`
the float `log` used by `logit`.  The result is the success flag and the
possibly modified tree; `none` models an escaping exception (from `clear`) or
an unparseable stream. -/
def readData (t : Octree) (bv : BVol) (plog : ℚ → ℚ)
    (dec : List Tok → Option (List Tok)) (s : List Tok) (resolution : ℚ)
    (depth_levels : ℕ) (occupancy_thres free_thres : ℚ)
    (_uncompressed_data_size : ℤ) (compressed binary : Bool) : Option (Bool × Octree) :=
  if binary ∧ ¬ t.binarySupport then some (false, t)
  else
    let t? :=
      if t.resolution ≠ resolution ∨ t.depth_levels ≠ depth_levels then
        (t.clear resolution depth_levels).map fun t => { t with root := INode.default }
      else some t
    match t? with
    | none => none
    | some t =>
      if compressed then
        match dec s with
        | some u =>
          if binary then some (true, t)
          else
            match t.readNodes bv (logitQ plog occupancy_thres) (logitQ plog free_thres) u with
            | none => none
            | some (t, _) => some (true, t)
        | none => some (false, t)
      else
        if binary then some (true, t)
        else
          match t.readNodes bv (logitQ plog occupancy_thres) (logitQ plog free_thres) s with
          | none => none
          | some (t, _) => some (true, t)

/-- `read(s)`: check the magic line, parse and validate the header, then
(decompressing first when the header says so) read the body through
`readData`. -/
def read (t : Octree) (plog : ℚ → ℚ) (dec : List Tok → Option (List Tok)) (f : WFile) :
    Option (Bool × Octree) :=
  if ¬ f.magic then some (false, t)
  else
    match t.readHeader f.hdr with
    | none => some (false, t)
    | some h =>
      if h.compressed then
        match dec f.body with
        | some u =>
          t.readData none plog dec u h.resolution h.depth_levels h.occupancy_thres
            h.free_thres h.uncompressed_data_size h.compressed h.binary
        | none => some (false, t)
      else
        t.readData none plog dec f.body h.resolution h.depth_levels h.occupancy_thres
          h.free_thres h.uncompressed_data_size h.compressed h.binary

/-- `write(s, bounding_volume, compress, binary, depth)`: produce the body
through `writeData`, then the header in front of it; `pexp` models the float
`exp` used to print the probability-form thresholds, `cmp` the LZ4
compressor. -/
def write (t : Octree) (pexp : ℚ → ℚ) (bv : BVol) (compress binary : Bool)
    (min_depth : ℕ) (cmp : List Tok → Option (List Tok)) : Bool × Option WFile :=
  if binary ∧ ¬ t.binarySupport then (false, none)
  else
    match t.writeData bv compress binary min_depth cmp with
    | none => (false, none)
    | some (sz, body) =>
      (true, some
        { magic := true,
          hdr := [HTok.comment, HTok.version "1.0.0", HTok.idTok t.tree_type,
            HTok.binaryTok binary, HTok.resolutionTok t.resolution,
            HTok.depthLevelsTok t.depth_levels,
            HTok.occupancyThresTok (probabilityQ pexp t.occupancy_thres_log),
            HTok.freeThresTok (probabilityQ pexp t.free_thres_log),
            HTok.compressedTok compress, HTok.usizeTok sz, HTok.dataTok],
          body := body })

/-- `setProbMissLog(logit)`. -/
def setProbMissLog (t : Octree) (logit : ℚ) : Octree := { t with prob_miss_log := logit }

/-- `setProbMiss(probability)`: the source passes `prob_hit_log_`, not the
probability argument, to `logit` (`setProbMissLog(logit(prob_hit_log_))`);
`plog` models the float `log`. -/
def setProbMiss (t : Octree) (plog : ℚ → ℚ) (probability : ℚ) : Octree :=
  let _ := probability
  t.setProbMissLog (logitQ plog t.prob_hit_log)

/-- `getProbMissLog()`. -/
def getProbMissLog (t : Octree) : ℚ := t.prob_miss_log

end Octree

/-- The real-number `logit(p) = log(p / (1 - p))`, used to relate the claims
about the sensor model to the actual transcendental `log`. -/
noncomputable def logitR (p : ℝ) : ℝ := Real.log (p / (1 - p))

/-- Every logit stored anywhere in the subtree (the node's own, and every
logit in a child block, retained blocks included) lies in `[lo, hi]`;
indexed by the node's depth. -/
def allInB (lo hi : ℚ) : ℕ → INode → Bool
  | 0, n => decide (lo ≤ n.logit ∧ n.logit ≤ hi)
  | d + 1, n =>
    decide (lo ≤ n.logit ∧ n.logit ≤ hi) && n.childList.all (allInB lo hi d)

/-- Structural well-formedness of a subtree at a given depth: a node that is
not collapsed owns a block, and every block holds exactly eight well-formed
children. -/
def wfB : ℕ → INode → Bool
  | 0, _ => true
  | d + 1, n =>
    (n.all_children_same || n.children.isSome) &&
      (match n.children with
       | none => true
       | some cs => decide (cs.length = 8) && cs.all (wfB d))

/-- The logit `updateNode(node, depth)` recomputes from a child block: the
first child's logit on a collapsible block, otherwise the maximum child
logit (leaf flavor at depth 1). -/
def updLogitOf (cs : List INode) (depth : ℕ) : ℚ :=
  if depth = 1 then
    if isNodeCollapsibleLeaf cs then (cs.headD INode.default).logit
    else getMaxChildLogitLeaf cs
  else
    if isNodeCollapsibleInner cs then (cs.headD INode.default).logit
    else getMaxChildLogitInner cs

/-- Summary consistency: every node with children stores exactly the logit
`updateNode` would recompute from them. -/
def summaryConsistentB : ℕ → INode → Bool
  | 0, _ => true
  | d + 1, n =>
    if Octree.hasChildrenI n then
      decide (n.logit = updLogitOf n.childList (d + 1)) &&
        n.childList.all (summaryConsistentB d)
    else true

/-- The logit `getNode` reports for a code: descend by child index, stopping
at the code's depth or at a collapsed node. -/
def logitAt : ℕ → INode → Code → ℚ
  | 0, n, _ => n.logit
  | d + 1, n, c =>
    if d + 1 > c.depth then
      if ¬ Octree.hasChildrenI n then n.logit
      else logitAt d (n.childAt (c.getChildIdx d)) c
    else n.logit

/-- The collapsed ancestor (and its depth) at which the descent of `getNode`
stops strictly above the code's depth, if any. -/
def getNodeStop : ℕ → INode → Code → Option (ℕ × INode)
  | 0, _, _ => none
  | d + 1, n, c =>
    if d + 1 > c.depth then
      if ¬ Octree.hasChildrenI n then some (d + 1, n)
      else getNodeStop d (n.childAt (c.getChildIdx d)) c
    else none

/-- Observational equivalence of a reconstructed subtree with its source at
a given depth: the stored logit agrees, the reconstruction is at most as
expanded as the source (above the leaf level), and `getNode`-style lookups
agree at every code. -/
def nodeSim (d : ℕ) (src tgt : INode) : Prop :=
  tgt.logit = src.logit ∧
  (1 ≤ d → Octree.hasChildrenI tgt = true → Octree.hasChildrenI src = true) ∧
  ∀ c : Code, logitAt d tgt c = logitAt d src c

/-- A small concrete octree (resolution 1, customizable depth and root) used
by the witnesses and counterexamples. -/
def testTree (depth_levels : ℕ) (root : INode) : Octree :=
  { resolution := 1, depth_levels := depth_levels,
    occupancy_thres_log := 1, free_thres_log := -1,
    prob_hit_log := 13 / 10, prob_miss_log := -2 / 5,
    clamping_thres_min_log := -10, clamping_thres_max_log := 10,
    bbx_limit_enabled := false, bbx_min := ⟨0, 0, 0⟩, bbx_max := ⟨0, 0, 0⟩,
    change_detection_enabled := false, changed_codes := [],
    root := root, automatic_pruning_enabled := true,
    num_inner_nodes := 0, num_inner_leaf_nodes := 1, num_leaf_nodes := 0,
    indices := [], tree_type := "occupancy_map" }

/-- An inner node with eight given children. -/
def innerOf (logit : ℚ) (cs : List INode) : INode := .mk logit false false false (some cs)

/-- The tree-engine mutators touch only the node counters and the change
set; every configuration scalar is preserved.  This records the three
scalars the invariant proofs read. -/
def scalarEq (t u : Octree) : Prop :=
  u.clamping_thres_min_log = t.clamping_thres_min_log ∧
  u.clamping_thres_max_log = t.clamping_thres_max_log ∧
  u.depth_levels = t.depth_levels ∧
  u.occupancy_thres_log = t.occupancy_thres_log ∧
  u.free_thres_log = t.free_thres_log ∧
  u.automatic_pruning_enabled = t.automatic_pruning_enabled ∧
  u.change_detection_enabled = t.change_detection_enabled

/-- A collapsed node with a given logit. -/
def leafOf (logit : ℚ) : INode := .mk logit false false true none

/-- Every logit stored anywhere in the tree lies in the clamping interval. -/
abbrev Octree.logitsClamped (t : Octree) : Prop :=
  allInB t.clamping_thres_min_log t.clamping_thres_max_log t.depth_levels t.root = true


/-! ## Claim theorems -/

/-- C5: for every code and update delta, if `delta >= 0` and the logit
currently reported for the code is already at or above
`clamping_thres_max_log`, or `delta <= 0` and that logit is at or below
`clamping_thres_min_log`, then `updateNodeValue(code, delta)` returns the
existing node and leaves the whole tree (all stored logits, summary flags
and node counts) unchanged. -/
theorem c5_updateNodeValue_saturated (t : Octree) (code : Code) (delta : ℚ)
    (h : (0 ≤ delta ∧ t.clamping_thres_max_log ≤ (t.getNodeD code).nlogit) ∨
      (delta ≤ 0 ∧ (t.getNodeD code).nlogit ≤ t.clamping_thres_min_log)) :
    t.updateNodeValue code delta = (t.getNodeD code, t) := by
  have hc : (0 ≤ delta ∧ (t.getNodeD code).nlogit ≥ t.clamping_thres_max_log) ∨
      (0 ≥ delta ∧ (t.getNodeD code).nlogit ≤ t.clamping_thres_min_log) := by
    rcases h with ⟨h1, h2⟩ | ⟨h1, h2⟩
    · exact Or.inl ⟨h1, h2⟩
    · exact Or.inr ⟨h1, h2⟩
  simp only [Octree.updateNodeValue]
  rw [if_pos hc]

/-- Witness for C5 at a concrete saturated tree: the root stores the upper
clamping threshold, and an additive `+1` update returns the node and the
unchanged tree. -/
theorem c5_updateNodeValue_saturated_witness :
    ((0 : ℚ) ≤ 1 ∧ (testTree 2 (leafOf 10)).clamping_thres_max_log ≤
      ((testTree 2 (leafOf 10)).getNodeD ⟨0, 0, 0, 0⟩).nlogit) ∧
    (testTree 2 (leafOf 10)).updateNodeValue ⟨0, 0, 0, 0⟩ 1 =
      ((testTree 2 (leafOf 10)).getNodeD ⟨0, 0, 0, 0⟩, testTree 2 (leafOf 10)) :=
  ⟨by with_unfolding_all decide,
    c5_updateNodeValue_saturated _ _ _ (Or.inl (by with_unfolding_all decide))⟩

/-- C8 (the code contradicts the claim): `getChild` throws exactly when the
node is NOT a leaf — the guard is inverted.  At a concrete tree whose root
has children, asking for child 0 of the root (which the claim says must be
returned) throws, while asking for child 0 of a collapsed depth-1 node
(which the claim says must raise `ArgumentInvalid`) succeeds. -/
theorem c8_getChild_inverted_guard :
    ((testTree 2 (innerOf 0 (List.replicate 8 INode.default))).getChild
        ((testTree 2 (innerOf 0 (List.replicate 8 INode.default))).getNodeD ⟨0, 0, 0, 2⟩) 0
      = .error ()) ∧
    ((testTree 2 (innerOf 0 (List.replicate 8 INode.default))).getNodeD
        ⟨0, 0, 0, 2⟩).isLeafNode = false ∧
    ((testTree 2 (innerOf 0 (List.replicate 8 INode.default))).getChild
        ((testTree 2 (innerOf 0 (List.replicate 8 INode.default))).getNodeD ⟨0, 0, 0, 1⟩) 0
      = .ok ((testTree 2 (innerOf 0 (List.replicate 8 INode.default))).getNodeD
          (Code.getChild ⟨0, 0, 0, 1⟩ 0))) ∧
    ((testTree 2 (innerOf 0 (List.replicate 8 INode.default))).getNodeD
        ⟨0, 0, 0, 1⟩).isLeafNode = true := by
  refine ⟨by with_unfolding_all rfl, by with_unfolding_all rfl,
    by with_unfolding_all rfl, by with_unfolding_all rfl⟩

/-- C7 (the code contradicts the claim): `setProbMiss(p)` stores
`logit(prob_hit_log_)` instead of `logit(p)`.  With `prob_hit_log = 1/3` and
`p = 1/2` (and the identity standing in for the float `log`), the stored
value is `logitQ id (1/3) = 1/2` while the claim requires `logitQ id (1/2) =
1`; and on the real `log` the two arguments genuinely produce different
logits: `logitR (1/3) ≠ logitR (1/2)`. -/
theorem c7_setProbMiss_stores_hit_logit :
    (({ testTree 2 INode.default with prob_hit_log := 1 / 3 }.setProbMiss id
        (1 / 2)).getProbMissLog = 1 / 2) ∧
    logitQ id (1 / 2) = 1 ∧ ((1 : ℚ) / 2) ≠ 1 ∧ logitR (1 / 3) ≠ logitR (1 / 2) := by
  refine ⟨by with_unfolding_all decide, by with_unfolding_all decide,
    by with_unfolding_all decide, ?_⟩
  have h1 : logitR (1 / 3) = Real.log (1 / 2) := by
    unfold logitR
    norm_num
  have h2 : logitR (1 / 2) = 0 := by
    unfold logitR
    norm_num
  rw [h1, h2]
  exact ne_of_lt (Real.log_neg (by norm_num) (by norm_num))

/-- C2 (the code contradicts the claim): with the default `max_range = -1`,
the loop guard of `computeRay` compares `t_max.min()` against `max_range`
instead of the origin-to-end distance, so the loop body never runs and no
keys are emitted — even though the origin's key differs from the end's key,
so the claimed Amanatides-Woo sequence is nonempty. -/
theorem c2_computeRay_emits_nothing_at_default_range :
    (testTree 3 INode.default).computeRay id 100 ⟨0, 0, 0⟩ ⟨1, 0, 0⟩ (-1) 0 = [] ∧
    (testTree 3 INode.default).coordToKey ⟨0, 0, 0⟩ 0 ≠
      (testTree 3 INode.default).coordToKey ⟨1, 0, 0⟩ 0 := by
  exact ⟨by with_unfolding_all rfl, by with_unfolding_all decide⟩

/-- C9 (the code contradicts the claim): `readData` clears the tree as soon
as the header geometry differs, before attempting decompression; when the
decompression then fails it returns failure with the tree already cleared,
not in its prior state.  Concretely: a tree whose root stores logit 5 is
read with header resolution 2 (tree has 1), `compressed = 1` and a failing
LZ4 decode; the call returns `false` and the tree now stores logit 0 and
resolution 2. -/
theorem c9_readData_clears_before_failed_decompression :
    (((testTree 2 (leafOf 5)).readData none id (fun _ => none) [] 2 2 (1 / 2) (1 / 2) 0
        true false).map fun r =>
          (r.1, (r.2.getNodeD ⟨0, 0, 0, 0⟩).nlogit, r.2.resolution)) =
      some (false, 0, 2) ∧
    ((testTree 2 (leafOf 5)).getNodeD ⟨0, 0, 0, 0⟩).nlogit = 5 := by
  exact ⟨by with_unfolding_all rfl, by with_unfolding_all rfl⟩


/-- C6 (the claim's depth is off by one in the code): descending for code
`(2,2,2,0)` in a tree whose root's child 7 is collapsed stops at that child
at depth 1, but `getNode` reports the node with `code.toDepth(depth + 1)`,
i.e. at depth 2, not at the depth at which descent stopped. -/
theorem c6_getNode_reports_stop_depth_plus_one :
    (testTree 2 (innerOf 0 (List.replicate 8 (leafOf 3)))).getNode ⟨2, 2, 2, 0⟩ false =
      some (NodeRet.ofINode (leafOf 3) (Code.toDepth ⟨2, 2, 2, 0⟩ 2)) ∧
    getNodeStop 2 (innerOf 0 (List.replicate 8 (leafOf 3))) ⟨2, 2, 2, 0⟩ =
      some (1, leafOf 3) ∧
    (Code.toDepth ⟨2, 2, 2, 0⟩ 2).depth ≠ 1 := by
  exact ⟨by with_unfolding_all rfl, by with_unfolding_all rfl, by with_unfolding_all decide⟩

/-- The descent characterization behind C6: when `getNodeStop` finds the
collapsed ancestor `(d, n)` for a code, the code's depth lies strictly below
`d ≤ D`, `getNode` returns that ancestor with the code truncated to `d + 1`,
and every code that keeps the same child indices from level `d` up and does
not reach below the subtree is answered with the ancestor's logit. -/
theorem getNodeStop_spec (D : ℕ) : ∀ (n0 : INode) (c : Code) (d : ℕ) (n : INode),
    getNodeStop D n0 c = some (d, n) →
    c.depth < d ∧ d ≤ D ∧
    Octree.getNodeLoop c false D n0 = some (NodeRet.ofINode n (c.toDepth (d + 1))) ∧
    ∀ c' : Code, c'.depth ≤ c.depth →
      (∀ k, d ≤ k → c'.getChildIdx k = c.getChildIdx k) →
      logitAt D n0 c' = n.logit := by
  induction D with
  | zero =>
    intro n0 c d n hstop
    simp [getNodeStop] at hstop
  | succ D ih =>
    intro n0 c d n hstop
    by_cases hd : D + 1 > c.depth
    · by_cases hch : Octree.hasChildrenI n0 = true
      · have hstop2 : getNodeStop D (n0.childAt (c.getChildIdx D)) c = some (d, n) := by
          simpa [getNodeStop, hd, hch] using hstop
        obtain ⟨h1, h2, h3, h4⟩ := ih (n0.childAt (c.getChildIdx D)) c d n hstop2
        refine ⟨h1, Nat.le_succ_of_le h2, ?_, ?_⟩
        · simpa [Octree.getNodeLoop, hd, hch] using h3
        · intro c' hdep hsame
          have hd' : D + 1 > c'.depth := lt_of_le_of_lt hdep hd
          have hsame' := hsame D h2
          simp only [logitAt, if_pos hd', hch, not_true_eq_false, if_neg, ite_false]
          rw [hsame']
          exact h4 c' hdep hsame
      · have hdn : d = D + 1 ∧ n = n0 := by
          have := hstop
          simp [getNodeStop, hd, hch] at this
          exact ⟨this.1.symm, this.2.symm⟩
        obtain ⟨rfl, rfl⟩ := hdn
        refine ⟨hd, le_refl _, ?_, ?_⟩
        · simp [Octree.getNodeLoop, hd, hch]
        · intro c' hdep _
          have hd' : D + 1 > c'.depth := lt_of_le_of_lt hdep hd
          simp [logitAt, hd', hch]
    · simp [getNodeStop, hd] at hstop

/-- C6 (amended): for every code whose descent reaches a collapsed ancestor
`n` at depth `d` strictly above the code's depth, `getNode(code)` with
`return_nullptr = false` returns that ancestor with its code truncated to
`d + 1` (one level above the depth at which descent stopped), and the
ancestor's logit is the logit reported for every code of the collapsed
subtree (same child indices from level `d` up, depth at most the queried
code's). -/
theorem c6_getNode_collapsed_ancestor (t : Octree) (c : Code) (d : ℕ) (n : INode)
    (hstop : getNodeStop t.depth_levels t.root c = some (d, n)) :
    t.getNode c false = some (NodeRet.ofINode n (c.toDepth (d + 1))) ∧
    ∀ c' : Code, c'.depth ≤ c.depth →
      (∀ k, d ≤ k → c'.getChildIdx k = c.getChildIdx k) →
      logitAt t.depth_levels t.root c' = n.logit := by
  obtain ⟨_, _, h3, h4⟩ := getNodeStop_spec t.depth_levels t.root c d n hstop
  exact ⟨h3, h4⟩

/-- Witness for the amended C6 at the concrete tree of the counterexample. -/
theorem c6_getNode_collapsed_ancestor_witness :
    (getNodeStop (testTree 2 (innerOf 0 (List.replicate 8 (leafOf 3)))).depth_levels
        (testTree 2 (innerOf 0 (List.replicate 8 (leafOf 3)))).root ⟨2, 2, 2, 0⟩ =
      some (1, leafOf 3)) ∧
    ((testTree 2 (innerOf 0 (List.replicate 8 (leafOf 3)))).getNode ⟨2, 2, 2, 0⟩ false =
        some (NodeRet.ofINode (leafOf 3) (Code.toDepth ⟨2, 2, 2, 0⟩ (1 + 1))) ∧
      ∀ c' : Code, c'.depth ≤ (⟨2, 2, 2, 0⟩ : Code).depth →
        (∀ k, 1 ≤ k → c'.getChildIdx k = (⟨2, 2, 2, 0⟩ : Code).getChildIdx k) →
        logitAt (testTree 2 (innerOf 0 (List.replicate 8 (leafOf 3)))).depth_levels
          (testTree 2 (innerOf 0 (List.replicate 8 (leafOf 3)))).root c' = (leafOf 3).logit) :=
  ⟨by with_unfolding_all rfl,
    c6_getNode_collapsed_ancestor _ _ _ _ (by with_unfolding_all rfl)⟩


/-! ### Supporting lemmas for the clamping invariant (C4) -/

namespace INode

@[simp] theorem logit_mk (l f u s c) : (INode.mk l f u s c).logit = l := rfl
@[simp] theorem contains_free_mk (l f u s c) : (INode.mk l f u s c).contains_free = f := rfl
@[simp] theorem contains_unknown_mk (l f u s c) : (INode.mk l f u s c).contains_unknown = u := rfl
@[simp] theorem all_children_same_mk (l f u s c) : (INode.mk l f u s c).all_children_same = s := rfl
@[simp] theorem children_mk (l f u s c) : (INode.mk l f u s c).children = c := rfl

@[simp] theorem logit_withLogit (n : INode) (l : ℚ) : (n.withLogit l).logit = l := by
  cases n; rfl
@[simp] theorem children_withLogit (n : INode) (l : ℚ) : (n.withLogit l).children = n.children := by
  cases n; rfl
@[simp] theorem same_withLogit (n : INode) (l : ℚ) :
    (n.withLogit l).all_children_same = n.all_children_same := by
  cases n; rfl
@[simp] theorem logit_withFlags (n : INode) (f u : Bool) : (n.withFlags f u).logit = n.logit := by
  cases n; rfl
@[simp] theorem children_withFlags (n : INode) (f u : Bool) :
    (n.withFlags f u).children = n.children := by
  cases n; rfl
@[simp] theorem same_withFlags (n : INode) (f u : Bool) :
    (n.withFlags f u).all_children_same = n.all_children_same := by
  cases n; rfl
@[simp] theorem logit_withSame (n : INode) (s : Bool) : (n.withSame s).logit = n.logit := by
  cases n; rfl
@[simp] theorem children_withSame (n : INode) (s : Bool) : (n.withSame s).children = n.children := by
  cases n; rfl
@[simp] theorem same_withSame (n : INode) (s : Bool) : (n.withSame s).all_children_same = s := by
  cases n; rfl
@[simp] theorem logit_withChildren (n : INode) (c) : (n.withChildren c).logit = n.logit := by
  cases n; rfl
@[simp] theorem children_withChildren (n : INode) (c) : (n.withChildren c).children = c := by
  cases n; rfl
@[simp] theorem same_withChildren (n : INode) (c) :
    (n.withChildren c).all_children_same = n.all_children_same := by
  cases n; rfl

@[simp] theorem childList_withLogit (n : INode) (l : ℚ) :
    (n.withLogit l).childList = n.childList := by
  simp [childList]
@[simp] theorem childList_withFlags (n : INode) (f u : Bool) :
    (n.withFlags f u).childList = n.childList := by
  simp [childList]
@[simp] theorem childList_withSame (n : INode) (s : Bool) :
    (n.withSame s).childList = n.childList := by
  simp [childList]

theorem childList_setChild (n : INode) (i : ℕ) (c : INode) :
    (n.setChild i c).childList = n.childList.set i c := by
  simp [setChild, childList]

@[simp] theorem logit_setChild (n : INode) (i : ℕ) (c : INode) :
    (n.setChild i c).logit = n.logit := by
  simp [setChild]
@[simp] theorem same_setChild (n : INode) (i : ℕ) (c : INode) :
    (n.setChild i c).all_children_same = n.all_children_same := by
  simp [setChild]
@[simp] theorem children_setChild (n : INode) (i : ℕ) (c : INode) :
    (n.setChild i c).children = some (n.childList.set i c) := by
  simp [setChild]

end INode


theorem clampQ_mem (v lo hi : ℚ) (h : lo ≤ hi) :
    lo ≤ clampQ v lo hi ∧ clampQ v lo hi ≤ hi := by
  unfold clampQ
  split_ifs with h1 h2
  · exact ⟨le_refl _, h⟩
  · exact ⟨h, le_refl _⟩
  · exact ⟨le_of_not_lt h1, le_of_not_lt h2⟩

theorem foldMax_ge_start (cs : List INode) (start : ℚ) :
    start ≤ cs.foldl (fun m c => if m < c.logit then c.logit else m) start := by
  induction cs generalizing start with
  | nil => simp
  | cons c cs ih =>
    simp only [List.foldl_cons]
    refine le_trans ?_ (ih _)
    split_ifs with h
    · exact le_of_lt h
    · exact le_refl _

theorem foldMax_le (cs : List INode) (start hi : ℚ) (h0 : start ≤ hi)
    (h : ∀ c ∈ cs, c.logit ≤ hi) :
    cs.foldl (fun m c => if m < c.logit then c.logit else m) start ≤ hi := by
  induction cs generalizing start with
  | nil => simpa using h0
  | cons c cs ih =>
    simp only [List.foldl_cons]
    refine ih _ ?_ fun x hx => h x (List.mem_cons_of_mem _ hx)
    split_ifs
    · exact h c (List.mem_cons_self _ _)
    · exact h0

theorem foldMax_ge_head (c : INode) (cs : List INode) (start : ℚ) :
    c.logit ≤ (c :: cs).foldl (fun m x => if m < x.logit then x.logit else m) start := by
  simp only [List.foldl_cons]
  refine le_trans ?_ (foldMax_ge_start cs _)
  split_ifs with h
  · exact le_refl _
  · exact le_of_not_lt h

theorem allInB_head {lo hi : ℚ} {D : ℕ} {n : INode} (h : allInB lo hi D n = true) :
    lo ≤ n.logit ∧ n.logit ≤ hi := by
  cases D with
  | zero => simpa [allInB] using h
  | succ D =>
    simp only [allInB, Bool.and_eq_true, decide_eq_true_eq] at h
    exact h.1

theorem allInB_children {lo hi : ℚ} {D : ℕ} {n : INode} (h : allInB lo hi (D + 1) n = true) :
    ∀ c ∈ n.childList, allInB lo hi D c = true := by
  simp only [allInB, Bool.and_eq_true, List.all_eq_true] at h
  exact h.2

theorem allInB_mk {lo hi : ℚ} {D : ℕ} {n : INode}
    (h1 : lo ≤ n.logit) (h2 : n.logit ≤ hi)
    (h3 : ∀ c ∈ n.childList, allInB lo hi D c = true) :
    allInB lo hi (D + 1) n = true := by
  simp only [allInB, Bool.and_eq_true, decide_eq_true_eq, List.all_eq_true]
  exact ⟨⟨h1, h2⟩, h3⟩

theorem allInB_zero {lo hi : ℚ} {n : INode} (h1 : lo ≤ n.logit) (h2 : n.logit ≤ hi) :
    allInB lo hi 0 n = true := by
  simp [allInB, h1, h2]

theorem wfB_of {D : ℕ} {n : INode}
    (hsame : (n.all_children_same || n.children.isSome) = true)
    (hcs : ∀ cs, n.children = some cs → cs.length = 8 ∧ ∀ c ∈ cs, wfB D c = true) :
    wfB (D + 1) n = true := by
  cases hn : n.children with
  | none =>
    have hacs : n.all_children_same = true := by simpa [hn] using hsame
    simp [wfB, hn, hacs]
  | some cs =>
    obtain ⟨h1, h2⟩ := hcs cs hn
    simp only [wfB, hn, Bool.and_eq_true, decide_eq_true_eq, List.all_eq_true]
    refine ⟨?_, h1, h2⟩
    simp [hn]

theorem wfB_children {D : ℕ} {n : INode} {cs : List INode}
    (h : wfB (D + 1) n = true) (hn : n.children = some cs) :
    cs.length = 8 ∧ ∀ c ∈ cs, wfB D c = true := by
  simp only [wfB, hn, Bool.and_eq_true, decide_eq_true_eq, List.all_eq_true] at h
  exact h.2

theorem wfB_present {D : ℕ} {n : INode} (h : wfB (D + 1) n = true)
    (hs : n.all_children_same = false) : n.children.isSome = true := by
  simp only [wfB, Bool.and_eq_true] at h
  have := h.1
  simpa [hs] using this

theorem childAt_mem {n : INode} {i : ℕ} (h : i < n.childList.length) :
    n.childAt i ∈ n.childList := by
  unfold INode.childAt
  rw [List.getD_eq_getElem n.childList INode.default h]
  exact List.getElem_mem h

theorem getChildIdx_lt8 (c : Code) (d : ℕ) : c.getChildIdx d < 8 := by
  unfold Code.getChildIdx
  split_ifs <;> norm_num

theorem all_set {p : INode → Bool} {cs : List INode} {i : ℕ} {c : INode}
    (h1 : ∀ x ∈ cs, p x = true) (h2 : p c = true) : ∀ x ∈ cs.set i c, p x = true := by
  intro x hx
  rcases List.mem_or_eq_of_mem_set hx with h | rfl
  · exact h1 x h
  · exact h2

theorem scalarEq_refl (t : Octree) : scalarEq t t :=
  ⟨rfl, rfl, rfl, rfl, rfl, rfl, rfl⟩

theorem scalarEq_trans {t u v : Octree} (a : scalarEq t u) (b : scalarEq u v) :
    scalarEq t v :=
  ⟨b.1.trans a.1, b.2.1.trans a.2.1, b.2.2.1.trans a.2.2.1, b.2.2.2.1.trans a.2.2.2.1,
    b.2.2.2.2.1.trans a.2.2.2.2.1, b.2.2.2.2.2.1.trans a.2.2.2.2.2.1,
    b.2.2.2.2.2.2.trans a.2.2.2.2.2.2⟩

theorem createChildren_scalarEq (t : Octree) (n : INode) (d : ℕ) :
    scalarEq t (t.createChildren n d).2.2 := by
  unfold Octree.createChildren
  cases hn : n.children with
  | some cs => exact scalarEq_refl t
  | none =>
    by_cases h : d = 1 <;> simp only [h, if_true, if_false, reduceIte] <;>
      exact ⟨rfl, rfl, rfl, rfl, rfl, rfl, rfl⟩

theorem expand_scalarEq (t : Octree) (n : INode) (d : ℕ) :
    scalarEq t (t.expand n d).2.2 := by
  unfold Octree.expand
  by_cases h : n.all_children_same = true
  · simp only [h, not_true_eq_false, if_false, reduceIte]
    by_cases hd : d = 1 <;>
      simp only [hd, if_true, if_false, reduceIte] <;>
      exact createChildren_scalarEq t n _
  · simp only [h]
    simp only [Bool.not_eq_true] at h
    simp [h, scalarEq_refl]

theorem foldl_scalarEq {α : Type} (f : Octree → α → Octree)
    (h : ∀ t x, scalarEq t (f t x)) :
    ∀ (l : List α) (t : Octree), scalarEq t (l.foldl f t) := by
  intro l
  induction l with
  | nil => intro t; exact scalarEq_refl t
  | cons x l ih =>
    intro t
    exact scalarEq_trans (h t x) (ih (f t x))

theorem deleteChildren_scalarEq (m : Bool) :
    ∀ (d : ℕ) (t : Octree) (n : INode), scalarEq t (t.deleteChildren m n d).2 := by
  intro d
  induction d using Nat.strong_induction_on with
  | _ d ih =>
    intro t n
    match d with
    | 0 =>
      simp only [Octree.deleteChildren]
      split_ifs
      · exact scalarEq_refl t
      · exact ⟨rfl, rfl, rfl, rfl, rfl, rfl, rfl⟩
    | 1 =>
      simp only [Octree.deleteChildren]
      split_ifs
      · exact scalarEq_refl t
      · exact ⟨rfl, rfl, rfl, rfl, rfl, rfl, rfl⟩
    | d + 2 =>
      simp only [Octree.deleteChildren]
      split_ifs
      · exact scalarEq_refl t
      · refine scalarEq_trans (t := t)
          (u := n.childList.foldl (fun t c => (t.deleteChildren m c (d + 1)).2) t) ?_ ?_
        · exact foldl_scalarEq _ (fun t c => ih (d + 1) (by omega) t c) _ t
        · exact ⟨rfl, rfl, rfl, rfl, rfl, rfl, rfl⟩

theorem prune_scalarEq (t : Octree) (n : INode) (d : ℕ) (m : Bool) :
    scalarEq t (t.prune n d m).2 := by
  unfold Octree.prune
  exact deleteChildren_scalarEq m d t n

theorem updateNodeLeaf_scalarEq (t : Octree) (n : INode) (d : ℕ) :
    scalarEq t (t.updateNodeLeaf n d).2.2 := by
  simp only [Octree.updateNodeLeaf]
  split_ifs
  · have h := prune_scalarEq t (n.withLogit (n.childList.headD INode.default).logit) d false
    rcases hp : t.prune (n.withLogit (n.childList.headD INode.default).logit) d false
      with ⟨n2, t2⟩
    rw [hp] at h
    simp only [hp]
    exact h
  · exact scalarEq_refl t
  · exact scalarEq_refl t

theorem updateNodeInner_scalarEq (t : Octree) (n : INode) (d : ℕ) :
    scalarEq t (t.updateNodeInner n d).2.2 := by
  simp only [Octree.updateNodeInner]
  split_ifs
  · have h := prune_scalarEq t (n.withLogit (n.childList.headD INode.default).logit) d false
    rcases hp : t.prune (n.withLogit (n.childList.headD INode.default).logit) d false
      with ⟨n2, t2⟩
    rw [hp] at h
    simp only [hp]
    exact h
  · exact scalarEq_refl t
  · exact scalarEq_refl t

theorem updateNode_scalarEq (t : Octree) (n : INode) (d : ℕ) :
    scalarEq t (t.updateNode n d).2.2 := by
  unfold Octree.updateNode
  split_ifs
  · exact updateNodeLeaf_scalarEq t n d
  · exact updateNodeInner_scalarEq t n d

theorem insertChanged_scalarEq (t : Octree) (c : Code) :
    scalarEq t (t.insertChanged c) := by
  unfold Octree.insertChanged
  split_ifs
  · exact scalarEq_refl t
  · exact ⟨rfl, rfl, rfl, rfl, rfl, rfl, rfl⟩


theorem allInB_withFlags (lo hi : ℚ) (d : ℕ) (c : INode) (f u : Bool) :
    allInB lo hi d (c.withFlags f u) = allInB lo hi d c := by
  cases d <;> simp [allInB]

theorem allInB_withSame (lo hi : ℚ) (d : ℕ) (c : INode) (s : Bool) :
    allInB lo hi d (c.withSame s) = allInB lo hi d c := by
  cases d <;> simp [allInB]

theorem allInB_withLogit_of {lo hi : ℚ} {d : ℕ} {c : INode} {v : ℚ}
    (h : allInB lo hi d c = true) (h1 : lo ≤ v) (h2 : v ≤ hi) :
    allInB lo hi d (c.withLogit v) = true := by
  cases d with
  | zero => simp [allInB, h1, h2]
  | succ d =>
    refine allInB_mk (by simpa using h1) (by simpa using h2) ?_
    simpa using allInB_children h

theorem allInB_withChildren_none {lo hi : ℚ} {d : ℕ} {c : INode}
    (h1 : lo ≤ c.logit) (h2 : c.logit ≤ hi) :
    allInB lo hi d (c.withChildren none) = true := by
  cases d with
  | zero => exact allInB_zero (by simpa using h1) (by simpa using h2)
  | succ d =>
    refine allInB_mk (by simpa using h1) (by simpa using h2) ?_
    simp [INode.childList]

theorem wfB_withLogit (d : ℕ) (c : INode) (v : ℚ) :
    wfB d (c.withLogit v) = wfB d c := by
  cases d <;> simp [wfB]

theorem wfB_withFlags (d : ℕ) (c : INode) (f u : Bool) :
    wfB d (c.withFlags f u) = wfB d c := by
  cases d <;> simp [wfB]

theorem wfB_withSame_true {d : ℕ} {c : INode} (h : wfB d c = true) :
    wfB d (c.withSame true) = true := by
  cases d with
  | zero => simp [wfB]
  | succ d =>
    cases hn : c.children with
    | none => simp [wfB, hn]
    | some cs =>
      obtain ⟨h1, h2⟩ := wfB_children h hn
      refine wfB_of (by simp) ?_
      intro cs2 hcs2
      simp only [INode.children_withSame, hn, Option.some.injEq] at hcs2
      subst hcs2
      exact ⟨h1, h2⟩

theorem wfB_withChildren_none (d : ℕ) (c : INode) :
    wfB d ((c.withSame true).withChildren none) = true := by
  cases d with
  | zero => simp [wfB]
  | succ d => simp [wfB]

theorem childAt_allIn {lo hi : ℚ} {d : ℕ} {n : INode} {i : ℕ}
    (hin : allInB lo hi (d + 1) n = true) (hlt : i < n.childList.length) :
    allInB lo hi d (n.childAt i) = true :=
  allInB_children hin _ (childAt_mem hlt)

theorem childAt_wf {d : ℕ} {n : INode} {cs : List INode} {i : ℕ}
    (hwf : wfB (d + 1) n = true) (hn : n.children = some cs) (hlt : i < n.childList.length) :
    wfB d (n.childAt i) = true := by
  obtain ⟨_, h2⟩ := wfB_children hwf hn
  refine h2 _ ?_
  have := childAt_mem hlt
  simpa [INode.childList, hn] using this

theorem setChild_allIn {lo hi : ℚ} {d : ℕ} {n : INode} {i : ℕ} {c : INode}
    (hin : allInB lo hi (d + 1) n = true) (hc : allInB lo hi d c = true) :
    allInB lo hi (d + 1) (n.setChild i c) = true := by
  obtain ⟨h1, h2⟩ := allInB_head hin
  refine allInB_mk (by simpa using h1) (by simpa using h2) ?_
  rw [INode.childList_setChild]
  exact all_set (allInB_children hin) hc

theorem setChild_wf {d : ℕ} {n : INode} {cs : List INode} {i : ℕ} {c : INode}
    (hwf : wfB (d + 1) n = true) (hn : n.children = some cs) (hc : wfB d c = true) :
    wfB (d + 1) (n.setChild i c) = true := by
  obtain ⟨h1, h2⟩ := wfB_children hwf hn
  refine wfB_of (by simp) ?_
  intro cs2 hcs2
  simp only [INode.children_setChild] at hcs2
  cases hcs2
  constructor
  · rw [List.length_set]
    simpa [INode.childList, hn] using h1
  · refine all_set ?_ hc
    intro x hx
    refine h2 x ?_
    simpa [INode.childList, hn] using hx

theorem setChild_childList_length (n : INode) (i : ℕ) (c : INode) :
    (n.setChild i c).childList.length = n.childList.length := by
  rw [INode.childList_setChild, List.length_set]

theorem allInB_of_children_none {lo hi : ℚ} {d : ℕ} {c : INode}
    (hn : c.children = none) (h1 : lo ≤ c.logit) (h2 : c.logit ≤ hi) :
    allInB lo hi d c = true := by
  cases d with
  | zero => exact allInB_zero h1 h2
  | succ d =>
    refine allInB_mk h1 h2 ?_
    simp [INode.childList, hn]

theorem expand_allIn {lo hi : ℚ} {d : ℕ} {n : INode} (t : Octree)
    (hin : allInB lo hi (d + 1) n = true) :
    allInB lo hi (d + 1) (t.expand n (d + 1)).2.1 = true := by
  obtain ⟨hl, hr⟩ := allInB_head hin
  have hchildren := allInB_children hin
  simp only [Octree.expand]
  by_cases hacs : n.all_children_same = true
  case neg => simp [hacs, hin]
  case pos =>
  simp only [hacs, not_true_eq_false, if_false, reduceIte]
  simp only [Octree.createChildren]
  cases hn : n.children with
  | some cs =>
    by_cases hd : d = 0
    · subst hd
      simp only [reduceIte]
      refine allInB_mk (by simpa using hl) (by simpa using hr) ?_
      intro c hc
      simp only [INode.childList, INode.children_withChildren, Option.getD_some] at hc
      obtain ⟨c0, hc0, rfl⟩ := List.mem_map.mp hc
      exact allInB_withLogit_of (hchildren c0 hc0) hl hr
    · rw [if_neg (by omega : ¬ d + 1 = 1)]
      refine allInB_mk (by simpa using hl) (by simpa using hr) ?_
      intro c hc
      simp only [INode.childList, INode.children_withChildren, Option.getD_some] at hc
      obtain ⟨c0, hc0, rfl⟩ := List.mem_map.mp hc
      rw [allInB_withSame, allInB_withFlags]
      exact allInB_withLogit_of (hchildren c0 hc0) hl hr
  | none =>
    by_cases hd : d = 0
    · subst hd
      simp only [reduceIte]
      refine allInB_mk (by simpa using hl) (by simpa using hr) ?_
      intro c hc
      simp only [INode.childList, INode.children_withChildren, INode.children_withSame,
        Option.getD_some] at hc
      obtain ⟨c0, hc0, rfl⟩ := List.mem_map.mp hc
      have hc0d := List.eq_of_mem_replicate hc0
      subst hc0d
      exact allInB_of_children_none (by simp [INode.default]) (by simpa using hl)
        (by simpa using hr)
    · rw [if_neg (by omega : ¬ d + 1 = 1), if_neg (by omega : ¬ d + 1 = 1)]
      refine allInB_mk (by simpa using hl) (by simpa using hr) ?_
      intro c hc
      simp only [INode.childList, INode.children_withChildren, INode.children_withSame,
        Option.getD_some] at hc
      obtain ⟨c0, hc0, rfl⟩ := List.mem_map.mp hc
      have hc0d := List.eq_of_mem_replicate hc0
      subst hc0d
      rw [allInB_withSame, allInB_withFlags]
      exact allInB_of_children_none (by simp [INode.withFlags, INode.default])
        (by simpa using hl) (by simpa using hr)


theorem wfB_of_none_same {d : ℕ} {c : INode} (hn : c.children = none)
    (hs : c.all_children_same = true) : wfB d c = true := by
  cases d with
  | zero => simp [wfB]
  | succ d => simp [wfB, hn, hs]

theorem expand_wf {d : ℕ} {n : INode} (t : Octree)
    (hwf : wfB (d + 1) n = true) :
    wfB (d + 1) (t.expand n (d + 1)).2.1 = true ∧
    (t.expand n (d + 1)).2.1.children.isSome = true ∧
    (t.expand n (d + 1)).2.1.childList.length = 8 := by
  simp only [Octree.expand]
  by_cases hacs : n.all_children_same = true
  case neg =>
    simp only [hacs, Bool.false_eq_true, not_false_eq_true, if_true, reduceIte]
    have hpresent := wfB_present hwf (by simpa using hacs)
    obtain ⟨cs, hn⟩ := Option.isSome_iff_exists.mp hpresent
    obtain ⟨h1, _⟩ := wfB_children hwf hn
    exact ⟨hwf, hpresent, by simp [INode.childList, hn, h1]⟩
  case pos =>
  simp only [hacs, not_true_eq_false, if_false, reduceIte]
  simp only [Octree.createChildren]
  cases hn : n.children with
  | some cs =>
    obtain ⟨h1, h2⟩ := wfB_children hwf hn
    by_cases hd : d = 0
    · subst hd
      simp only [reduceIte]
      refine ⟨?_, by simp, by simp [INode.childList, hn, h1]⟩
      refine wfB_of (by simp) ?_
      intro cs2 hcs2
      simp only [INode.children_withChildren, Option.some.injEq] at hcs2
      subst hcs2
      refine ⟨by simp [INode.childList, hn, h1], ?_⟩
      intro c hc
      cases Nat.eq_zero_of_le_zero (Nat.le_refl 0)
      simp [wfB]
    · rw [if_neg (by omega : ¬ d + 1 = 1)]
      refine ⟨?_, by simp, by simp [INode.childList, hn, h1]⟩
      refine wfB_of (by simp) ?_
      intro cs2 hcs2
      simp only [INode.children_withChildren, Option.some.injEq] at hcs2
      subst hcs2
      refine ⟨by simp [INode.childList, hn, h1], ?_⟩
      intro c hc
      obtain ⟨c0, hc0, rfl⟩ := List.mem_map.mp hc
      have hc0wf : wfB d c0 = true := h2 c0 (by simpa [INode.childList, hn] using hc0)
      refine wfB_withSame_true ?_
      rw [wfB_withFlags, wfB_withLogit]
      exact hc0wf
  | none =>
    by_cases hd : d = 0
    · subst hd
      simp only [reduceIte]
      refine ⟨?_, by simp, by simp [INode.childList]⟩
      refine wfB_of (by simp) ?_
      intro cs2 hcs2
      simp only [INode.children_withChildren, Option.some.injEq] at hcs2
      subst hcs2
      refine ⟨by simp [INode.childList], ?_⟩
      intro c hc
      simp [wfB]
    · rw [if_neg (by omega : ¬ d + 1 = 1), if_neg (by omega : ¬ d + 1 = 1)]
      refine ⟨?_, by simp, by simp [INode.childList]⟩
      refine wfB_of (by simp) ?_
      intro cs2 hcs2
      simp only [INode.children_withChildren, Option.some.injEq] at hcs2
      subst hcs2
      refine ⟨by simp [INode.childList], ?_⟩
      intro c hc
      obtain ⟨c0, hc0, rfl⟩ := List.mem_map.mp hc
      exact wfB_of_none_same (by
        have := List.eq_of_mem_replicate hc0
        subst this
        simp [INode.default]) (by simp)


theorem deleteChildren_node (t : Octree) (m : Bool) (n : INode) (d : ℕ) :
    (t.deleteChildren m n d).1 = n.withSame true ∨
    (t.deleteChildren m n d).1 = (n.withSame true).withChildren none := by
  match d with
  | 0 =>
    simp only [Octree.deleteChildren]
    split_ifs
    · exact Or.inl rfl
    · exact Or.inr rfl
  | 1 =>
    simp only [Octree.deleteChildren]
    split_ifs
    · exact Or.inl rfl
    · exact Or.inr rfl
  | d + 2 =>
    simp only [Octree.deleteChildren]
    split_ifs
    · exact Or.inl rfl
    · exact Or.inr rfl

theorem deleteChildren_allIn {lo hi : ℚ} (t : Octree) (m : Bool) (n : INode) (d : ℕ)
    (hin : allInB lo hi d n = true) :
    allInB lo hi d (t.deleteChildren m n d).1 = true := by
  obtain ⟨h1, h2⟩ := allInB_head hin
  rcases deleteChildren_node t m n d with h | h <;> rw [h]
  · rw [allInB_withSame]
    exact hin
  · exact allInB_withChildren_none (by simpa using h1) (by simpa using h2)

theorem deleteChildren_wf (t : Octree) (m : Bool) (n : INode) (d : ℕ)
    (hwf : wfB d n = true) :
    wfB d (t.deleteChildren m n d).1 = true := by
  rcases deleteChildren_node t m n d with h | h <;> rw [h]
  · exact wfB_withSame_true hwf
  · exact wfB_withChildren_none d n

theorem prune_allIn {lo hi : ℚ} (t : Octree) (n : INode) (d : ℕ) (m : Bool)
    (hin : allInB lo hi d n = true) :
    allInB lo hi d (t.prune n d m).1 = true := by
  simp only [Octree.prune]
  rcases hp : t.deleteChildren m n d with ⟨n2, t2⟩
  have h := deleteChildren_allIn t m n d hin
  rw [hp] at h
  simp only [hp]
  rw [allInB_withFlags]
  exact h

theorem prune_wf (t : Octree) (n : INode) (d : ℕ) (m : Bool)
    (hwf : wfB d n = true) :
    wfB d (t.prune n d m).1 = true := by
  simp only [Octree.prune]
  rcases hp : t.deleteChildren m n d with ⟨n2, t2⟩
  have h := deleteChildren_wf t m n d hwf
  rw [hp] at h
  simp only [hp]
  rw [wfB_withFlags]
  exact h

theorem headD_mem {cs : List INode} (h : cs ≠ []) : cs.headD INode.default ∈ cs := by
  cases cs with
  | nil => exact absurd rfl h
  | cons c0 rest => simp

theorem updateNodeLeaf_allIn {lo hi : ℚ} {t : Octree} {n : INode} {d : ℕ}
    (hne : n.childList ≠ []) (hlh : lo ≤ hi)
    (hin : allInB lo hi (d + 1) n = true) :
    allInB lo hi (d + 1) (t.updateNodeLeaf n (d + 1)).2.1 = true := by
  have hchild := allInB_children hin
  have hhead : lo ≤ (n.childList.headD INode.default).logit ∧
      (n.childList.headD INode.default).logit ≤ hi :=
    allInB_head (hchild _ (headD_mem hne))
  simp only [Octree.updateNodeLeaf]
  split_ifs with hcoll hch
  · rcases hp : t.prune (n.withLogit (n.childList.headD INode.default).logit) (d + 1) false
      with ⟨n2, t2⟩
    have h := prune_allIn t (n.withLogit (n.childList.headD INode.default).logit) (d + 1)
      false (allInB_withLogit_of hin hhead.1 hhead.2)
    rw [hp] at h
    simp only [hp]
    exact h
  · rw [allInB_withFlags]
    refine allInB_withLogit_of hin ?_ ?_
    · unfold getMaxChildLogitLeaf
      refine le_trans hhead.1 (foldMax_ge_start _ _)
    · unfold getMaxChildLogitLeaf
      refine foldMax_le _ _ _ hhead.2 ?_
      intro c hc
      exact (allInB_head (hchild c hc)).2
  · exact hin

theorem updateNodeInner_allIn {lo hi : ℚ} {t : Octree} {n : INode} {d : ℕ}
    (hne : n.childList ≠ []) (hfl : floatLowest ≤ lo) (hlh : lo ≤ hi)
    (hin : allInB lo hi (d + 1) n = true) :
    allInB lo hi (d + 1) (t.updateNodeInner n (d + 1)).2.1 = true := by
  have hchild := allInB_children hin
  have hhead : lo ≤ (n.childList.headD INode.default).logit ∧
      (n.childList.headD INode.default).logit ≤ hi :=
    allInB_head (hchild _ (headD_mem hne))
  simp only [Octree.updateNodeInner]
  split_ifs with hcoll hch
  · rcases hp : t.prune (n.withLogit (n.childList.headD INode.default).logit) (d + 1) false
      with ⟨n2, t2⟩
    have h := prune_allIn t (n.withLogit (n.childList.headD INode.default).logit) (d + 1)
      false (allInB_withLogit_of hin hhead.1 hhead.2)
    rw [hp] at h
    simp only [hp]
    exact h
  · rw [allInB_withFlags]
    refine allInB_withLogit_of hin ?_ ?_
    · unfold getMaxChildLogitInner
      cases hcs : n.childList with
      | nil => exact absurd hcs hne
      | cons c0 rest =>
        have hc0 : lo ≤ c0.logit := (allInB_head (hchild c0 (by simp [hcs]))).1
        exact le_trans hc0 (foldMax_ge_head c0 rest floatLowest)
    · unfold getMaxChildLogitInner
      refine foldMax_le _ _ _ (le_trans hfl hlh) ?_
      intro c hc
      exact (allInB_head (hchild c hc)).2
  · exact hin

theorem updateNodeLeaf_wf {t : Octree} {n : INode} {d : ℕ}
    (hwf : wfB (d + 1) n = true) :
    wfB (d + 1) (t.updateNodeLeaf n (d + 1)).2.1 = true := by
  simp only [Octree.updateNodeLeaf]
  split_ifs
  · rcases hp : t.prune (n.withLogit (n.childList.headD INode.default).logit) (d + 1) false
      with ⟨n2, t2⟩
    have h := prune_wf t (n.withLogit (n.childList.headD INode.default).logit) (d + 1) false
      (by rw [wfB_withLogit]; exact hwf)
    rw [hp] at h
    simp only [hp]
    exact h
  · rw [wfB_withFlags, wfB_withLogit]
    exact hwf
  · exact hwf

theorem updateNodeInner_wf {t : Octree} {n : INode} {d : ℕ}
    (hwf : wfB (d + 1) n = true) :
    wfB (d + 1) (t.updateNodeInner n (d + 1)).2.1 = true := by
  simp only [Octree.updateNodeInner]
  split_ifs
  · rcases hp : t.prune (n.withLogit (n.childList.headD INode.default).logit) (d + 1) false
      with ⟨n2, t2⟩
    have h := prune_wf t (n.withLogit (n.childList.headD INode.default).logit) (d + 1) false
      (by rw [wfB_withLogit]; exact hwf)
    rw [hp] at h
    simp only [hp]
    exact h
  · rw [wfB_withFlags, wfB_withLogit]
    exact hwf
  · exact hwf

theorem updateNode_allIn {lo hi : ℚ} {t : Octree} {n : INode} {d : ℕ}
    (hne : n.childList ≠ []) (hfl : floatLowest ≤ lo) (hlh : lo ≤ hi)
    (hin : allInB lo hi (d + 1) n = true) :
    allInB lo hi (d + 1) (t.updateNode n (d + 1)).2.1 = true := by
  unfold Octree.updateNode
  split_ifs
  · exact updateNodeLeaf_allIn hne hlh hin
  · exact updateNodeInner_allIn hne hfl hlh hin

theorem updateNode_wf {t : Octree} {n : INode} {d : ℕ} (hwf : wfB (d + 1) n = true) :
    wfB (d + 1) (t.updateNode n (d + 1)).2.1 = true := by
  unfold Octree.updateNode
  split_ifs
  · exact updateNodeLeaf_wf hwf
  · exact updateNodeInner_wf hwf


theorem updRecurs_inv (lv : ℚ) (sv : Bool) (lo hi : ℚ)
    (hfl : floatLowest ≤ lo) (hlh : lo ≤ hi) :
    ∀ (cd : ℕ) (code : Code) (t : Octree) (n : INode),
      t.clamping_thres_min_log = lo → t.clamping_thres_max_log = hi →
      wfB cd n = true → allInB lo hi cd n = true →
      wfB cd (Octree.updateNodeValueRecurs code lv sv cd t n).2.1 = true ∧
      allInB lo hi cd (Octree.updateNodeValueRecurs code lv sv cd t n).2.1 = true ∧
      scalarEq t (Octree.updateNodeValueRecurs code lv sv cd t n).2.2 := by
  intro cd
  induction cd with
  | zero =>
    intro code t n hmin hmax hwf hin
    simp only [Octree.updateNodeValueRecurs]
    obtain ⟨hc1, hc2⟩ := clampQ_mem (if sv = true then lv else n.logit + lv) lo hi hlh
    rw [hmin, hmax]
    refine ⟨by simp [wfB], ?_, ?_⟩
    · exact allInB_zero (by simpa using hc1) (by simpa using hc2)
    · split_ifs
      · exact insertChanged_scalarEq t code
      · exact scalarEq_refl t
  | succ cd ih =>
    intro code t n hmin hmax hwf hin
    simp only [Octree.updateNodeValueRecurs]
    by_cases hgt : cd + 1 > code.depth
    case pos =>
      rw [if_pos hgt]
      rcases hE : t.expand n (cd + 1) with ⟨b1, n1, t1⟩
      have hsc1 : scalarEq t t1 := by
        have := expand_scalarEq t n (cd + 1)
        rw [hE] at this
        exact this
      have hEwf := expand_wf t hwf
      rw [hE] at hEwf
      obtain ⟨hn1wf, hn1some, hn1len⟩ := hEwf
      have hn1in : allInB lo hi (cd + 1) n1 = true := by
        have := expand_allIn t hin
        rw [hE] at this
        exact this
      obtain ⟨cs1, hcs1⟩ := Option.isSome_iff_exists.mp hn1some
      have hidx : code.getChildIdx cd < n1.childList.length := by
        rw [hn1len]
        exact getChildIdx_lt8 code cd
      have hchildwf : wfB cd (n1.childAt (code.getChildIdx cd)) = true :=
        childAt_wf hn1wf hcs1 hidx
      have hchildin : allInB lo hi cd (n1.childAt (code.getChildIdx cd)) = true :=
        childAt_allIn hn1in hidx
      rcases hR : Octree.updateNodeValueRecurs code lv sv cd t1
          (n1.childAt (code.getChildIdx cd)) with ⟨⟨res, changed⟩, child2, t2⟩
      have hIH := ih code t1 (n1.childAt (code.getChildIdx cd))
        (hsc1.1.trans hmin) (hsc1.2.1.trans hmax) hchildwf hchildin
      rw [hR] at hIH
      obtain ⟨hc2wf, hc2in, hsc2⟩ := hIH
      have hscT : scalarEq t t2 := scalarEq_trans hsc1 hsc2
      have hn2wf : wfB (cd + 1) (n1.setChild (code.getChildIdx cd) child2) = true :=
        setChild_wf hn1wf hcs1 hc2wf
      have hn2in : allInB lo hi (cd + 1) (n1.setChild (code.getChildIdx cd) child2) = true :=
        setChild_allIn hn1in hc2in
      have hn2ne : (n1.setChild (code.getChildIdx cd) child2).childList ≠ [] := by
        have := setChild_childList_length n1 (code.getChildIdx cd) child2
        intro hcon
        rw [hcon] at this
        simp only [List.length_nil] at this
        omega
      simp only [hE, hR]
      by_cases hchg : changed = true
      case pos =>
        subst hchg
        simp only [if_true, reduceIte]
        rcases hU : t2.updateNode (n1.setChild (code.getChildIdx cd) child2) (cd + 1)
          with ⟨chg2, n3, t3⟩
        have hn3wf : wfB (cd + 1) n3 = true := by
          have := updateNode_wf (t := t2) hn2wf
          rw [hU] at this
          exact this
        have hn3in : allInB lo hi (cd + 1) n3 = true := by
          have := updateNode_allIn (t := t2) hn2ne hfl hlh hn2in
          rw [hU] at this
          exact this
        have hsc3 : scalarEq t t3 := by
          have := updateNode_scalarEq t2 (n1.setChild (code.getChildIdx cd) child2) (cd + 1)
          rw [hU] at this
          exact scalarEq_trans hscT this
        simp only [hU]
        refine ⟨hn3wf, hn3in, ?_⟩
        split_ifs
        · exact scalarEq_trans hsc3 (insertChanged_scalarEq t3 _)
        · exact hsc3
      case neg =>
        simp only [hchg, if_false, reduceIte]
        exact ⟨hn2wf, hn2in, hscT⟩
    case neg =>
      rw [if_neg hgt]
      by_cases hsv : sv = true
      case pos =>
        rw [if_pos hsv]
        obtain ⟨hc1, hc2⟩ := clampQ_mem lv lo hi hlh
        rw [hmin, hmax]
        have hin2 : allInB lo hi (cd + 1) (n.withLogit (clampQ lv lo hi)) = true :=
          allInB_withLogit_of hin hc1 hc2
        have hwf2 : wfB (cd + 1) (n.withLogit (clampQ lv lo hi)) = true := by
          rw [wfB_withLogit]
          exact hwf
        rcases hp : t.prune (n.withLogit (clampQ lv lo hi)) (cd + 1) false with ⟨n2, t2⟩
        have hain := prune_allIn t (n.withLogit (clampQ lv lo hi)) (cd + 1) false hin2
        have hawf := prune_wf t (n.withLogit (clampQ lv lo hi)) (cd + 1) false hwf2
        have hasc := prune_scalarEq t (n.withLogit (clampQ lv lo hi)) (cd + 1) false
        rw [hp] at hain hawf hasc
        refine ⟨hawf, hain, ?_⟩
        split_ifs <;>
          first
          | exact scalarEq_trans hasc (insertChanged_scalarEq t2 code)
          | exact hasc
      case neg =>
        rw [if_neg hsv]
        obtain ⟨hc1, hc2⟩ := clampQ_mem (n.logit + lv) lo hi hlh
        rw [hmin, hmax]
        have hin2 : allInB lo hi (cd + 1) (n.withLogit (clampQ (n.logit + lv) lo hi)) = true :=
          allInB_withLogit_of hin hc1 hc2
        have hwf2 : wfB (cd + 1) (n.withLogit (clampQ (n.logit + lv) lo hi)) = true := by
          rw [wfB_withLogit]
          exact hwf
        by_cases hocc : t.isOccupiedN (n.withLogit (clampQ (n.logit + lv) lo hi)) = true
        case neg =>
          rw [if_pos hocc]
          rcases hp : t.prune (n.withLogit (clampQ (n.logit + lv) lo hi)) (cd + 1) false
            with ⟨n2, t2⟩
          have hain := prune_allIn t _ (cd + 1) false hin2
          have hawf := prune_wf t _ (cd + 1) false hwf2
          have hasc := prune_scalarEq t (n.withLogit (clampQ (n.logit + lv) lo hi)) (cd + 1)
            false
          rw [hp] at hain hawf hasc
          refine ⟨hawf, hain, ?_⟩
          split_ifs <;>
            first
            | exact scalarEq_trans hasc (insertChanged_scalarEq t2 code)
            | exact hasc
        case pos =>
          rw [if_neg (by simp [hocc])]
          by_cases hch : Octree.hasChildrenI (n.withLogit (clampQ (n.logit + lv) lo hi)) = true
          case pos =>
            rw [if_pos hch]
            have hpres : (n.withLogit (clampQ (n.logit + lv) lo hi)).children.isSome = true := by
              rw [INode.children_withLogit]
              refine wfB_present hwf ?_
              have h := hch
              unfold Octree.hasChildrenI at h
              simp only [INode.same_withLogit, Bool.not_eq_true'] at h
              exact h
            obtain ⟨cs0, hcs0⟩ := Option.isSome_iff_exists.mp hpres
            have hlen0 : (n.withLogit (clampQ (n.logit + lv) lo hi)).childList.length = 8 := by
              have h8 := (wfB_children hwf (by
                rw [INode.children_withLogit] at hcs0
                exact hcs0)).1
              simp [INode.childList, hcs0, h8]
            have hfold : ∀ (l : List ℕ), (∀ j ∈ l, j < 8) → ∀ (acc : INode × Octree),
                wfB (cd + 1) acc.1 = true → allInB lo hi (cd + 1) acc.1 = true →
                acc.1.children.isSome = true → acc.1.childList.length = 8 →
                scalarEq t acc.2 →
                wfB (cd + 1) (l.foldl (fun (acc : INode × Octree) child_idx =>
                    (acc.1.setChild child_idx (Octree.updateNodeValueRecurs
                      (code.getChild child_idx) lv sv cd acc.2
                      (acc.1.childAt child_idx)).2.1,
                     (Octree.updateNodeValueRecurs (code.getChild child_idx) lv sv cd acc.2
                      (acc.1.childAt child_idx)).2.2)) acc).1 = true ∧
                allInB lo hi (cd + 1) (l.foldl (fun (acc : INode × Octree) child_idx =>
                    (acc.1.setChild child_idx (Octree.updateNodeValueRecurs
                      (code.getChild child_idx) lv sv cd acc.2
                      (acc.1.childAt child_idx)).2.1,
                     (Octree.updateNodeValueRecurs (code.getChild child_idx) lv sv cd acc.2
                      (acc.1.childAt child_idx)).2.2)) acc).1 = true ∧
                (l.foldl (fun (acc : INode × Octree) child_idx =>
                    (acc.1.setChild child_idx (Octree.updateNodeValueRecurs
                      (code.getChild child_idx) lv sv cd acc.2
                      (acc.1.childAt child_idx)).2.1,
                     (Octree.updateNodeValueRecurs (code.getChild child_idx) lv sv cd acc.2
                      (acc.1.childAt child_idx)).2.2)) acc).1.children.isSome = true ∧
                (l.foldl (fun (acc : INode × Octree) child_idx =>
                    (acc.1.setChild child_idx (Octree.updateNodeValueRecurs
                      (code.getChild child_idx) lv sv cd acc.2
                      (acc.1.childAt child_idx)).2.1,
                     (Octree.updateNodeValueRecurs (code.getChild child_idx) lv sv cd acc.2
                      (acc.1.childAt child_idx)).2.2)) acc).1.childList.length = 8 ∧
                scalarEq t (l.foldl (fun (acc : INode × Octree) child_idx =>
                    (acc.1.setChild child_idx (Octree.updateNodeValueRecurs
                      (code.getChild child_idx) lv sv cd acc.2
                      (acc.1.childAt child_idx)).2.1,
                     (Octree.updateNodeValueRecurs (code.getChild child_idx) lv sv cd acc.2
                      (acc.1.childAt child_idx)).2.2)) acc).2 := by
              intro l
              induction l with
              | nil =>
                intro _ acc h1 h2 h3 h4 h5
                exact ⟨h1, h2, h3, h4, h5⟩
              | cons i is ihl =>
                intro hbound acc h1 h2 h3 h4 h5
                simp only [List.foldl_cons]
                obtain ⟨csa, hcsa⟩ := Option.isSome_iff_exists.mp h3
                have hlt : i < acc.1.childList.length := by
                  rw [h4]
                  exact hbound i (List.mem_cons_self i is)
                have hcwf : wfB cd (acc.1.childAt i) = true := childAt_wf h1 hcsa hlt
                have hcin : allInB lo hi cd (acc.1.childAt i) = true := childAt_allIn h2 hlt
                rcases hRi : Octree.updateNodeValueRecurs (code.getChild i) lv sv cd acc.2
                    (acc.1.childAt i) with ⟨⟨resi, chgi⟩, childi, ti⟩
                have hIHi := ih (code.getChild i) acc.2 (acc.1.childAt i) (h5.1.trans hmin)
                  (h5.2.1.trans hmax) hcwf hcin
                rw [hRi] at hIHi
                obtain ⟨hiwf, hiin, hisc⟩ := hIHi
                refine ihl (fun j hj => hbound j (List.mem_cons_of_mem i hj))
                  (acc.1.setChild i childi, ti) ?_ ?_ (by simp) ?_ ?_
                · exact setChild_wf h1 hcsa hiwf
                · exact setChild_allIn h2 hiin
                · rw [setChild_childList_length]
                  exact h4
                · exact scalarEq_trans h5 hisc
            have hstart := hfold (List.range 8)
              (fun j hj => List.mem_range.mp hj)
              (n.withLogit (clampQ (n.logit + lv) lo hi), t) hwf2 hin2 hpres hlen0
              (scalarEq_refl t)
            rcases hF : (List.range 8).foldl (fun (acc : INode × Octree) child_idx =>
                (acc.1.setChild child_idx (Octree.updateNodeValueRecurs
                  (code.getChild child_idx) lv sv cd acc.2
                  (acc.1.childAt child_idx)).2.1,
                 (Octree.updateNodeValueRecurs (code.getChild child_idx) lv sv cd acc.2
                  (acc.1.childAt child_idx)).2.2))
                (n.withLogit (clampQ (n.logit + lv) lo hi), t) with ⟨nf, tf⟩
            rw [hF] at hstart
            obtain ⟨hfwf, hfin, hfsome, hflen, hfsc⟩ := hstart
            rcases hU : tf.updateNode nf (cd + 1) with ⟨chgu, nu, tu⟩
            have hnuwf : wfB (cd + 1) nu = true := by
              have h := updateNode_wf (t := tf) hfwf
              rw [hU] at h
              exact h
            have hfne : nf.childList ≠ [] := by
              intro hcon
              rw [hcon] at hflen
              simp only [List.length_nil] at hflen
              omega
            have hnuin : allInB lo hi (cd + 1) nu = true := by
              have h := updateNode_allIn (t := tf) hfne hfl hlh hfin
              rw [hU] at h
              exact h
            have hscu : scalarEq t tu := by
              have h := updateNode_scalarEq tf nf (cd + 1)
              rw [hU] at h
              exact scalarEq_trans hfsc h
            refine ⟨hnuwf, hnuin, ?_⟩
            split_ifs <;>
              first
              | exact scalarEq_trans hscu (insertChanged_scalarEq tu code)
              | exact hscu
          case neg =>
            rw [if_neg hch]
            refine ⟨hwf2, hin2, ?_⟩
            split_ifs <;>
              first
              | exact insertChanged_scalarEq t code
              | exact scalarEq_refl t

theorem updateNodeValue_clamped (t : Octree) (code : Code) (d : ℚ)
    (hwf : wfB t.depth_levels t.root = true)
    (hfl : floatLowest ≤ t.clamping_thres_min_log)
    (hin : t.logitsClamped) :
    (t.updateNodeValue code d).2.logitsClamped := by
  have hlh : t.clamping_thres_min_log ≤ t.clamping_thres_max_log :=
    le_trans (allInB_head hin).1 (allInB_head hin).2
  simp only [Octree.updateNodeValue]
  split_ifs with h
  · exact hin
  · obtain ⟨-, hain, hsc⟩ := updRecurs_inv d false t.clamping_thres_min_log
      t.clamping_thres_max_log hfl hlh t.depth_levels code t t.root rfl rfl hwf hin
    show allInB _ _ _ _ = true
    simp only
    rw [hsc.1, hsc.2.1, hsc.2.2.1]
    exact hain

theorem setNodeValue_clamped (t : Octree) (code : Code) (v : ℚ)
    (hwf : wfB t.depth_levels t.root = true)
    (hfl : floatLowest ≤ t.clamping_thres_min_log)
    (hin : t.logitsClamped) :
    (t.setNodeValue code v).2.logitsClamped := by
  have hlh : t.clamping_thres_min_log ≤ t.clamping_thres_max_log :=
    le_trans (allInB_head hin).1 (allInB_head hin).2
  simp only [Octree.setNodeValue]
  split_ifs with h
  · obtain ⟨-, hain, hsc⟩ := updRecurs_inv
      (clampQ v t.clamping_thres_min_log t.clamping_thres_max_log) true
      t.clamping_thres_min_log t.clamping_thres_max_log hfl hlh
      t.depth_levels code t t.root rfl rfl hwf hin
    show allInB _ _ _ _ = true
    simp only
    rw [hsc.1, hsc.2.1, hsc.2.2.1]
    exact hain
  · exact hin

/-- C4: in a tree whose stored logits all lie in
`[clamping_thres_min_log, clamping_thres_max_log]` (and whose blocks are
well-formed, with the clamping minimum at or above the float minimum), every
stored logit still lies in that interval after `updateNodeValue`,
`setNodeValue`, `integrateHit` or `integrateMiss`. -/
theorem c4_updates_preserve_clamping (t : Octree) (code : Code) (delta v : ℚ)
    (hwf : wfB t.depth_levels t.root = true)
    (hfl : floatLowest ≤ t.clamping_thres_min_log)
    (hin : t.logitsClamped) :
    (t.updateNodeValue code delta).2.logitsClamped ∧
    (t.setNodeValue code v).2.logitsClamped ∧
    (t.integrateHit code).2.logitsClamped ∧
    (t.integrateMiss code).2.logitsClamped :=
  ⟨updateNodeValue_clamped t code delta hwf hfl hin,
   setNodeValue_clamped t code v hwf hfl hin,
   updateNodeValue_clamped t code t.prob_hit_log hwf hfl hin,
   updateNodeValue_clamped t code t.prob_miss_log hwf hfl hin⟩

theorem c4_updates_preserve_clamping_witness :
    ((testTree 2 (leafOf 5)).updateNodeValue ⟨0, 0, 0, 0⟩ 3).2.logitsClamped ∧
    ((testTree 2 (leafOf 5)).setNodeValue ⟨0, 0, 0, 0⟩ (-4)).2.logitsClamped ∧
    ((testTree 2 (leafOf 5)).integrateHit ⟨0, 0, 0, 0⟩).2.logitsClamped ∧
    ((testTree 2 (leafOf 5)).integrateMiss ⟨0, 0, 0, 0⟩).2.logitsClamped :=
  c4_updates_preserve_clamping (testTree 2 (leafOf 5)) ⟨0, 0, 0, 0⟩ 3 (-4)
    (by with_unfolding_all decide) (by with_unfolding_all decide)
    (by with_unfolding_all decide)

theorem mapFind_nil (c : Code) : mapFind [] c = none := rfl

theorem mapFind_cons (k0 : Code) (v0 : ℚ) (rest : List (Code × ℚ)) (c : Code) :
    mapFind ((k0, v0) :: rest) c = if k0 = c then some v0 else mapFind rest c := by
  by_cases h : k0 = c <;> simp [mapFind, List.find?_cons, h]

theorem mapFind_assign (m : List (Code × ℚ)) (k : Code) (v : ℚ) (c : Code) :
    mapFind (mapAssign m k v) c = if k = c then some v else mapFind m c := by
  induction m with
  | nil =>
    by_cases h : k = c <;> simp [mapAssign, mapFind_cons, mapFind_nil, h]
  | cons p rest ih =>
    obtain ⟨k0, v0⟩ := p
    simp only [mapAssign]
    by_cases h0 : k0 = k
    · rw [if_pos h0]
      subst h0
      by_cases h : k0 = c <;> simp [mapFind_cons, h]
    · rw [if_neg h0]
      by_cases h : k0 = c
      · subst h
        rw [mapFind_cons, if_pos rfl, if_neg (fun hh => h0 hh.symm), mapFind_cons, if_pos rfl]
      · rw [mapFind_cons, if_neg h, ih, mapFind_cons, if_neg h]

theorem mapFind_append (a b : List (Code × ℚ)) (c : Code) :
    mapFind (a ++ b) c =
      match mapFind a c with
      | some w => some w
      | none => mapFind b c := by
  induction a with
  | nil => simp [mapFind_nil]
  | cons p rest ih =>
    obtain ⟨k0, v0⟩ := p
    by_cases h : k0 = c
    · simp [List.cons_append, mapFind_cons, h]
    · simp [List.cons_append, mapFind_cons, h, ih]

theorem mapFind_isSome_find (m : List (Code × ℚ)) (k : Code) :
    (m.find? fun p => p.1 = k).isSome = (mapFind m k).isSome := by
  unfold mapFind
  cases h : m.find? fun p => p.1 = k <;> simp [h]

theorem mapFind_tryEmplace (m : List (Code × ℚ)) (k : Code) (v : ℚ) (c : Code) :
    mapFind (mapTryEmplace m k v) c =
      match mapFind m c with
      | some w => some w
      | none => if k = c then some v else none := by
  unfold mapTryEmplace
  by_cases hp : (m.find? fun p => p.1 = k).isSome = true
  · rw [if_pos hp]
    cases hm : mapFind m c with
    | some w => simp [hm]
    | none =>
      simp only [hm]
      by_cases hk : k = c
      · subst hk
        rw [mapFind_isSome_find, hm] at hp
        exact absurd hp (by simp)
      · rw [if_neg hk]
  · rw [if_neg hp]
    rw [mapFind_append]
    cases hm : mapFind m c with
    | some w => simp
    | none =>
      by_cases hk : k = c <;> simp [mapFind_cons, mapFind_nil, hk]

theorem rayLoop_walkLoop_find (t : Octree) (ending : Key) (distance : ℚ) (step : Step3)
    (t_delta : Point3) (c : Code) :
    ∀ (fuel : ℕ) (current : Key) (t_max : Point3) (m : List (Code × ℚ)),
      mapFind (t.computeUpdateRayLoop ending distance step t_delta fuel current t_max m) c =
        match mapFind m c with
        | some w => some w
        | none =>
          if c ∈ t.computeUpdateWalkLoop ending distance step t_delta fuel current t_max
          then some t.prob_miss_log else none := by
  intro fuel
  induction fuel with
  | zero =>
    intro current t_max m
    simp only [Octree.computeUpdateRayLoop, Octree.computeUpdateWalkLoop]
    cases hm : mapFind m c <;> simp
  | succ fuel ih =>
    intro current t_max m
    simp only [Octree.computeUpdateRayLoop, Octree.computeUpdateWalkLoop]
    by_cases hg : current ≠ ending ∧ t_max.minv ≤ distance
    · rw [if_pos hg, if_pos hg]
      rw [ih]
      rw [mapFind_tryEmplace]
      cases hm : mapFind m c with
      | some w => simp
      | none =>
        simp only []
        by_cases hk : Code.ofKey current = c
        · simp [hk, List.mem_cons]
        · simp only [if_neg hk, List.mem_cons]
          by_cases hmem :
              c ∈ t.computeUpdateWalkLoop ending distance step t_delta fuel
                (t.computeRayTakeStep current step t_delta t_max 0).1
                (t.computeRayTakeStep current step t_delta t_max 0).2
          · simp [hmem]
          · simp [hmem, Ne.symm hk]
    · rw [if_neg hg, if_neg hg]
      cases hm : mapFind m c <;> simp

theorem computeUpdateStep_find (t : Octree) (rsqrt : ℚ → ℚ) (fuel : ℕ) (o : Point3)
    (mr : ℚ) (m : List (Code × ℚ)) (p : Point3) (c : Code) :
    mapFind (t.computeUpdateStep rsqrt fuel o mr m p) c =
      if t.computeUpdateHit rsqrt o mr p = some c then some t.prob_hit_log
      else
        match mapFind m c with
        | some w => some w
        | none =>
          if c ∈ t.computeUpdateWalk rsqrt fuel o mr p then some t.prob_miss_log
          else none := by
  simp only [Octree.computeUpdateStep, Octree.computeUpdateHit, Octree.computeUpdateWalk]
  split <;> split
  · cases hm : mapFind m c <;> simp [hm]
  · rename_i o2 e2 heq
    rw [rayLoop_walkLoop_find]
    by_cases hpe : p = e2
    · simp only [if_pos hpe, mapFind_assign]
      by_cases hk : Code.ofKey (t.coordToKey e2 0) = c
      · simp [hk]
      · simp only [if_neg hk]
        rw [if_neg (fun hh => hk (Option.some.inj hh))]
    · simp only [if_neg hpe]
      rw [if_neg (fun hh => Option.noConfusion hh)]
  · cases hm : mapFind m c <;> simp [hm]
  · rename_i o2 e2 heq
    rw [rayLoop_walkLoop_find]
    by_cases hpe : p = e2
    · simp only [if_pos hpe, mapFind_assign]
      by_cases hk : Code.ofKey (t.coordToKey e2 0) = c
      · simp [hk]
      · simp only [if_neg hk]
        rw [if_neg (fun hh => hk (Option.some.inj hh))]
    · simp only [if_neg hpe]
      rw [if_neg (fun hh => Option.noConfusion hh)]

theorem computeUpdate_foldl_find (t : Octree) (rsqrt : ℚ → ℚ) (fuel : ℕ) (o : Point3)
    (mr : ℚ) (c : Code) :
    ∀ (cloud : List Point3) (m : List (Code × ℚ)),
      mapFind (cloud.foldl (t.computeUpdateStep rsqrt fuel o mr) m) c =
        if ∃ p ∈ cloud, t.computeUpdateHit rsqrt o mr p = some c then some t.prob_hit_log
        else
          match mapFind m c with
          | some w => some w
          | none =>
            if ∃ p ∈ cloud, c ∈ t.computeUpdateWalk rsqrt fuel o mr p
            then some t.prob_miss_log else none := by
  intro cloud
  induction cloud with
  | nil =>
    intro m
    simp only [List.foldl_nil]
    cases hm : mapFind m c <;> simp [hm]
  | cons p ps ih =>
    intro m
    simp only [List.foldl_cons]
    rw [ih, computeUpdateStep_find]
    by_cases hhit : t.computeUpdateHit rsqrt o mr p = some c
    · have hex : ∃ q ∈ p :: ps, t.computeUpdateHit rsqrt o mr q = some c :=
        ⟨p, by simp, hhit⟩
      rw [if_pos hex]
      by_cases hhit2 : ∃ q ∈ ps, t.computeUpdateHit rsqrt o mr q = some c
      · rw [if_pos hhit2]
      · rw [if_neg hhit2, if_pos hhit]
    · by_cases hhit2 : ∃ q ∈ ps, t.computeUpdateHit rsqrt o mr q = some c
      · have hex : ∃ q ∈ p :: ps, t.computeUpdateHit rsqrt o mr q = some c := by
          obtain ⟨q, hq, hh⟩ := hhit2
          exact ⟨q, by simp [hq], hh⟩
        rw [if_pos hhit2, if_pos hex]
      · have hex : ¬ ∃ q ∈ p :: ps, t.computeUpdateHit rsqrt o mr q = some c := by
          rintro ⟨q, hq, hh⟩
          rcases List.mem_cons.mp hq with h | h
          · exact hhit (h ▸ hh)
          · exact hhit2 ⟨q, h, hh⟩
        rw [if_neg hhit2, if_neg hex, if_neg hhit]
        cases hm : mapFind m c with
        | some w => simp [hm]
        | none =>
          simp only [hm]
          by_cases hw : c ∈ t.computeUpdateWalk rsqrt fuel o mr p
          · have hexw : ∃ q ∈ p :: ps, c ∈ t.computeUpdateWalk rsqrt fuel o mr q :=
              ⟨p, by simp, hw⟩
            rw [if_pos hw, if_pos hexw]
          · rw [if_neg hw]
            by_cases hw2 : ∃ q ∈ ps, c ∈ t.computeUpdateWalk rsqrt fuel o mr q
            · have hexw : ∃ q ∈ p :: ps, c ∈ t.computeUpdateWalk rsqrt fuel o mr q := by
                obtain ⟨q, hq, hh⟩ := hw2
                exact ⟨q, by simp [hq], hh⟩
              rw [if_pos hw2, if_pos hexw]
            · have hexw : ¬ ∃ q ∈ p :: ps, c ∈ t.computeUpdateWalk rsqrt fuel o mr q := by
                rintro ⟨q, hq, hh⟩
                rcases List.mem_cons.mp hq with h | h
                · exact hw (h ▸ hh)
                · exact hw2 ⟨q, h, hh⟩
              rw [if_neg hw2, if_neg hexw]

theorem c3_miss_overridden_by_later_hit :
    mapFind ((testTree 3 (leafOf 0)).computeUpdateStep ratSqrt 8 ⟨0, 0, 0⟩ (-1) [] ⟨2, 0, 0⟩)
        (Code.ofKey ((testTree 3 (leafOf 0)).coordToKey ⟨1, 0, 0⟩ 0)) =
      some (testTree 3 (leafOf 0)).prob_miss_log ∧
    mapFind ((testTree 3 (leafOf 0)).computeUpdate ratSqrt 8 ⟨0, 0, 0⟩
          [⟨2, 0, 0⟩, ⟨1, 0, 0⟩] (-1)).indices
        (Code.ofKey ((testTree 3 (leafOf 0)).coordToKey ⟨1, 0, 0⟩ 0)) =
      some (testTree 3 (leafOf 0)).prob_hit_log ∧
    (testTree 3 (leafOf 0)).prob_miss_log ≠ (testTree 3 (leafOf 0)).prob_hit_log := by
  refine ⟨?_, ?_, ?_⟩ <;> with_unfolding_all decide

/-- C3 (amended): within one `insertPointCloud`-style accumulation over a
cloud, the final accumulator value of a cell is `prob_hit_log` whenever the
cell is the surviving endpoint of any cloud point (a hit is assigned and
overwrites even an earlier miss), `prob_miss_log` when the cell is only
traversed by miss walks (inserted only if absent, so the first miss wins
among misses), and absent otherwise; the original "first write wins"
phrasing is false, as `c3_miss_overridden_by_later_hit` shows a later
endpoint hit replacing an earlier miss on the same cell. -/
theorem c3_accumulator_final_value (t : Octree) (rsqrt : ℚ → ℚ) (fuel : ℕ) (o : Point3)
    (mr : ℚ) (cloud : List Point3) (c : Code) (hidx : t.indices = []) :
    mapFind (t.computeUpdate rsqrt fuel o cloud mr).indices c =
      if ∃ p ∈ cloud, t.computeUpdateHit rsqrt o mr p = some c then some t.prob_hit_log
      else if ∃ p ∈ cloud, c ∈ t.computeUpdateWalk rsqrt fuel o mr p
      then some t.prob_miss_log
      else none := by
  show mapFind (cloud.foldl (t.computeUpdateStep rsqrt fuel o mr) t.indices) c = _
  rw [hidx, computeUpdate_foldl_find]
  by_cases hhit : ∃ p ∈ cloud, t.computeUpdateHit rsqrt o mr p = some c
  · rw [if_pos hhit, if_pos hhit]
  · rw [if_neg hhit, if_neg hhit, mapFind_nil]

theorem c3_accumulator_final_value_witness :
    (testTree 3 (leafOf 0)).indices = [] ∧
    mapFind ((testTree 3 (leafOf 0)).computeUpdate ratSqrt 8 ⟨0, 0, 0⟩
          [⟨2, 0, 0⟩, ⟨1, 0, 0⟩] (-1)).indices
        (Code.ofKey ((testTree 3 (leafOf 0)).coordToKey ⟨2, 0, 0⟩ 0)) =
      (if ∃ p ∈ [(⟨2, 0, 0⟩ : Point3), ⟨1, 0, 0⟩],
            (testTree 3 (leafOf 0)).computeUpdateHit ratSqrt ⟨0, 0, 0⟩ (-1) p =
              some (Code.ofKey ((testTree 3 (leafOf 0)).coordToKey ⟨2, 0, 0⟩ 0))
       then some (testTree 3 (leafOf 0)).prob_hit_log
       else if ∃ p ∈ [(⟨2, 0, 0⟩ : Point3), ⟨1, 0, 0⟩],
            Code.ofKey ((testTree 3 (leafOf 0)).coordToKey ⟨2, 0, 0⟩ 0) ∈
              (testTree 3 (leafOf 0)).computeUpdateWalk ratSqrt 8 ⟨0, 0, 0⟩ (-1) p
       then some (testTree 3 (leafOf 0)).prob_miss_log
       else none) :=
  ⟨by with_unfolding_all decide,
   c3_accumulator_final_value (testTree 3 (leafOf 0)) ratSqrt 8 ⟨0, 0, 0⟩ (-1)
     [⟨2, 0, 0⟩, ⟨1, 0, 0⟩]
     (Code.ofKey ((testTree 3 (leafOf 0)).coordToKey ⟨2, 0, 0⟩ 0))
     (by with_unfolding_all decide)⟩

/-- C10: with a negative `max_range` (the default `-1`), `castRay` behaves
exactly as with `max_range` equal to the `getMin()`-to-`getMax()` distance
(provided that distance is nonnegative, as for any square-root routine), and
its result is determined by the key at which stepping stops: success exactly
when that key is occupied, with the reported end point set to that key's
center coordinate, and `(false, untouched end)` when the clipped line misses
the box. -/
theorem c10_castRay_negative_default (t : Octree) (rsqrt : ℚ → ℚ) (fuel : ℕ)
    (origin direction : Point3) (iu : Bool) (mr : ℚ) (depth : ℕ)
    (hmr : 0 > mr) (hd : ¬ 0 > (t.getMin).distance rsqrt t.getMax) :
    t.castRay rsqrt fuel origin direction iu mr depth =
      t.castRay rsqrt fuel origin direction iu ((t.getMin).distance rsqrt t.getMax) depth ∧
    t.castRay rsqrt fuel origin direction iu mr depth =
      (match t.castRayStop rsqrt fuel origin direction iu mr depth with
       | none => (false, none)
       | some k => (t.isOccupiedK k, some (t.keyToCoord k))) := by
  refine ⟨?_, ?_⟩
  · simp only [Octree.castRay]
    rw [if_pos hmr, if_neg hd]
  · simp only [Octree.castRay, Octree.castRayStop]
    split <;> rfl

theorem c10_castRay_negative_default_witness :
    (0 > (-1 : ℚ) ∧
      ¬ 0 > ((testTree 2 (leafOf 5)).getMin).distance ratSqrt (testTree 2 (leafOf 5)).getMax) ∧
    ((testTree 2 (leafOf 5)).castRay ratSqrt 4 ⟨0, 0, 0⟩ ⟨1, 0, 0⟩ false (-1) 0 =
      (testTree 2 (leafOf 5)).castRay ratSqrt 4 ⟨0, 0, 0⟩ ⟨1, 0, 0⟩ false
        (((testTree 2 (leafOf 5)).getMin).distance ratSqrt (testTree 2 (leafOf 5)).getMax) 0 ∧
     (testTree 2 (leafOf 5)).castRay ratSqrt 4 ⟨0, 0, 0⟩ ⟨1, 0, 0⟩ false (-1) 0 =
      (match (testTree 2 (leafOf 5)).castRayStop ratSqrt 4 ⟨0, 0, 0⟩ ⟨1, 0, 0⟩ false (-1) 0 with
       | none => (false, none)
       | some k => ((testTree 2 (leafOf 5)).isOccupiedK k,
           some ((testTree 2 (leafOf 5)).keyToCoord k)))) :=
  ⟨⟨by with_unfolding_all decide, by with_unfolding_all decide⟩,
   c10_castRay_negative_default (testTree 2 (leafOf 5)) ratSqrt 4 ⟨0, 0, 0⟩ ⟨1, 0, 0⟩
     false (-1) 0 (by with_unfolding_all decide) (by with_unfolding_all decide)⟩

theorem logitAt_of_leaf {n : INode} (hn : n.all_children_same = true) :
    ∀ (d : ℕ) (c : Code), logitAt d n c = n.logit := by
  intro d c
  cases d with
  | zero => rfl
  | succ d =>
    simp [logitAt, Octree.hasChildrenI, hn]

theorem logitAt_succ_deep {n : INode} {d : ℕ} {c : Code} (hd : d + 1 > c.depth)
    (hch : Octree.hasChildrenI n = true) :
    logitAt (d + 1) n c = logitAt d (n.childAt (c.getChildIdx d)) c := by
  simp [logitAt, hd, hch]

theorem logitAt_succ_shallow {n : INode} {d : ℕ} {c : Code} (hd : ¬ d + 1 > c.depth) :
    logitAt (d + 1) n c = n.logit := by
  simp [logitAt, hd]

theorem getD_replicate {α : Type} (a d : α) : ∀ (k i : ℕ), i < k →
    (List.replicate k a).getD i d = a := by
  intro k
  induction k with
  | zero => intro i h; omega
  | succ k ih =>
    intro i h
    cases i with
    | zero => rfl
    | succ i =>
      simp only [List.replicate_succ, List.getD_cons_succ]
      exact ih i (by omega)

theorem getD_map_range {α : Type} (f : ℕ → α) (d : α) : ∀ (k i : ℕ), i < k →
    (((List.range k).map f).getD i d) = f i := by
  intro k i h
  rw [List.getD_eq_getElem?_getD, List.getElem?_map, List.getElem?_range h]
  rfl

theorem childAt_setChild_eq {n : INode} {i : ℕ} (c : INode)
    (h : i < n.childList.length) : (n.setChild i c).childAt i = c := by
  simp only [INode.childAt, INode.childList_setChild]
  rw [List.getD_eq_getElem?_getD, List.getElem?_set_self (by simpa using h)]
  rfl

theorem childAt_setChild_ne {n : INode} {i j : ℕ} (c : INode) (h : j ≠ i) :
    (n.setChild i c).childAt j = n.childAt j := by
  simp only [INode.childAt, INode.childList_setChild]
  rw [List.getD_eq_getElem?_getD, List.getElem?_set_ne (fun hh => h hh.symm),
    List.getD_eq_getElem?_getD]

theorem summaryConsistent_parts {D : ℕ} {n : INode}
    (h : summaryConsistentB (D + 1) n = true) (hch : Octree.hasChildrenI n = true) :
    n.logit = updLogitOf n.childList (D + 1) ∧
    ∀ c ∈ n.childList, summaryConsistentB D c = true := by
  simp only [summaryConsistentB, hch, if_true, Bool.and_eq_true, decide_eq_true_eq,
    List.all_eq_true] at h
  exact h

theorem wfB_length8 {D : ℕ} {n : INode} (h : wfB (D + 1) n = true)
    (hch : Octree.hasChildrenI n = true) :
    n.children.isSome = true ∧ n.childList.length = 8 := by
  have hacs : n.all_children_same = false := by
    simpa [Octree.hasChildrenI] using hch
  have hsome : n.children.isSome = true := by
    have h1 := h
    simp only [wfB, Bool.and_eq_true, Bool.or_eq_true] at h1
    rcases h1.1 with h1 | h1
    · rw [hacs] at h1; exact absurd h1 (by simp)
    · exact h1
  obtain ⟨cs, hcs⟩ := Option.isSome_iff_exists.mp hsome
  refine ⟨hsome, ?_⟩
  have := (wfB_children h hcs).1
  simp [INode.childList, hcs, this]

theorem expand_clean_succ (t : Octree) (m : INode) (d : ℕ)
    (hc : m.children = none) (hs : m.all_children_same = true) :
    ∃ seed,
      (t.expand m (d + 2)).2.1.children = some (List.replicate 8 seed) ∧
      (t.expand m (d + 2)).2.1.all_children_same = false ∧
      (t.expand m (d + 2)).2.1.logit = m.logit ∧
      seed.children = none ∧ seed.all_children_same = true ∧ seed.logit = m.logit := by
  cases m with
  | mk l cf cu sm ch =>
    simp only [INode.children] at hc
    simp only [INode.all_children_same] at hs
    subst hc
    subst hs
    refine ⟨INode.mk l cf cu true none, ?_, ?_, ?_, ?_, ?_, ?_⟩ <;>
      simp [Octree.expand, Octree.createChildren, INode.childList, List.map_replicate,
        INode.withLogit, INode.withFlags, INode.withSame, INode.withChildren,
        INode.children, INode.logit, INode.all_children_same, INode.default]

theorem expand_clean_one (t : Octree) (m : INode)
    (hc : m.children = none) (hs : m.all_children_same = true) :
    ∃ seed,
      (t.expand m 1).2.1.children = some (List.replicate 8 seed) ∧
      (t.expand m 1).2.1.all_children_same = false ∧
      (t.expand m 1).2.1.logit = m.logit ∧
      seed.children = none ∧ seed.all_children_same = true ∧ seed.logit = m.logit := by
  cases m with
  | mk l cf cu sm ch =>
    simp only [INode.children] at hc
    simp only [INode.all_children_same] at hs
    subst hc
    subst hs
    refine ⟨INode.mk l false false true none, ?_, ?_, ?_, ?_, ?_, ?_⟩ <;>
      simp [Octree.expand, Octree.createChildren, INode.childList, List.map_replicate,
        INode.withLogit, INode.withFlags, INode.withSame, INode.withChildren,
        INode.children, INode.logit, INode.all_children_same, INode.default]

theorem prune_clean (t : Octree) (n : INode) (d : ℕ) (hc : n.children = none) :
    ((t.prune n d false).1).logit = n.logit ∧
    ((t.prune n d false).1).children = none ∧
    ((t.prune n d false).1).all_children_same = true := by
  match d with
  | 0 => simp [Octree.prune, Octree.deleteChildren, hc]
  | 1 => simp [Octree.prune, Octree.deleteChildren, hc]
  | d + 2 => simp [Octree.prune, Octree.deleteChildren, hc]

theorem forall₂_of_getD {R : INode → INode → Prop} :
    ∀ (cs ct : List INode), cs.length = ct.length →
    (∀ i, i < cs.length → R (cs.getD i INode.default) (ct.getD i INode.default)) →
    List.Forall₂ R cs ct := by
  intro cs
  induction cs with
  | nil =>
    intro ct h _
    cases ct with
    | nil => exact List.Forall₂.nil
    | cons b ct => simp at h
  | cons a cs ih =>
    intro ct h hR
    cases ct with
    | nil => simp at h
    | cons b ct =>
      refine List.Forall₂.cons (hR 0 (by simp)) (ih ct (by simpa using h) ?_)
      intro i hi
      have := hR (i + 1) (by simpa using Nat.succ_lt_succ hi)
      simpa using this

theorem foldMax_congr {cs ct : List INode}
    (h : List.Forall₂ (fun a b => b.logit = a.logit) cs ct) :
    ∀ start, ct.foldl (fun m c => if m < c.logit then c.logit else m) start =
      cs.foldl (fun m c => if m < c.logit then c.logit else m) start := by
  induction h with
  | nil => intro start; rfl
  | cons hab _ ih =>
    intro start
    simp only [List.foldl_cons]
    rw [hab]
    exact ih _

theorem headD_logit_congr {cs ct : List INode}
    (h : List.Forall₂ (fun a b => b.logit = a.logit) cs ct) :
    (ct.headD INode.default).logit = (cs.headD INode.default).logit := by
  cases h with
  | nil => rfl
  | cons hab _ => exact hab

theorem allLogitEq_congr {a0 b0 : INode} (hab : b0.logit = a0.logit) :
    ∀ {cs ct : List INode}, List.Forall₂ (fun a b => b.logit = a.logit) cs ct →
    (ct.all fun c => decide (b0.logit = c.logit)) =
      (cs.all fun c => decide (a0.logit = c.logit)) := by
  intro cs ct h
  induction h with
  | nil => rfl
  | cons hxy _ ih =>
    simp only [List.all_cons]
    rw [hab] at ih
    rw [hab, hxy, ih]

theorem collapsibleLeaf_congr {cs ct : List INode}
    (h : List.Forall₂ (fun a b => b.logit = a.logit) cs ct) :
    isNodeCollapsibleLeaf ct = isNodeCollapsibleLeaf cs := by
  cases h with
  | nil => rfl
  | cons hab h2 =>
    simp only [isNodeCollapsibleLeaf]
    exact allLogitEq_congr hab h2

theorem maxLeaf_congr {cs ct : List INode}
    (h : List.Forall₂ (fun a b => b.logit = a.logit) cs ct) :
    getMaxChildLogitLeaf ct = getMaxChildLogitLeaf cs := by
  unfold getMaxChildLogitLeaf
  rw [headD_logit_congr h]
  exact foldMax_congr h _

theorem maxInner_congr {cs ct : List INode}
    (h : List.Forall₂ (fun a b => b.logit = a.logit) cs ct) :
    getMaxChildLogitInner ct = getMaxChildLogitInner cs := by
  unfold getMaxChildLogitInner
  exact foldMax_congr h _

theorem maxInner_const {cs : List INode} {v : ℚ} (hne : cs ≠ [])
    (hv : ∀ c ∈ cs, c.logit = v) (hfl : floatLowest ≤ v) :
    getMaxChildLogitInner cs = v := by
  unfold getMaxChildLogitInner
  refine le_antisymm ?_ ?_
  · exact foldMax_le cs floatLowest v hfl fun c hc => le_of_eq (hv c hc)
  · obtain ⟨c, cs2, rfl⟩ := List.exists_cons_of_ne_nil hne
    have := foldMax_ge_head c cs2 floatLowest
    rw [hv c (List.mem_cons_self _ _)] at this
    exact this

theorem innerColAux {a0 b0 : INode} (hab : b0.logit = a0.logit) :
    ∀ {cs ct : List INode},
    List.Forall₂ (fun a b => b.logit = a.logit ∧
      (Octree.isLeafI a = true → Octree.isLeafI b = true)) cs ct →
    (cs.all fun c => decide (a0.logit = c.logit) && Octree.isLeafI c) = true →
    (ct.all fun c => decide (b0.logit = c.logit) && Octree.isLeafI c) = true := by
  intro cs ct h
  induction h with
  | nil => intro _; rfl
  | cons hxy h2 ih =>
    intro hall
    simp only [List.all_cons, Bool.and_eq_true, decide_eq_true_eq] at hall ⊢
    refine ⟨⟨?_, hxy.2 hall.1.2⟩, ih hall.2⟩
    rw [hab, hxy.1]
    exact hall.1.1

theorem innerCol_transfer {cs ct : List INode}
    (h : List.Forall₂ (fun a b => b.logit = a.logit ∧
      (Octree.isLeafI a = true → Octree.isLeafI b = true)) cs ct)
    (hcs : isNodeCollapsibleInner cs = true) :
    isNodeCollapsibleInner ct = true := by
  cases h with
  | nil => rfl
  | cons hab h2 =>
    simp only [isNodeCollapsibleInner, Bool.and_eq_true] at hcs ⊢
    exact ⟨hab.2 hcs.1, innerColAux hab.1 h2 hcs.2⟩

theorem leafCol_all_eq {cs : List INode} (h : isNodeCollapsibleLeaf cs = true) :
    ∀ c ∈ cs, c.logit = (cs.headD INode.default).logit := by
  cases cs with
  | nil => intro c hc; cases hc
  | cons c0 cs2 =>
    simp only [isNodeCollapsibleLeaf, List.all_eq_true, decide_eq_true_eq] at h
    intro c hc
    rcases List.mem_cons.mp hc with rfl | hc
    · rfl
    · exact (h c hc).symm

theorem innerCol_all_eq {cs : List INode} (h : isNodeCollapsibleInner cs = true) :
    (∀ c ∈ cs, c.logit = (cs.headD INode.default).logit) ∧
    ∀ c ∈ cs, Octree.isLeafI c = true := by
  cases cs with
  | nil => exact ⟨fun c hc => absurd hc (by simp), fun c hc => absurd hc (by simp)⟩
  | cons c0 cs2 =>
    simp only [isNodeCollapsibleInner, Bool.and_eq_true, List.all_eq_true,
      decide_eq_true_eq] at h
    constructor
    · intro c hc
      rcases List.mem_cons.mp hc with rfl | hc
      · rfl
      · exact ((h.2 c hc).1).symm
    · intro c hc
      rcases List.mem_cons.mp hc with rfl | hc
      · exact h.1
      · exact (h.2 c hc).2

theorem forall₂_mem_left {R : INode → INode → Prop} :
    ∀ {cs ct : List INode}, List.Forall₂ R cs ct → ∀ c ∈ cs, ∃ y ∈ ct, R c y := by
  intro cs ct h
  induction h with
  | nil => intro c hc; cases hc
  | cons hxy h2 ih =>
    intro c hc
    rcases List.mem_cons.mp hc with rfl | hc
    · exact ⟨_, List.mem_cons_self _ _, hxy⟩
    · obtain ⟨y, hy, hr⟩ := ih c hc
      exact ⟨y, List.mem_cons_of_mem _ hy, hr⟩

theorem updLogitOf_eq {cs ct : List INode} (k : ℕ)
    (h : List.Forall₂ (fun a b => b.logit = a.logit ∧
      (Octree.isLeafI a = true → Octree.isLeafI b = true)) cs ct)
    (hne : cs ≠ [])
    (hge : ∀ c ∈ cs, floatLowest ≤ c.logit) :
    updLogitOf ct k = updLogitOf cs k := by
  have hlog : List.Forall₂ (fun a b => b.logit = a.logit) cs ct :=
    List.Forall₂.imp (fun a b hab => hab.1) h
  unfold updLogitOf
  by_cases hk : k = 1
  · rw [if_pos hk, if_pos hk, collapsibleLeaf_congr hlog]
    by_cases hcol : isNodeCollapsibleLeaf cs = true
    · rw [if_pos hcol, if_pos hcol]
      exact headD_logit_congr hlog
    · rw [if_neg hcol, if_neg hcol]
      exact maxLeaf_congr hlog
  · rw [if_neg hk, if_neg hk]
    by_cases hct : isNodeCollapsibleInner ct = true
    · rw [if_pos hct]
      by_cases hcs : isNodeCollapsibleInner cs = true
      · rw [if_pos hcs]
        exact headD_logit_congr hlog
      · rw [if_neg hcs]
        have hv := (innerCol_all_eq hct).1
        have hhead := headD_logit_congr hlog
        have hvv : ∀ c ∈ cs, c.logit = (cs.headD INode.default).logit := by
          intro c hc
          obtain ⟨y, hy, hr⟩ := forall₂_mem_left hlog c hc
          rw [← hr, hv y hy, hhead]
        have hge0 : floatLowest ≤ (cs.headD INode.default).logit := by
          obtain ⟨c0, cs2, rfl⟩ := List.exists_cons_of_ne_nil hne
          exact hge c0 (List.mem_cons_self _ _)
        rw [maxInner_const hne hvv hge0]
        exact hhead
    · rw [if_neg hct]
      by_cases hcs : isNodeCollapsibleInner cs = true
      · exact absurd (innerCol_transfer h hcs) hct
      · rw [if_neg hcs]
        exact maxInner_congr hlog

theorem prune_acs_logit (t : Octree) (n : INode) (d : ℕ) :
    ((t.prune n d false).1).all_children_same = true ∧
    ((t.prune n d false).1).logit = n.logit := by
  rcases d with _ | (_ | d) <;>
  · simp only [Octree.prune, Octree.deleteChildren]
    split <;> simp

theorem childAt_length8_some {m : INode} (hmlen : m.childList.length = 8) :
    m.children.isSome = true := by
  cases hch : m.children with
  | none => rw [INode.childList, hch] at hmlen; simp at hmlen
  | some cs => simp

theorem nodeSim_of_same_children (srcn r : INode) (k : ℕ)
    (hsch : Octree.hasChildrenI srcn = true)
    (hrch : Octree.hasChildrenI r = true)
    (hrlog : r.logit = srcn.logit)
    (hrcl : ∀ i, i < 8 → nodeSim k (srcn.childAt i) (r.childAt i)) :
    nodeSim (k + 1) srcn r := by
  refine ⟨hrlog, fun _ _ => hsch, ?_⟩
  intro c
  by_cases hd : k + 1 > c.depth
  · rw [logitAt_succ_deep hd hrch, logitAt_succ_deep hd hsch]
    exact (hrcl (c.getChildIdx k) (getChildIdx_lt8 c k)).2.2 c
  · rw [logitAt_succ_shallow hd, logitAt_succ_shallow hd, hrlog]

theorem nodeSim_of_collapsed (srcn r : INode) (k : ℕ)
    (hacs : r.all_children_same = true)
    (hrlog : r.logit = srcn.logit)
    (huni : ∀ c : Code, logitAt (k + 1) srcn c = srcn.logit) :
    nodeSim (k + 1) srcn r := by
  refine ⟨hrlog, ?_, ?_⟩
  · intro _ hch
    rw [Octree.hasChildrenI, hacs] at hch
    exact absurd hch (by simp)
  · intro c
    rw [logitAt_of_leaf hacs, hrlog, huni c]

theorem updateNode_sim (u : Octree) (k : ℕ) (srcn m : INode)
    (hsch : Octree.hasChildrenI srcn = true)
    (hslen : srcn.childList.length = 8)
    (hslog : srcn.logit = updLogitOf srcn.childList (k + 1))
    (hge : ∀ c ∈ srcn.childList, floatLowest ≤ c.logit)
    (hmch : Octree.hasChildrenI m = true)
    (hmlen : m.childList.length = 8)
    (hsim : ∀ i, i < 8 → nodeSim k (srcn.childAt i) (m.childAt i)) :
    nodeSim (k + 1) srcn (u.updateNode m (k + 1)).2.1 := by
  have hlog : List.Forall₂ (fun a b => b.logit = a.logit) srcn.childList m.childList := by
    refine forall₂_of_getD _ _ (by rw [hslen, hmlen]) ?_
    intro i hi
    exact (hsim i (by omega)).1
  have hsne : srcn.childList ≠ [] := by
    intro hcon
    rw [hcon] at hslen
    simp at hslen
  have hscollapse_uni : (∀ c ∈ m.childList, Octree.isLeafI c = true) →
      (∀ c ∈ m.childList, c.logit = (m.childList.headD INode.default).logit) →
      ∀ (cc : Code) (i : ℕ), i < 8 →
        logitAt k (srcn.childAt i) cc = (m.childList.headD INode.default).logit := by
    intro hleafs heq cc i hi
    have hmi : m.childAt i ∈ m.childList := childAt_mem (by rw [hmlen]; exact hi)
    have h1 : logitAt k (m.childAt i) cc = (m.childAt i).logit :=
      logitAt_of_leaf (by simpa [Octree.isLeafI] using hleafs _ hmi) k cc
    have h2 := (hsim i hi).2.2 cc
    rw [← h2, h1, heq _ hmi]
  cases k with
  | zero =>
    have hdisp : (u.updateNode m (0 + 1)).2.1 = (u.updateNodeLeaf m 1).2.1 := by
      simp [Octree.updateNode]
    rw [hdisp]
    rcases hU : u.updateNodeLeaf m 1 with ⟨chg, r, u2⟩
    simp only
    simp only [Octree.updateNodeLeaf] at hU
    by_cases hcol : isNodeCollapsibleLeaf m.childList = true
    · rw [if_pos hcol] at hU
      have hr : (u.prune (m.withLogit (m.childList.headD INode.default).logit) 1 false).1 = r :=
        congrArg (fun p => p.2.1) hU
      have hcols : isNodeCollapsibleLeaf srcn.childList = true := by
        rw [← collapsibleLeaf_congr hlog]; exact hcol
      obtain ⟨hacs, hlgt⟩ :=
        prune_acs_logit u (m.withLogit (m.childList.headD INode.default).logit) 1
      rw [hr] at hacs hlgt
      have hsl : srcn.logit = (srcn.childList.headD INode.default).logit := by
        rw [hslog]; simp [updLogitOf, hcols]
      refine nodeSim_of_collapsed srcn r 0 hacs ?_ ?_
      · rw [hlgt, INode.logit_withLogit, headD_logit_congr hlog, hsl]
      · intro c
        by_cases hd : 0 + 1 > c.depth
        · rw [logitAt_succ_deep hd hsch]
          have hidx : c.getChildIdx 0 < srcn.childList.length := by
            rw [hslen]; exact getChildIdx_lt8 c 0
          have hmem := childAt_mem hidx
          have := leafCol_all_eq hcols _ hmem
          rw [hsl]
          simpa [logitAt] using this
        · rw [logitAt_succ_shallow hd]
    · rw [if_neg hcol] at hU
      have hcols : ¬ isNodeCollapsibleLeaf srcn.childList = true := by
        rw [← collapsibleLeaf_congr hlog]; exact hcol
      have hnew : getMaxChildLogitLeaf m.childList = srcn.logit := by
        rw [maxLeaf_congr hlog, hslog]; simp [updLogitOf, hcols]
      have hfacts : r.logit = srcn.logit ∧ r.all_children_same = m.all_children_same ∧
          r.childList = m.childList := by
        split at hU
        · have hr := congrArg (fun p => p.2.1) hU
          simp only at hr
          rw [← hr]
          refine ⟨by simp [hnew], by simp, by simp⟩
        · rename_i hcond
          have hr := congrArg (fun p => p.2.1) hU
          simp only at hr
          rw [← hr]
          push_neg at hcond
          exact ⟨by rw [hcond.1, hnew], rfl, rfl⟩
      refine nodeSim_of_same_children srcn r 0 hsch ?_ hfacts.1 ?_
      · rw [Octree.hasChildrenI, hfacts.2.1]
        exact hmch
      · intro i hi
        have : r.childAt i = m.childAt i := by
          rw [INode.childAt, INode.childAt, hfacts.2.2]
        rw [this]
        exact hsim i hi
  | succ k0 =>
    have hR : List.Forall₂ (fun a b => b.logit = a.logit ∧
        (Octree.isLeafI a = true → Octree.isLeafI b = true)) srcn.childList m.childList := by
      refine forall₂_of_getD _ _ (by rw [hslen, hmlen]) ?_
      intro i hi
      rw [hslen] at hi
      refine ⟨(hsim i hi).1, ?_⟩
      intro hleaf
      have h2 := (hsim i hi).2.1 (by omega)
      by_contra hnl
      have : Octree.hasChildrenI (m.childList.getD i INode.default) = true := by
        simp only [Octree.hasChildrenI, Octree.isLeafI] at hnl ⊢
        simp [Bool.not_eq_true] at hnl ⊢
        exact hnl
      have h3 := h2 this
      simp only [Octree.hasChildrenI, INode.childAt] at h3
      simp only [Octree.isLeafI] at hleaf
      rw [hleaf] at h3
      exact absurd h3 (by simp)
    have hdisp : (u.updateNode m (k0 + 1 + 1)).2.1 = (u.updateNodeInner m (k0 + 1 + 1)).2.1 := by
      simp [Octree.updateNode]
    rw [hdisp]
    rcases hU : u.updateNodeInner m (k0 + 1 + 1) with ⟨chg, r, u2⟩
    simp only
    simp only [Octree.updateNodeInner] at hU
    have hupd : updLogitOf m.childList (k0 + 1 + 1) = srcn.logit := by
      rw [updLogitOf_eq (k0 + 1 + 1) hR hsne hge, hslog]
    by_cases hcol : isNodeCollapsibleInner m.childList = true
    · rw [if_pos hcol] at hU
      have hr : (u.prune (m.withLogit (m.childList.headD INode.default).logit)
          (k0 + 1 + 1) false).1 = r :=
        congrArg (fun p => p.2.1) hU
      obtain ⟨hacs, hlgt⟩ :=
        prune_acs_logit u (m.withLogit (m.childList.headD INode.default).logit) (k0 + 1 + 1)
      rw [hr] at hacs hlgt
      have hhead : (m.childList.headD INode.default).logit = srcn.logit := by
        rw [← hupd]
        simp [updLogitOf, hcol]
      obtain ⟨heq, hleafs⟩ := innerCol_all_eq hcol
      refine nodeSim_of_collapsed srcn r (k0 + 1) hacs ?_ ?_
      · rw [hlgt, INode.logit_withLogit, hhead]
      · intro c
        by_cases hd : k0 + 1 + 1 > c.depth
        · rw [logitAt_succ_deep hd hsch]
          have := hscollapse_uni hleafs heq c (c.getChildIdx (k0 + 1))
            (getChildIdx_lt8 c (k0 + 1))
          rw [this, hhead]
        · rw [logitAt_succ_shallow hd]
    · rw [if_neg hcol] at hU
      have hnew : getMaxChildLogitInner m.childList = srcn.logit := by
        rw [← hupd]
        simp [updLogitOf, hcol]
      have hfacts : r.logit = srcn.logit ∧ r.all_children_same = m.all_children_same ∧
          r.childList = m.childList := by
        split at hU
        · have hr := congrArg (fun p => p.2.1) hU
          simp only at hr
          rw [← hr]
          refine ⟨by simp [hnew], by simp, by simp⟩
        · rename_i hcond
          have hr := congrArg (fun p => p.2.1) hU
          simp only at hr
          rw [← hr]
          push_neg at hcond
          exact ⟨by rw [hcond.1, hnew], rfl, rfl⟩
      refine nodeSim_of_same_children srcn r (k0 + 1) hsch ?_ hfacts.1 ?_
      · rw [Octree.hasChildrenI, hfacts.2.1]
        exact hmch
      · intro i hi
        have : r.childAt i = m.childAt i := by
          rw [INode.childAt, INode.childAt, hfacts.2.2]
        rw [this]
        exact hsim i hi

theorem readChildrenLoop_align
    (step : ℕ → Octree → INode → List Tok → Option (Octree × INode × List Tok))
    (chunk : ℕ → List Tok) (srcn : INode) (Q : INode → INode → Prop)
    (hstep : ∀ i, i < 8 → ∀ (u : Octree) (m : INode) (rest : List Tok),
      m.childList.length = 8 →
      (m.childAt i).children = none → (m.childAt i).all_children_same = true →
      ∃ u2 c2, step i u m (chunk i ++ rest) = some (u2, m.setChild i c2, rest) ∧
        Q (srcn.childAt i) c2 ∧ scalarEq u u2) :
    ∀ (l : List ℕ), l.Nodup → (∀ j ∈ l, j < 8) →
    ∀ (u : Octree) (m : INode) (rest : List Tok),
      m.childList.length = 8 →
      (∀ j ∈ l, (m.childAt j).children = none ∧ (m.childAt j).all_children_same = true) →
      ∃ u2 m2,
        readChildrenLoop step l u m (chunksConcat chunk l ++ rest) = some (u2, m2, rest) ∧
        m2.childList.length = 8 ∧
        m2.all_children_same = m.all_children_same ∧
        (∀ j, j < 8 → j ∈ l → Q (srcn.childAt j) (m2.childAt j)) ∧
        (∀ j, j ∉ l → m2.childAt j = m.childAt j) ∧ scalarEq u u2 := by
  intro l
  induction l with
  | nil =>
    intro _ _ u m rest hlen _
    exact ⟨u, m, rfl, hlen, rfl, fun j _ hj => absurd hj (by simp), fun j _ => rfl,
      scalarEq_refl u⟩
  | cons i is ih =>
    intro hnd hb u m rest hlen hclean
    have hi8 : i < 8 := hb i (List.mem_cons_self _ _)
    obtain ⟨u2, c2, hstepi, hQ, hsc1⟩ := hstep i hi8 u m (chunksConcat chunk is ++ rest) hlen
      (hclean i (List.mem_cons_self _ _)).1 (hclean i (List.mem_cons_self _ _)).2
    have hm2len : (m.setChild i c2).childList.length = 8 := by
      rw [setChild_childList_length]
      exact hlen
    have hinotis : i ∉ is := (List.nodup_cons.mp hnd).1
    have hm2clean : ∀ j ∈ is,
        ((m.setChild i c2).childAt j).children = none ∧
        ((m.setChild i c2).childAt j).all_children_same = true := by
      intro j hj
      have hji : j ≠ i := fun hcon => hinotis (hcon ▸ hj)
      rw [childAt_setChild_ne c2 hji]
      exact hclean j (List.mem_cons_of_mem _ hj)
    obtain ⟨u3, m2, hloop, hlen2, hacs2, hQ2, huntouched, hsc2⟩ :=
      ih (List.nodup_cons.mp hnd).2 (fun j hj => hb j (List.mem_cons_of_mem _ hj))
        u2 (m.setChild i c2) rest hm2len hm2clean
    refine ⟨u3, m2, ?_, hlen2, ?_, ?_, ?_, scalarEq_trans hsc1 hsc2⟩
    · show readChildrenLoop step (i :: is) u m (chunksConcat chunk (i :: is) ++ rest) = _
      have hs : chunksConcat chunk (i :: is) ++ rest =
          chunk i ++ (chunksConcat chunk is ++ rest) := by
        show (chunk i ++ chunksConcat chunk is) ++ rest = _
        rw [List.append_assoc]
      rw [hs]
      show (match step i u m (chunk i ++ (chunksConcat chunk is ++ rest)) with
        | none => none
        | some (t, n, s) => readChildrenLoop step is t n s) = _
      rw [hstepi]
      exact hloop
    · rw [hacs2]
      simp
    · intro j hj8 hj
      rcases List.mem_cons.mp hj with rfl | hj
      · rw [huntouched j hinotis, childAt_setChild_eq c2 (by rw [hlen]; exact hj8)]
        exact hQ
      · exact hQ2 j hj8 hj
    · intro j hj
      have hji : j ≠ i := fun hcon => hj (hcon ▸ List.mem_cons_self _ _)
      rw [huntouched j (fun hcon => hj (List.mem_cons_of_mem _ hcon)),
        childAt_setChild_ne c2 hji]

theorem nodeSim_of_leaf_payload {src r : INode} (d : ℕ)
    (hsleaf : Octree.hasChildrenI src = false)
    (hracs : r.all_children_same = true)
    (hrlog : r.logit = src.logit) :
    nodeSim d src r := by
  have hsacs : src.all_children_same = true := by
    simpa [Octree.hasChildrenI] using hsleaf
  refine ⟨hrlog, ?_, ?_⟩
  · intro _ hch
    rw [Octree.hasChildrenI, hracs] at hch
    exact absurd hch (by simp)
  · intro c
    rw [logitAt_of_leaf hracs, logitAt_of_leaf hsacs, hrlog]

theorem srcChild_facts {lo hi : ℚ} {D : ℕ} {srcn : INode}
    (hwf : wfB (D + 1) srcn = true) (hsum : summaryConsistentB (D + 1) srcn = true)
    (hin : allInB lo hi (D + 1) srcn = true) (hch : Octree.hasChildrenI srcn = true) :
    srcn.childList.length = 8 ∧
    srcn.logit = updLogitOf srcn.childList (D + 1) ∧
    ∀ i, i < 8 → wfB D (srcn.childAt i) = true ∧
      summaryConsistentB D (srcn.childAt i) = true ∧
      allInB lo hi D (srcn.childAt i) = true := by
  obtain ⟨hsome, hlen⟩ := wfB_length8 hwf hch
  obtain ⟨cs, hcs⟩ := Option.isSome_iff_exists.mp hsome
  obtain ⟨hslog, hsums⟩ := summaryConsistent_parts hsum hch
  refine ⟨hlen, hslog, ?_⟩
  intro i hi
  have hilt : i < srcn.childList.length := by rw [hlen]; exact hi
  exact ⟨childAt_wf hwf hcs hilt, hsums _ (childAt_mem hilt), childAt_allIn hin hilt⟩

theorem allInB_ge {lo hi : ℚ} {D : ℕ} {n : INode} (h : allInB lo hi (D + 1) n = true)
    (hfl : floatLowest ≤ lo) :
    ∀ c ∈ n.childList, floatLowest ≤ c.logit := by
  intro c hc
  exact le_trans hfl (allInB_head (allInB_children h c hc)).1

theorem readNodesRecurs_align (lo hi oth fth : ℚ) (hfl : floatLowest ≤ lo) :
    ∀ (cd : ℕ) (tw u : Octree) (srcn m : INode) (cW cR : Point3) (rest : List Tok),
      wfB (cd + 2) srcn = true → summaryConsistentB (cd + 2) srcn = true →
      allInB lo hi (cd + 2) srcn = true → Octree.hasChildrenI srcn = true →
      m.children = none → m.all_children_same = true →
      ∃ u2 m2,
        Octree.readNodesRecurs none oth fth (cd + 2) u m cR
          (tw.writeNodesRecurs none 0 (cd + 2) srcn cW ++ rest) = some (u2, m2, rest) ∧
        m2.childList.length = 8 ∧ Octree.hasChildrenI m2 = true ∧
        (∀ i, i < 8 → nodeSim (cd + 1) (srcn.childAt i) (m2.childAt i)) ∧
        scalarEq u u2 := by
  intro cd
  induction cd with
  | zero =>
    intro tw u srcn m cW cR rest hwf hsum hin hch hmc hms
    obtain ⟨hslen, hslog, hkids⟩ := srcChild_facts hwf hsum hin hch
    have hge8 := allInB_ge hin hfl
    rcases hE : u.expand m (0 + 2) with ⟨eb, m1, u1⟩
    obtain ⟨seed, hm1c, hm1acs, hm1logit, hseedc, hseedacs, hseedlog⟩ :=
      expand_clean_succ u m 0 hmc hms
    rw [hE] at hm1c hm1acs hm1logit
    simp only at hm1c hm1acs hm1logit
    have hm1len : m1.childList.length = 8 := by
      simp [INode.childList, hm1c]
    have hm1clean : ∀ j ∈ List.range 8,
        (m1.childAt j).children = none ∧ (m1.childAt j).all_children_same = true := by
      intro j hj
      have hj8 := List.mem_range.mp hj
      rw [INode.childAt, INode.childList, hm1c]
      simp only [Option.getD_some]
      rw [getD_replicate seed INode.default 8 j hj8]
      exact ⟨hseedc, hseedacs⟩
    have hstep : ∀ i, i < 8 → ∀ (u3 : Octree) (m3 : INode) (rest3 : List Tok),
        m3.childList.length = 8 →
        (m3.childAt i).children = none → (m3.childAt i).all_children_same = true →
        ∃ u4 c4,
          (fun i t n s =>
            if ((List.range 8).map fun k => Octree.hasChildrenI (srcn.childAt k)).getD i
                false = true then
              match readChildrenLoop
                  (fun j t child s =>
                    match readDataLeaf s with
                    | none => none
                    | some (v, s) =>
                      some (t, child.setChild j ((child.childAt j).withLogit v), s))
                  (List.range 8) (t.expand (n.childAt i) (0 + 1)).2.2
                  (t.expand (n.childAt i) (0 + 1)).2.1 s with
              | none => none
              | some (t, child, s) =>
                some ((t.updateNode child (0 + 1)).2.2,
                  n.setChild i (t.updateNode child (0 + 1)).2.1, s)
            else
              match readDataLeaf s with
              | none => none
              | some (v, s) =>
                some ((t.prune ((n.childAt i).withLogit v) (0 + 1) false).2,
                  n.setChild i (t.prune ((n.childAt i).withLogit v) (0 + 1) false).1, s))
            i u3 m3
            ((if Octree.hasChildrenI (srcn.childAt i) = true then
                chunksConcat (fun j => writeDataLeaf ((srcn.childAt i).childAt j).logit)
                  (List.range 8)
              else writeDataLeaf (srcn.childAt i).logit) ++ rest3) =
            some (u4, m3.setChild i c4, rest3) ∧
          nodeSim (0 + 1) (srcn.childAt i) c4 ∧ scalarEq u3 u4 := by
      intro i hi8 u3 m3 rest3 hlen3 hslotc hslotacs
      have hbits : ((List.range 8).map
          (fun k => Octree.hasChildrenI (srcn.childAt k))).getD i false =
          Octree.hasChildrenI (srcn.childAt i) :=
        getD_map_range _ false 8 i hi8
      by_cases hbit : Octree.hasChildrenI (srcn.childAt i) = true
      · obtain ⟨hcwf, hcsum, hcin⟩ := hkids i hi8
        obtain ⟨hclen, hclog, -⟩ := srcChild_facts (D := 0) hcwf hcsum hcin hbit
        have hcge := allInB_ge (D := 0) hcin hfl
        rcases hE1 : u3.expand (m3.childAt i) (0 + 1) with ⟨eb1, c1, u4⟩
        obtain ⟨seed1, hc1c, hc1acs, hc1logit, hs1c, hs1acs, hs1log⟩ :=
          expand_clean_one u3 (m3.childAt i) hslotc hslotacs
        rw [show (1 : ℕ) = 0 + 1 from rfl, hE1] at hc1c hc1acs hc1logit
        simp only at hc1c hc1acs hc1logit
        have hc1len : c1.childList.length = 8 := by
          simp [INode.childList, hc1c]
        have hc1clean : ∀ j ∈ List.range 8,
            (c1.childAt j).children = none ∧ (c1.childAt j).all_children_same = true := by
          intro j hj
          have hj8 := List.mem_range.mp hj
          rw [INode.childAt, INode.childList, hc1c]
          simp only [Option.getD_some]
          rw [getD_replicate seed1 INode.default 8 j hj8]
          exact ⟨hs1c, hs1acs⟩
        have hstepL : ∀ j, j < 8 → ∀ (u7 : Octree) (c7 : INode) (rest7 : List Tok),
            c7.childList.length = 8 →
            (c7.childAt j).children = none → (c7.childAt j).all_children_same = true →
            ∃ u8 c8,
              (fun j t child s =>
                match readDataLeaf s with
                | none => none
                | some (v, s) =>
                  some (t, child.setChild j ((child.childAt j).withLogit v), s))
                j u7 c7 (writeDataLeaf ((srcn.childAt i).childAt j).logit ++ rest7) =
                some (u8, c7.setChild j c8, rest7) ∧
              (c8.logit = ((srcn.childAt i).childAt j).logit ∧ c8.children = none ∧
                c8.all_children_same = true) ∧ scalarEq u7 u8 := by
          intro j hj8 u7 c7 rest7 hlen7 hslot7c hslot7acs
          refine ⟨u7, (c7.childAt j).withLogit ((srcn.childAt i).childAt j).logit,
            rfl, ⟨by simp, ?_, ?_⟩, scalarEq_refl u7⟩
          · rw [INode.children_withLogit]
            exact hslot7c
          · rw [INode.same_withLogit]
            exact hslot7acs
        obtain ⟨u5, c2, hloop1, hlen1, hacs1, hQ1, -, hsc5⟩ :=
          readChildrenLoop_align
            (fun j t child s =>
              match readDataLeaf s with
              | none => none
              | some (v, s) => some (t, child.setChild j ((child.childAt j).withLogit v), s))
            (fun j => writeDataLeaf ((srcn.childAt i).childAt j).logit) (srcn.childAt i)
            (fun s c => c.logit = s.logit ∧ c.children = none ∧ c.all_children_same = true)
            hstepL (List.range 8) (List.nodup_range 8) (fun j hj => List.mem_range.mp hj)
            u4 c1 rest3 hc1len hc1clean
        rcases hU : u5.updateNode c2 (0 + 1) with ⟨chgU, c3, u6⟩
        refine ⟨u6, c3, ?_, ?_, ?_⟩
        · simp only []
          rw [hbits]
          simp only [if_pos hbit]
          simp only [hE1]
          simp only [hloop1, hU]
        · have hsim0 : ∀ j, j < 8 →
              nodeSim 0 ((srcn.childAt i).childAt j) (c2.childAt j) := by
            intro j hj8
            obtain ⟨hql, hqc, hqa⟩ := hQ1 j hj8 (List.mem_range.mpr hj8)
            exact ⟨hql, fun h0 _ => absurd h0 (by omega), fun c => by
              simp [logitAt, hql]⟩
          have hres := updateNode_sim u5 0 (srcn.childAt i) c2 hbit hclen hclog
            (fun c hc => hcge c hc) (by rw [Octree.hasChildrenI, hacs1, hc1acs]; rfl)
            hlen1 hsim0
          rw [hU] at hres
          exact hres
        · have hscE : scalarEq u3 u4 := by
            have h := expand_scalarEq u3 (m3.childAt i) (0 + 1)
            rw [hE1] at h
            exact h
          have hscU : scalarEq u5 u6 := by
            have h := updateNode_scalarEq u5 c2 (0 + 1)
            rw [hU] at h
            exact h
          exact scalarEq_trans (scalarEq_trans hscE hsc5) hscU
      · have hbitf : Octree.hasChildrenI (srcn.childAt i) = false := by
          simpa using hbit
        rcases hP : u3.prune ((m3.childAt i).withLogit (srcn.childAt i).logit) (0 + 1) false
          with ⟨c2, u4⟩
        obtain ⟨hpl, hpc, hpa⟩ :=
          prune_clean u3 ((m3.childAt i).withLogit (srcn.childAt i).logit) (0 + 1)
            (by rw [INode.children_withLogit]; exact hslotc)
        rw [hP] at hpl hpc hpa
        simp only at hpl hpc hpa
        refine ⟨u4, c2, ?_, ?_, ?_⟩
        · simp only []
          rw [hbits]
          simp only [if_neg hbit, writeDataLeaf, List.cons_append, readDataLeaf]
          rw [hP]
          simp
        · exact nodeSim_of_leaf_payload (0 + 1) hbitf hpa
            (by rw [hpl, INode.logit_withLogit])
        · have h := prune_scalarEq u3 ((m3.childAt i).withLogit (srcn.childAt i).logit)
            (0 + 1) false
          rw [hP] at h
          exact h
    obtain ⟨u2, m2, hloop, hlen2, hacs2, hQ2, -, hsc2⟩ :=
      readChildrenLoop_align
        (fun i t n s =>
          if ((List.range 8).map fun k => Octree.hasChildrenI (srcn.childAt k)).getD i
              false = true then
            match readChildrenLoop
                (fun j t child s =>
                  match readDataLeaf s with
                  | none => none
                  | some (v, s) =>
                    some (t, child.setChild j ((child.childAt j).withLogit v), s))
                (List.range 8) (t.expand (n.childAt i) (0 + 1)).2.2
                (t.expand (n.childAt i) (0 + 1)).2.1 s with
            | none => none
            | some (t, child, s) =>
              some ((t.updateNode child (0 + 1)).2.2,
                n.setChild i (t.updateNode child (0 + 1)).2.1, s)
          else
            match readDataLeaf s with
            | none => none
            | some (v, s) =>
              some ((t.prune ((n.childAt i).withLogit v) (0 + 1) false).2,
                n.setChild i (t.prune ((n.childAt i).withLogit v) (0 + 1) false).1, s))
        (fun i =>
          if Octree.hasChildrenI (srcn.childAt i) = true then
            chunksConcat (fun j => writeDataLeaf ((srcn.childAt i).childAt j).logit)
              (List.range 8)
          else writeDataLeaf (srcn.childAt i).logit)
        srcn (fun s c => nodeSim (0 + 1) s c) hstep
        (List.range 8) (List.nodup_range 8) (fun j hj => List.mem_range.mp hj)
        u1 m1 rest hm1len hm1clean
    refine ⟨u2, m2, ?_, hlen2, ?_, ?_, ?_⟩
    · show Octree.readNodesRecurs none oth fth (0 + 2) u m cR _ = _
      simp only [Octree.readNodesRecurs, Octree.writeNodesRecurs, List.cons_append]
      simp only [hE]
      exact hloop
    · rw [Octree.hasChildrenI, hacs2, hm1acs]
      rfl
    · intro i hi
      exact hQ2 i hi (List.mem_range.mpr hi)
    · have hscE : scalarEq u u1 := by
        have h := expand_scalarEq u m (0 + 2)
        rw [hE] at h
        exact h
      exact scalarEq_trans hscE hsc2
  | succ cd ih =>
    intro tw u srcn m cW cR rest hwf hsum hin hch hmc hms
    obtain ⟨hslen, hslog, hkids⟩ := srcChild_facts hwf hsum hin hch
    have hge8 := allInB_ge hin hfl
    rcases hE : u.expand m (cd + 1 + 2) with ⟨eb, m1, u1⟩
    obtain ⟨seed, hm1c, hm1acs, hm1logit, hseedc, hseedacs, hseedlog⟩ :=
      expand_clean_succ u m (cd + 1) hmc hms
    rw [hE] at hm1c hm1acs hm1logit
    simp only at hm1c hm1acs hm1logit
    have hm1len : m1.childList.length = 8 := by
      simp [INode.childList, hm1c]
    have hm1clean : ∀ j ∈ List.range 8,
        (m1.childAt j).children = none ∧ (m1.childAt j).all_children_same = true := by
      intro j hj
      have hj8 := List.mem_range.mp hj
      rw [INode.childAt, INode.childList, hm1c]
      simp only [Option.getD_some]
      rw [getD_replicate seed INode.default 8 j hj8]
      exact ⟨hseedc, hseedacs⟩
    have hstep : ∀ i, i < 8 → ∀ (u3 : Octree) (m3 : INode) (rest3 : List Tok),
        m3.childList.length = 8 →
        (m3.childAt i).children = none → (m3.childAt i).all_children_same = true →
        ∃ u4 c4,
          (fun i t n s =>
            if ((List.range 8).map fun k => Octree.hasChildrenI (srcn.childAt k)).getD i
                false = true then
              match Octree.readNodesRecurs none oth fth (cd + 2) t (n.childAt i)
                  (getChildCenter cR (u.getNodeHalfSize (cd + 2)) i) s with
              | none => none
              | some (t, child, s) =>
                some ((t.updateNode child (cd + 1 + 1)).2.2,
                  n.setChild i (t.updateNode child (cd + 1 + 1)).2.1, s)
            else
              match readDataLeaf s with
              | none => none
              | some (v, s) =>
                some ((t.prune ((n.childAt i).withLogit v) (cd + 2) false).2,
                  n.setChild i (t.prune ((n.childAt i).withLogit v) (cd + 2) false).1, s))
            i u3 m3
            ((if Octree.hasChildrenI (srcn.childAt i) = true then
                tw.writeNodesRecurs none 0 (cd + 2) (srcn.childAt i)
                  (getChildCenter cW (tw.getNodeHalfSize (cd + 2)) i)
              else writeDataLeaf (srcn.childAt i).logit) ++ rest3) =
            some (u4, m3.setChild i c4, rest3) ∧
          nodeSim (cd + 1 + 1) (srcn.childAt i) c4 ∧ scalarEq u3 u4 := by
      intro i hi8 u3 m3 rest3 hlen3 hslotc hslotacs
      have hbits : ((List.range 8).map
          (fun k => Octree.hasChildrenI (srcn.childAt k))).getD i false =
          Octree.hasChildrenI (srcn.childAt i) :=
        getD_map_range _ false 8 i hi8
      by_cases hbit : Octree.hasChildrenI (srcn.childAt i) = true
      · obtain ⟨hcwf, hcsum, hcin⟩ := hkids i hi8
        obtain ⟨hclen, hclog, -⟩ := srcChild_facts hcwf hcsum hcin hbit
        have hcge := allInB_ge hcin hfl
        obtain ⟨u4, child4, hrec, hlen4, hch4, hsim4, hscR⟩ :=
          ih tw u3 (srcn.childAt i) (m3.childAt i)
            (getChildCenter cW (tw.getNodeHalfSize (cd + 2)) i)
            (getChildCenter cR (u.getNodeHalfSize (cd + 2)) i)
            rest3 hcwf hcsum hcin hbit hslotc hslotacs
        rcases hU : u4.updateNode child4 (cd + 1 + 1) with ⟨chgU, c3, u6⟩
        refine ⟨u6, c3, ?_, ?_, ?_⟩
        · simp only []
          rw [hbits]
          simp only [if_pos hbit]
          simp only [hrec, hU]
        · have hres := updateNode_sim u4 (cd + 1) (srcn.childAt i) child4 hbit hclen hclog
            (fun c hc => hcge c hc) hch4 hlen4 hsim4
          rw [hU] at hres
          exact hres
        · have hscU : scalarEq u4 u6 := by
            have h := updateNode_scalarEq u4 child4 (cd + 1 + 1)
            rw [hU] at h
            exact h
          exact scalarEq_trans hscR hscU
      · have hbitf : Octree.hasChildrenI (srcn.childAt i) = false := by
          simpa using hbit
        rcases hP : u3.prune ((m3.childAt i).withLogit (srcn.childAt i).logit) (cd + 2) false
          with ⟨c2, u4⟩
        obtain ⟨hpl, hpc, hpa⟩ :=
          prune_clean u3 ((m3.childAt i).withLogit (srcn.childAt i).logit) (cd + 2)
            (by rw [INode.children_withLogit]; exact hslotc)
        rw [hP] at hpl hpc hpa
        simp only at hpl hpc hpa
        refine ⟨u4, c2, ?_, ?_, ?_⟩
        · simp only []
          rw [hbits]
          simp only [if_neg hbit, writeDataLeaf, List.cons_append, readDataLeaf]
          rw [hP]
          simp
        · exact nodeSim_of_leaf_payload (cd + 1 + 1) hbitf hpa
            (by rw [hpl, INode.logit_withLogit])
        · have h := prune_scalarEq u3 ((m3.childAt i).withLogit (srcn.childAt i).logit)
            (cd + 2) false
          rw [hP] at h
          exact h
    obtain ⟨u2, m2, hloop, hlen2, hacs2, hQ2, -, hsc2⟩ :=
      readChildrenLoop_align
        (fun i t n s =>
          if ((List.range 8).map fun k => Octree.hasChildrenI (srcn.childAt k)).getD i
              false = true then
            match Octree.readNodesRecurs none oth fth (cd + 2) t (n.childAt i)
                (getChildCenter cR (u.getNodeHalfSize (cd + 2)) i) s with
            | none => none
            | some (t, child, s) =>
              some ((t.updateNode child (cd + 1 + 1)).2.2,
                n.setChild i (t.updateNode child (cd + 1 + 1)).2.1, s)
          else
            match readDataLeaf s with
            | none => none
            | some (v, s) =>
              some ((t.prune ((n.childAt i).withLogit v) (cd + 2) false).2,
                n.setChild i (t.prune ((n.childAt i).withLogit v) (cd + 2) false).1, s))
        (fun i =>
          if Octree.hasChildrenI (srcn.childAt i) = true then
            tw.writeNodesRecurs none 0 (cd + 2) (srcn.childAt i)
              (getChildCenter cW (tw.getNodeHalfSize (cd + 2)) i)
          else writeDataLeaf (srcn.childAt i).logit)
        srcn (fun s c => nodeSim (cd + 1 + 1) s c) hstep
        (List.range 8) (List.nodup_range 8) (fun j hj => List.mem_range.mp hj)
        u1 m1 rest hm1len hm1clean
    refine ⟨u2, m2, ?_, hlen2, ?_, ?_, ?_⟩
    · show Octree.readNodesRecurs none oth fth (cd + 1 + 2) u m cR _ = _
      simp only [Octree.readNodesRecurs, Octree.writeNodesRecurs, List.cons_append]
      simp only [hE]
      exact hloop
    · rw [Octree.hasChildrenI, hacs2, hm1acs]
      rfl
    · intro i hi
      exact hQ2 i hi (List.mem_range.mpr hi)
    · have hscE : scalarEq u u1 := by
        have h := expand_scalarEq u m (cd + 1 + 2)
        rw [hE] at h
        exact h
      exact scalarEq_trans hscE hsc2
theorem readNodes_roundtrip (lo hi oth fth : ℚ) (hfl : floatLowest ≤ lo)
    (t u2 : Octree) (rest : List Tok)
    (hwf : wfB t.depth_levels t.root = true)
    (hsum : summaryConsistentB t.depth_levels t.root = true)
    (hin : allInB lo hi t.depth_levels t.root = true)
    (hdl : 2 ≤ t.depth_levels)
    (hgeom : u2.depth_levels = t.depth_levels)
    (hrc : u2.root.children = none) (hra : u2.root.all_children_same = true) :
    ∃ u3, u2.readNodes none oth fth (t.writeNodes none 0 ++ rest) = some (u3, rest) ∧
      ∀ c : Code, logitAt t.depth_levels u3.root c = logitAt t.depth_levels t.root c := by
  obtain ⟨cd, hcd⟩ : ∃ cd, t.depth_levels = cd + 2 := ⟨t.depth_levels - 2, by omega⟩
  simp only [Octree.writeNodes, Octree.readNodes, bvAccept, not_true_eq_false, if_false,
    Bool.not_eq_true, reduceIte]
  by_cases hrch : Octree.hasChildrenI t.root = true
  · rw [if_pos (by exact ⟨hrch, by omega⟩)]
    rw [hgeom, hcd]
    simp only [List.cons_append, show (List.replicate 8 true).any id = true from rfl,
      if_true, reduceIte]
    obtain ⟨u4, m2, hrec, hlen4, hch4, hsims, hscal⟩ :=
      readNodesRecurs_align lo hi oth fth hfl cd t u2 t.root u2.root ⟨0, 0, 0⟩ ⟨0, 0, 0⟩ rest
        (hcd ▸ hwf) (hcd ▸ hsum) (hcd ▸ hin) hrch hrc hra
    rw [hrec]
    simp only []
    have hd4 : u4.depth_levels = cd + 2 := by rw [hscal.2.2.1, hgeom, hcd]
    rw [hd4]
    rcases hU : u4.updateNode m2 (cd + 2) with ⟨chg, root5, u5⟩
    obtain ⟨hslen, hslog, -⟩ := srcChild_facts (hcd ▸ hwf) (hcd ▸ hsum) (hcd ▸ hin) hrch
    have hres := updateNode_sim u4 (cd + 1) t.root m2 hrch hslen hslog
      (allInB_ge (hcd ▸ hin) hfl) hch4 hlen4 hsims
    have hres2 : nodeSim (cd + 1 + 1) t.root (u4.updateNode m2 (cd + 2)).2.1 := hres
    rw [hU] at hres2
    refine ⟨_, rfl, ?_⟩
    intro c
    simpa using hres2.2.2 c
  · rw [if_neg (by simp [hrch])]
    simp only [List.cons_append, show (List.replicate 8 false).any id = false from rfl,
      Bool.false_eq_true, if_false, reduceIte, writeDataLeaf, readDataLeaf]
    rcases hP : u2.prune (u2.root.withLogit t.root.logit) u2.depth_levels false
      with ⟨root5, u5⟩
    obtain ⟨hpl, hpc, hpa⟩ := prune_clean u2 (u2.root.withLogit t.root.logit) u2.depth_levels
      (by rw [INode.children_withLogit]; exact hrc)
    rw [hP] at hpl hpc hpa
    simp only at hpl hpc hpa
    have hsacs : t.root.all_children_same = true := by
      simpa [Octree.hasChildrenI] using hrch
    refine ⟨_, rfl, ?_⟩
    intro c
    show logitAt t.depth_levels root5 c = _
    rw [logitAt_of_leaf hpa, logitAt_of_leaf hsacs, hpl, INode.logit_withLogit]

/-- C1: writing a well-formed, summary-consistent tree (uncompressed,
non-binary, empty bounding volume, depth 0) succeeds, and reading the
produced stream into a tree of the same tree type whose root is collapsed
(as in a freshly constructed tree) succeeds and reproduces the original
logit at every code. -/
theorem c1_write_read_roundtrip (t u : Octree) (pexp plog : ℚ → ℚ)
    (cmp dec : List Tok → Option (List Tok)) (lo hi : ℚ)
    (hfl : floatLowest ≤ lo)
    (hwf : wfB t.depth_levels t.root = true)
    (hsum : summaryConsistentB t.depth_levels t.root = true)
    (hin : allInB lo hi t.depth_levels t.root = true)
    (hdl2 : 2 ≤ t.depth_levels) (hdl21 : t.depth_levels ≤ 21)
    (hres : 0 < t.resolution)
    (htype : u.tree_type = t.tree_type) (htne : t.tree_type ≠ "")
    (hocc : ¬ probabilityQ pexp t.occupancy_thres_log < 0)
    (hfree : ¬ probabilityQ pexp t.free_thres_log < 0)
    (huc : u.root.children = none) (hus : u.root.all_children_same = true) :
    ∃ f u2, t.write pexp none false false 0 cmp = (true, some f) ∧
      u.read plog dec f = some (true, u2) ∧
      ∀ c : Code, logitAt t.depth_levels u2.root c = logitAt t.depth_levels t.root c := by
  have hwrite : t.write pexp none false false 0 cmp =
      (true, some ⟨true, [HTok.comment, HTok.version "1.0.0", HTok.idTok t.tree_type,
        HTok.binaryTok false, HTok.resolutionTok t.resolution,
        HTok.depthLevelsTok t.depth_levels,
        HTok.occupancyThresTok (probabilityQ pexp t.occupancy_thres_log),
        HTok.freeThresTok (probabilityQ pexp t.free_thres_log),
        HTok.compressedTok false, HTok.usizeTok ((t.writeNodes none 0).length : ℤ),
        HTok.dataTok], t.writeNodes none 0⟩) := rfl
  have hhdr : u.readHeader [HTok.comment, HTok.version "1.0.0", HTok.idTok t.tree_type,
        HTok.binaryTok false, HTok.resolutionTok t.resolution,
        HTok.depthLevelsTok t.depth_levels,
        HTok.occupancyThresTok (probabilityQ pexp t.occupancy_thres_log),
        HTok.freeThresTok (probabilityQ pexp t.free_thres_log),
        HTok.compressedTok false, HTok.usizeTok ((t.writeNodes none 0).length : ℤ),
        HTok.dataTok] =
      some ⟨"1.0.0", t.tree_type, false, t.resolution, t.depth_levels,
        probabilityQ pexp t.occupancy_thres_log, probabilityQ pexp t.free_thres_log,
        false, ((t.writeNodes none 0).length : ℤ)⟩ := by
    simp only [Octree.readHeader, readHeaderLoop]
    rw [if_neg (by simp), if_neg htne, if_neg (by simp), if_neg (by simp [not_le.mpr hres]),
      if_neg (by omega), if_neg hocc, if_neg hfree,
      if_neg (by simp), if_neg (by simp [htype])]
  have hdata : ∃ u2,
      u.readData none plog dec (t.writeNodes none 0) t.resolution t.depth_levels
        (probabilityQ pexp t.occupancy_thres_log) (probabilityQ pexp t.free_thres_log)
        ((t.writeNodes none 0).length : ℤ) false false = some (true, u2) ∧
      ∀ c : Code, logitAt t.depth_levels u2.root c = logitAt t.depth_levels t.root c := by
    simp only [Octree.readData, Octree.binarySupport, Bool.false_eq_true, false_and,
      if_false, reduceIte]
    by_cases hgeo : u.resolution ≠ t.resolution ∨ u.depth_levels ≠ t.depth_levels
    · rw [if_pos hgeo]
      have hu2t : ∃ w : Octree,
          Option.map (fun t => { t with root := INode.default })
            (u.clear t.resolution t.depth_levels) = some w ∧
          w.depth_levels = t.depth_levels ∧ w.root = INode.default := by
        simp only [Octree.clear]
        rw [if_neg (by omega)]
        rcases hCR : u.clearRecurs u.depth_levels u.root with ⟨nC, uC⟩
        exact ⟨_, rfl, rfl, rfl⟩
      obtain ⟨w, hw, hwd, hwr⟩ := hu2t
      rw [hw]
      simp only []
      obtain ⟨u3, hrn, hlog⟩ := readNodes_roundtrip lo hi
        (logitQ plog (probabilityQ pexp t.occupancy_thres_log))
        (logitQ plog (probabilityQ pexp t.free_thres_log)) hfl t w []
        hwf hsum hin hdl2 hwd (by rw [hwr]; rfl) (by rw [hwr]; rfl)
      rw [List.append_nil] at hrn
      rw [hrn]
      exact ⟨u3, rfl, hlog⟩
    · rw [if_neg hgeo]
      simp only []
      push_neg at hgeo
      obtain ⟨u3, hrn, hlog⟩ := readNodes_roundtrip lo hi
        (logitQ plog (probabilityQ pexp t.occupancy_thres_log))
        (logitQ plog (probabilityQ pexp t.free_thres_log)) hfl t u []
        hwf hsum hin hdl2 hgeo.2 huc hus
      rw [List.append_nil] at hrn
      rw [hrn]
      exact ⟨u3, rfl, hlog⟩
  obtain ⟨u2, hrd, hlog⟩ := hdata
  refine ⟨_, u2, hwrite, ?_, hlog⟩
  simp only [Octree.read]
  rw [hhdr]
  simp only []
  exact hrd

theorem c1_write_read_roundtrip_witness :
    ∃ f u2,
      (testTree 2 (leafOf 5)).write (fun _ => 1) none false false 0 (fun _ => none) =
        (true, some f) ∧
      (testTree 3 (leafOf 0)).read (fun _ => 0) (fun _ => none) f = some (true, u2) ∧
      ∀ c : Code,
        logitAt (testTree 2 (leafOf 5)).depth_levels u2.root c =
          logitAt (testTree 2 (leafOf 5)).depth_levels (testTree 2 (leafOf 5)).root c :=
  c1_write_read_roundtrip (testTree 2 (leafOf 5)) (testTree 3 (leafOf 0))
    (fun _ => 1) (fun _ => 0) (fun _ => none) (fun _ => none) (-10) 10
    (by with_unfolding_all decide) (by with_unfolding_all decide)
    (by with_unfolding_all decide) (by with_unfolding_all decide)
    (by with_unfolding_all decide) (by with_unfolding_all decide)
    (by with_unfolding_all decide) (by with_unfolding_all decide)
    (by with_unfolding_all decide) (by with_unfolding_all decide)
    (by with_unfolding_all decide) (by with_unfolding_all rfl)
    (by with_unfolding_all rfl)

end UFOMap
